import Mathlib

/-!
G4ShowerMap: forest store, aggregation engine and query facade

Shallow embedding of `G4ShowerMapInternals.hh`, `G4ShowerMap.hh` and
`G4ShowerMap.cc`.

* Nodes live on a heap (`List (Node T)`); a pointer `Node<T,ID>*` is an
  `Option Nat` (`none` is the null pointer, `some a` the cell at index `a`);
  `new Node` allocates the cell at index `heap.length`.
* `std::map<ID,Node*>` is an association list kept sorted by key
  (`mapInsert` is `operator[]` followed by assignment, `mapFind` is `find`).
* Identifiers are `int`, modelled by `Int` (no arithmetic is done on them).
* The quantity type is the template parameter `T`; the code needs `T()` and
  `+=`, here `Zero T` and `Add T`.
* Every operation returns `Except Fault _`: dereferencing a null pointer or
  the `end()` iterator is a `Fault`, and every loop of the source whose
  termination depends on the pointer structure takes a fuel argument.
-/

namespace G4ShowerMap

/-- Payload of a node, `G4TrackData<T>`: the particle definition pointer
(an address) and the quantity. -/
structure G4TrackData (T : Type) where
  pdef : Nat
  data : T
deriving DecidableEq, Repr

/-- One heap cell, `internal::Node<T,ID>` with `ID = int`. -/
structure Node (T : Type) where
  m_id : Int
  m_data : G4TrackData T
  p_parent : Option Nat
  p_firstChild : Option Nat
  p_nextSibling : Option Nat
deriving DecidableEq, Repr

/-- State of `internal::Container<T,int>`: the heap of allocated nodes, the
map from id to node address and the cursor `p_current`. -/
structure Container (T : Type) where
  heap : List (Node T)
  m_map : List (Int × Nat)
  p_current : Option Nat
deriving DecidableEq, Repr

/-- Ways in which a call can fail to return a value. -/
inductive Fault where
  | missingId
  | nullPointer
  | danglingPointer
  | outOfFuel
deriving DecidableEq, Repr

/-- Lookup `std::map::find`: the value stored under `k`, if any. -/
def mapFind {V : Type} (k : Int) : List (Int × V) → Option V
  | [] => none
  | (k', v) :: rest => if k = k' then some v else mapFind k rest

/-- Assignment `m[k] = v` on a key-sorted association list: replaces the
value of an existing key, otherwise inserts at the sorted position. -/
def mapInsert {V : Type} (k : Int) (v : V) : List (Int × V) → List (Int × V)
  | [] => [(k, v)]
  | (k', v') :: rest =>
    if k < k' then (k, v) :: (k', v') :: rest
    else if k = k' then (k, v) :: rest
    else (k', v') :: mapInsert k v rest

/-- A freshly constructed container: no node and an empty map. The source
leaves `p_current` uninitialised; the model starts it as the null pointer,
and no operation below reads the cursor before a `Select`. -/
def Container.empty {T : Type} : Container T :=
  { heap := [], m_map := [], p_current := none }

/-- Dereference of a node pointer. -/
def deref {T : Type} (heap : List (Node T)) : Option Nat → Except Fault (Node T)
  | none => .error .nullPointer
  | some a =>
    match heap[a]? with
    | none => .error .danglingPointer
    | some nd => .ok nd

/-- The loop of `Node::Node(id, data, parent)` (lines 52-59): walks the
sibling chain from `next` and stores `this` in the first null
`p_nextSibling`. -/
def linkLast {T : Type} : Nat → List (Node T) → Nat → Nat → Except Fault (List (Node T))
  | 0, _, _, _ => .error .outOfFuel
  | fuel + 1, heap, next, this =>
    match heap[next]? with
    | none => .error .danglingPointer
    | some nd =>
      match nd.p_nextSibling with
      | none => .ok (heap.set next { nd with p_nextSibling := some this })
      | some nx => linkLast fuel heap nx this

/-- Constructor `Node(id, data, parent)` (lines 49-61) for the new cell at
address `heap.length`: links it into the parent's child chain and allocates
it. -/
def newNodeWithParent {T : Type} (fuel : Nat) (heap : List (Node T)) (id : Int)
    (data : G4TrackData T) (parent : Nat) : Except Fault (List (Node T)) :=
  let this := heap.length
  let nd : Node T :=
    { m_id := id, m_data := data, p_parent := some parent,
      p_firstChild := none, p_nextSibling := none }
  match heap[parent]? with
  | none => .error .danglingPointer
  | some pn =>
    match pn.p_firstChild with
    | none => .ok (heap.set parent { pn with p_firstChild := some this } ++ [nd])
    | some fc =>
      match linkLast fuel heap fc this with
      | .error e => .error e
      | .ok heap1 => .ok (heap1 ++ [nd])

/-- Constructor `Node(id, data)` (line 48): a cell without relations. -/
def newNode {T : Type} (heap : List (Node T)) (id : Int) (data : G4TrackData T) :
    List (Node T) :=
  heap ++ [{ m_id := id, m_data := data, p_parent := none,
             p_firstChild := none, p_nextSibling := none }]

/-- Insertion `Container::AddOne` (lines 93-101). The new node gets address
`heap.length`; the cursor is not touched. -/
def AddOne {T : Type} (fuel : Nat) (id parent : Int) (data : G4TrackData T)
    (c : Container T) : Except Fault (Container T) :=
  match mapFind parent c.m_map with
  | some p =>
    match newNodeWithParent fuel c.heap id data p with
    | .error e => .error e
    | .ok heap1 =>
      .ok { c with heap := heap1, m_map := mapInsert id c.heap.length c.m_map }
  | none =>
    .ok { c with heap := newNode c.heap id data,
                 m_map := mapInsert id c.heap.length c.m_map }

/-- Membership test `Container::Exists`. -/
def Exists {T : Type} (id : Int) (c : Container T) : Bool :=
  (mapFind id c.m_map).isSome

/-- Cursor move `Container::Select`: dereferences `m_map.find(id)`, which is
the `end()` iterator when the id is missing. -/
def Select {T : Type} (id : Int) (c : Container T) : Except Fault (Container T) :=
  match mapFind id c.m_map with
  | none => .error .missingId
  | some a => .ok { c with p_current := some a }

/-- Accessor `Container::GetData()`. -/
def GetData {T : Type} (c : Container T) : Except Fault (G4TrackData T) :=
  match deref c.heap c.p_current with
  | .error e => .error e
  | .ok nd => .ok nd.m_data

/-- Accessor `Container::GetCurrentId`. -/
def GetCurrentId {T : Type} (c : Container T) : Except Fault Int :=
  match deref c.heap c.p_current with
  | .error e => .error e
  | .ok nd => .ok nd.m_id

/-- Cursor move `Container::SelectParent`: the returned flag is the new
cursor converted to `bool`. -/
def SelectParent {T : Type} (c : Container T) : Except Fault (Bool × Container T) :=
  match deref c.heap c.p_current with
  | .error e => .error e
  | .ok nd => .ok (nd.p_parent.isSome, { c with p_current := nd.p_parent })

/-- Cursor move `Container::SelectFirstChild`. -/
def SelectFirstChild {T : Type} (c : Container T) : Except Fault (Bool × Container T) :=
  match deref c.heap c.p_current with
  | .error e => .error e
  | .ok nd => .ok (nd.p_firstChild.isSome, { c with p_current := nd.p_firstChild })

/-- Cursor move `Container::SelectNextSibling`. -/
def SelectNextSibling {T : Type} (c : Container T) : Except Fault (Bool × Container T) :=
  match deref c.heap c.p_current with
  | .error e => .error e
  | .ok nd => .ok (nd.p_nextSibling.isSome, { c with p_current := nd.p_nextSibling })

/-- Test `Container::CurrentValid`. -/
def CurrentValid {T : Type} (c : Container T) : Bool :=
  c.p_current.isSome

/-- Mutation `Container::UpdateCurrentValue`: overwrites the payload of the
node under the cursor. -/
def UpdateCurrentValue {T : Type} (newval : G4TrackData T) (c : Container T) :
    Except Fault (Container T) :=
  match c.p_current with
  | none => .error .nullPointer
  | some a =>
    match c.heap[a]? with
    | none => .error .danglingPointer
    | some nd => .ok { c with heap := c.heap.set a { nd with m_data := newval } }

/-! ## Aggregation engine `TShowerMap<T>` -/

/-- Predicates on payloads, `conditions::basecondition`. -/
abbrev Condition (T : Type) := G4TrackData T → Bool

/-- The permissive predicate `conditions::dummy` (`alwaysTrue`,
`forceaccept`). -/
def alwaysTrue {T : Type} : Condition T := fun _ => true

/-- Value at the cursor, `TShowerMap::Data` (lines 66-73). -/
def Data {T : Type} [Zero T] [Add T] (cond : Condition T) (c : Container T) :
    Except Fault T :=
  if CurrentValid c then
    match GetData c with
    | .error e => .error e
    | .ok d => .ok (if cond d then 0 + d.data else 0)
  else .ok 0

/-- The `while (SelectNextSibling()) result += Data(cond)` loop of
`SumSiblings` (lines 86-88). -/
def sumSiblingsLoop {T : Type} [Zero T] [Add T] (cond : Condition T) :
    Nat → T → Container T → Except Fault (T × Container T)
  | 0, _, _ => .error .outOfFuel
  | fuel + 1, result, c =>
    match SelectNextSibling c with
    | .error e => .error e
    | .ok (false, c1) => .ok (result, c1)
    | .ok (true, c1) =>
      match Data cond c1 with
      | .error e => .error e
      | .ok d => sumSiblingsLoop cond fuel (result + d) c1

/-- Sum over the sibling chain, `TShowerMap::SumSiblings` (lines 76-93). -/
def SumSiblings {T : Type} [Zero T] [Add T] (fuel : Nat) (cond : Condition T)
    (c : Container T) : Except Fault (T × Container T) :=
  if CurrentValid c then
    match GetCurrentId c with
    | .error e => .error e
    | .ok cid =>
      match SelectParent c with
      | .error e => .error e
      | .ok (false, c1) =>
        match Data cond c1 with
        | .error e => .error e
        | .ok d =>
          match Select cid c1 with
          | .error e => .error e
          | .ok c2 => .ok (0 + d, c2)
      | .ok (true, c1) =>
        match SelectFirstChild c1 with
        | .error e => .error e
        | .ok (_, c2) =>
          match Data cond c2 with
          | .error e => .error e
          | .ok d =>
            match sumSiblingsLoop cond fuel (0 + d) c2 with
            | .error e => .error e
            | .ok (result, c3) =>
              match Select cid c3 with
              | .error e => .error e
              | .ok c4 => .ok (result, c4)
  else .ok (0, c)

/-- Sum over the direct children, `TShowerMap::SumChildren` (lines 96-105). -/
def SumChildren {T : Type} [Zero T] [Add T] (fuel : Nat) (cond : Condition T)
    (c : Container T) : Except Fault (T × Container T) :=
  if CurrentValid c then
    match GetCurrentId c with
    | .error e => .error e
    | .ok cid =>
      match SelectFirstChild c with
      | .error e => .error e
      | .ok (_, c1) =>
        match SumSiblings fuel cond c1 with
        | .error e => .error e
        | .ok (s, c2) =>
          match Select cid c2 with
          | .error e => .error e
          | .ok c3 => .ok (0 + s, c3)
  else .ok (0, c)

mutual
/-- The protected recursive `TShowerMap::SumBranch(T& result, cond)`
(lines 149-163); `result` is threaded through. -/
def SumBranchAux {T : Type} [Zero T] [Add T] (cond : Condition T) :
    Nat → T → Container T → Except Fault (T × Container T)
  | 0, _, _ => .error .outOfFuel
  | fuel + 1, result, c =>
    if CurrentValid c then
      match GetData c with
      | .error e => .error e
      | .ok _ =>
        match GetCurrentId c with
        | .error e => .error e
        | .ok cid =>
          match SelectFirstChild c with
          | .error e => .error e
          | .ok (hasChild, c1) =>
            match (if hasChild then SumBranchLoop cond fuel result c1
                   else .ok (result, c1)) with
            | .error e => .error e
            | .ok (result1, c2) =>
              match Select cid c2 with
              | .error e => .error e
              | .ok c3 =>
                match Data cond c3 with
                | .error e => .error e
                | .ok d => .ok (result1 + d, c3)
    else .ok (result, c)
/-- The `do { SumBranch(result, cond); } while (SelectNextSibling())` loop
of lines 155-157. -/
def SumBranchLoop {T : Type} [Zero T] [Add T] (cond : Condition T) :
    Nat → T → Container T → Except Fault (T × Container T)
  | 0, _, _ => .error .outOfFuel
  | fuel + 1, result, c =>
    match SumBranchAux cond fuel result c with
    | .error e => .error e
    | .ok (result1, c1) =>
      match SelectNextSibling c1 with
      | .error e => .error e
      | .ok (false, c2) => .ok (result1, c2)
      | .ok (true, c2) => SumBranchLoop cond fuel result1 c2
end

/-- Sum over the whole branch, public `TShowerMap::SumBranch(cond)`
(lines 108-112). -/
def SumBranch {T : Type} [Zero T] [Add T] (fuel : Nat) (cond : Condition T)
    (c : Container T) : Except Fault (T × Container T) :=
  SumBranchAux cond fuel 0 c

/-- The `while (SelectParent()) result += Data(cond)` loop of `SumParent`
(line 119). -/
def sumParentLoop {T : Type} [Zero T] [Add T] (cond : Condition T) :
    Nat → T → Container T → Except Fault (T × Container T)
  | 0, _, _ => .error .outOfFuel
  | fuel + 1, result, c =>
    match SelectParent c with
    | .error e => .error e
    | .ok (false, c1) => .ok (result, c1)
    | .ok (true, c1) =>
      match Data cond c1 with
      | .error e => .error e
      | .ok d => sumParentLoop cond fuel (result + d) c1

/-- Sum over the ancestors, `TShowerMap::SumParent` (lines 115-123). -/
def SumParent {T : Type} [Zero T] [Add T] (fuel : Nat) (cond : Condition T)
    (c : Container T) : Except Fault (T × Container T) :=
  if CurrentValid c then
    match GetCurrentId c with
    | .error e => .error e
    | .ok cid =>
      match sumParentLoop cond fuel 0 c with
      | .error e => .error e
      | .ok (result, c1) =>
        match Select cid c1 with
        | .error e => .error e
        | .ok c2 => .ok (result, c2)
  else .ok (0, c)

/-- The `while (SelectParent())` loop of `HasParent` (lines 131-134); the
triple is `(result, id, cursor state)`. -/
def hasParentLoop {T : Type} (cond : Condition T) :
    Nat → Bool → Int → Container T → Except Fault (Bool × Int × Container T)
  | 0, _, _, _ => .error .outOfFuel
  | fuel + 1, result, id, c =>
    match SelectParent c with
    | .error e => .error e
    | .ok (false, c1) => .ok (result, id, c1)
    | .ok (true, c1) =>
      match GetData c1 with
      | .error e => .error e
      | .ok d =>
        if cond d then
          match GetCurrentId c1 with
          | .error e => .error e
          | .ok cur => .ok (true, cur, c1)
        else hasParentLoop cond fuel false id c1

/-- Search for a matching ancestor, `TShowerMap::HasParent`
(lines 127-138); `id` is the in/out reference parameter. -/
def HasParent {T : Type} (fuel : Nat) (id : Int) (cond : Condition T)
    (c : Container T) : Except Fault (Bool × Int × Container T) :=
  if CurrentValid c then
    match GetCurrentId c with
    | .error e => .error e
    | .ok cid =>
      match hasParentLoop cond fuel false id c with
      | .error e => .error e
      | .ok (result, id1, c1) =>
        match Select cid c1 with
        | .error e => .error e
        | .ok c2 => .ok (result, id1, c2)
  else .ok (false, id, c)

/-- Payload write `TShowerMap::UpdateCurrent` (lines 141-145): keeps the
tag, replaces the quantity. -/
def UpdateCurrent {T : Type} (val : T) (c : Container T) : Except Fault (Container T) :=
  match GetData c with
  | .error e => .error e
  | .ok d => UpdateCurrentValue { d with data := val } c

/-! ## Query facade `Analysis` -/

/-- Insertion `Analysis::AddSecondary` (G4ShowerMap.cc lines 108-111). -/
def AddSecondary {T : Type} (fuel : Nat) (id parent_id : Int) (pd : Nat) (value : T)
    (c : Container T) : Except Fault (Container T) :=
  AddOne fuel id parent_id { pdef := pd, data := value } c

/-- The inner `do { ... } while (SelectParent())` loop of `GetHeads`
(G4ShowerMap.cc lines 17-26); returns the final `idx` and the cursor
state. -/
def headsAscend {T : Type} (cond : Condition T) (helper : List (Int × Bool)) :
    Nat → Int → Container T → Except Fault (Int × Container T)
  | 0, _, _ => .error .outOfFuel
  | fuel + 1, idx, c =>
    match GetCurrentId c with
    | .error e => .error e
    | .ok thisid =>
      if (mapFind thisid helper).isSome then .ok (-1, c)
      else
        match GetData c with
        | .error e => .error e
        | .ok d =>
          let idx1 := if cond d then thisid else idx
          match SelectParent c with
          | .error e => .error e
          | .ok (false, c1) => .ok (idx1, c1)
          | .ok (true, c1) => headsAscend cond helper fuel idx1 c1

/-- The outer `while ( it != m_map.end() )` loop of `GetHeads`
(G4ShowerMap.cc lines 14-34) over the remaining map entries `it`. -/
def headsLoop {T : Type} (fuel : Nat) (cond : Condition T) :
    List (Int × Nat) → Bool → List Int → List (Int × Bool) → Container T →
      Except Fault (Bool × List Int × Container T)
  | [], found, result, _, c => .ok (found, result, c)
  | (k, _) :: it, found, result, helper, c =>
    match Select k c with
    | .error e => .error e
    | .ok c1 =>
      match headsAscend cond helper fuel (-1) c1 with
      | .error e => .error e
      | .ok (idx, c2) =>
        if idx > -1 then
          headsLoop fuel cond it true (result ++ [idx]) (mapInsert idx true helper) c2
        else headsLoop fuel cond it found result helper c2

/-- Head discovery `Analysis::GetHeads` (G4ShowerMap.cc lines 9-36);
`result` is the in/out vector. -/
def GetHeads {T : Type} (fuel : Nat) (result : List Int) (cond : Condition T)
    (c : Container T) : Except Fault (Bool × List Int × Container T) :=
  headsLoop fuel cond c.m_map false result [] c

/-- Query `Analysis::Matches` (G4ShowerMap.cc lines 38-45). -/
def Matches {T : Type} (id : Int) (cond : Condition T) (c : Container T) :
    Except Fault (Bool × Container T) :=
  if Exists id c then
    match Select id c with
    | .error e => .error e
    | .ok c1 =>
      match GetData c1 with
      | .error e => .error e
      | .ok d => if cond d then .ok (true, c1) else .ok (false, c1)
  else .ok (false, c)

/-- Query `Analysis::GetValue` (G4ShowerMap.cc lines 47-54); `result` is the
in/out reference parameter. -/
def GetValue {T : Type} [Zero T] [Add T] (id : Int) (result : T) (cond : Condition T)
    (c : Container T) : Except Fault (Bool × T × Container T) :=
  if Exists id c then
    match Select id c with
    | .error e => .error e
    | .ok c1 =>
      match Data cond c1 with
      | .error e => .error e
      | .ok r =>
        match GetData c1 with
        | .error e => .error e
        | .ok d => .ok (cond d, r, c1)
  else .ok (false, result, c)

/-- Mutation `Analysis::Update` (G4ShowerMap.cc lines 56-65). -/
def Update {T : Type} (id : Int) (value : T) (cond : Condition T) (c : Container T) :
    Except Fault (Bool × Container T) :=
  if Exists id c then
    match Select id c with
    | .error e => .error e
    | .ok c1 =>
      match GetData c1 with
      | .error e => .error e
      | .ok d =>
        if cond d then
          match UpdateCurrent value c1 with
          | .error e => .error e
          | .ok c2 => .ok (true, c2)
        else .ok (false, c1)
  else .ok (false, c)

/-- Query `Analysis::ParentMatches` (G4ShowerMap.cc lines 67-73);
`parentid` is the in/out reference parameter. -/
def ParentMatches {T : Type} (fuel : Nat) (id parentid : Int) (cond : Condition T)
    (c : Container T) : Except Fault (Bool × Int × Container T) :=
  if Exists id c then
    match Select id c with
    | .error e => .error e
    | .ok c1 => HasParent fuel parentid cond c1
  else .ok (false, parentid, c)

/-- Query `Analysis::GetSumParents` (G4ShowerMap.cc lines 76-84); `result`
is the in/out reference parameter. -/
def GetSumParents {T : Type} [Zero T] [Add T] (fuel : Nat) (id : Int) (result : T)
    (cond : Condition T) (c : Container T) : Except Fault (Bool × T × Container T) :=
  if Exists id c then
    match Select id c with
    | .error e => .error e
    | .ok c1 =>
      match SumParent fuel cond c1 with
      | .error e => .error e
      | .ok (r, c2) =>
        match HasParent fuel 0 cond c2 with
        | .error e => .error e
        | .ok (b, _, c3) => .ok (b, r, c3)
  else .ok (false, result, c)

/-- The `do { ... } while (SelectNextSibling())` loop of `GetSumSecondaries`
(G4ShowerMap.cc lines 91-98). -/
def sumSecondariesLoop {T : Type} [Add T] (cond : Condition T) :
    Nat → Bool → T → Container T → Except Fault (Bool × T × Container T)
  | 0, _, _, _ => .error .outOfFuel
  | fuel + 1, retval, result, c =>
    match GetData c with
    | .error e => .error e
    | .ok d =>
      let retval1 := if cond d then true else retval
      let result1 := if cond d then result + d.data else result
      match SelectNextSibling c with
      | .error e => .error e
      | .ok (false, c1) => .ok (retval1, result1, c1)
      | .ok (true, c1) => sumSecondariesLoop cond fuel retval1 result1 c1

/-- Query `Analysis::GetSumSecondaries` (G4ShowerMap.cc lines 86-102);
`result` is the in/out reference parameter. -/
def GetSumSecondaries {T : Type} [Add T] (fuel : Nat) (id : Int) (result : T)
    (cond : Condition T) (c : Container T) : Except Fault (Bool × T × Container T) :=
  if Exists id c then
    match Select id c with
    | .error e => .error e
    | .ok c1 =>
      match SelectFirstChild c1 with
      | .error e => .error e
      | .ok (false, c2) => .ok (false, result, c2)
      | .ok (true, c2) => sumSecondariesLoop cond fuel false result c2
  else .ok (false, result, c)

/-- The `do { ... } while (SelectNextSibling())` loop of `GetSecondariesIds`
(G4ShowerMap.cc lines 119-121). -/
def secondariesIdsLoop {T : Type} (cond : Condition T) :
    Nat → Bool → List Int → Container T → Except Fault (Bool × List Int × Container T)
  | 0, _, _, _ => .error .outOfFuel
  | fuel + 1, retval, result, c =>
    match GetData c with
    | .error e => .error e
    | .ok d =>
      match (if cond d then
               match GetCurrentId c with
               | .error e => .error e
               | .ok cur => .ok (true, result ++ [cur])
             else .ok (retval, result) : Except Fault (Bool × List Int)) with
      | .error e => .error e
      | .ok (retval1, result1) =>
        match SelectNextSibling c with
        | .error e => .error e
        | .ok (false, c1) => .ok (retval1, result1, c1)
        | .ok (true, c1) => secondariesIdsLoop cond fuel retval1 result1 c1

/-- Query `Analysis::GetSecondariesIds` (G4ShowerMap.cc lines 113-126);
`result` is the in/out vector. -/
def GetSecondariesIds {T : Type} (fuel : Nat) (id : Int) (result : List Int)
    (cond : Condition T) (c : Container T) :
    Except Fault (Bool × List Int × Container T) :=
  if Exists id c then
    match Select id c with
    | .error e => .error e
    | .ok c1 =>
      match SelectFirstChild c1 with
      | .error e => .error e
      | .ok (false, c2) => .ok (false, result, c2)
      | .ok (true, c2) => secondariesIdsLoop cond fuel false result c2
  else .ok (false, result, c)

/-- The loop of `Container::Clear` (G4ShowerMapInternals.hh lines 104-110)
on the remaining map entries: erases the first entry and deletes its node.
Returns the remaining map and the addresses deleted so far. -/
def clearLoop : List (Int × Nat) → List Nat → List (Int × Nat) × List Nat
  | [], deleted => ([], deleted)
  | (_, e) :: rest, deleted => clearLoop rest (deleted ++ [e])

/-- Whole-forest removal `Container::Clear` / `Analysis::Clear`: the
container after the call together with the addresses of the deleted nodes.
The heap list keeps the cells of deleted nodes (a deleted cell is only
recorded in the returned list); `p_current` is not assigned by the source. -/
def Clear {T : Type} (c : Container T) : Container T × List Nat :=
  ({ c with m_map := (clearLoop c.m_map []).1 }, (clearLoop c.m_map []).2)

/-- Accessor `Analysis::Size`: the number of map entries. -/
def Size {T : Type} (c : Container T) : Nat :=
  c.m_map.length

/-! ## Vocabulary of the claims -/

/-- Forests built from the empty container by insertions of pairwise
distinct ids (each inserted id is absent from the map at insertion time). -/
inductive Built {T : Type} : Container T → Prop
  | empty : Built Container.empty
  | addOne {c c1 : Container T} {fuel : Nat} {id parent : Int} {data : G4TrackData T} :
      Built c → Exists id c = false → AddOne fuel id parent data c = .ok c1 → Built c1

/-- The sequence of addresses obtained from a pointer by following
`p_nextSibling` until the null pointer. -/
inductive SiblingChain {T : Type} (heap : List (Node T)) : Option Nat → List Nat → Prop
  | nil : SiblingChain heap none []
  | cons {a : Nat} {nd : Node T} {l : List Nat} :
      heap[a]? = some nd → SiblingChain heap nd.p_nextSibling l →
      SiblingChain heap (some a) (a :: l)

/-- The sequence of addresses obtained from a pointer by following
`p_parent` until the null pointer: started at a node's parent pointer it
lists the node's strict ancestors, nearest first, ending with the root. -/
inductive AncestorChain {T : Type} (heap : List (Node T)) : Option Nat → List Nat → Prop
  | nil : AncestorChain heap none []
  | cons {a : Nat} {nd : Node T} {l : List Nat} :
      heap[a]? = some nd → AncestorChain heap nd.p_parent l →
      AncestorChain heap (some a) (a :: l)

/-- Parent pointer stored in the cell at address `b` (null when the cell is
not allocated). -/
def parentOf {T : Type} (heap : List (Node T)) (b : Nat) : Option Nat :=
  match heap[b]? with
  | none => none
  | some nd => nd.p_parent

/-- Direct children of the node at address `a`: the allocated cells whose
`p_parent` is `a`, by increasing address (allocation order). -/
def childrenOf {T : Type} (heap : List (Node T)) (a : Nat) : List Nat :=
  (List.range heap.length).filter (fun b => decide (parentOf heap b = some a))

/-- Whether the payload at address `b` satisfies `cond`. -/
def satisfies {T : Type} (cond : Condition T) (heap : List (Node T)) (b : Nat) : Bool :=
  match heap[b]? with
  | none => false
  | some nd => cond nd.m_data

/-- Quantity stored at address `b` (zero when the cell is not allocated). -/
def quantityAt {T : Type} [Zero T] (heap : List (Node T)) (b : Nat) : T :=
  match heap[b]? with
  | none => 0
  | some nd => nd.m_data.data

/-- Sum of the quantities of those nodes of `l` whose payload satisfies
`cond`. -/
def sumOver {T : Type} [Zero T] [Add T] (cond : Condition T) (heap : List (Node T))
    (l : List Nat) : T :=
  ((l.filter (satisfies cond heap)).map (quantityAt heap)).sum

/-- Identifier stored at address `b`. -/
def idAt {T : Type} (heap : List (Node T)) (b : Nat) : Option Int :=
  match heap[b]? with
  | none => none
  | some nd => some nd.m_id

/-- The node at `a` followed by all its descendants, in depth-first
pre-order; `depth` bounds the number of levels explored below `a`. -/
def branchNodes {T : Type} (heap : List (Node T)) : Nat → Nat → List Nat
  | 0, a => [a]
  | depth + 1, a => a :: ((childrenOf heap a).map (branchNodes heap depth)).flatten

/-- Structural invariant of the heap and the map of a built forest: the map
sends each registered id to a cell carrying that id, every cell is
registered under its own id, a parent is allocated before its children, and
the sibling chain hanging from `p_firstChild` lists exactly the children. -/
structure HeapInv {T : Type} (heap : List (Node T)) (m : List (Int × Nat)) : Prop where
  map_ok : ∀ id a, mapFind id m = some a → ∃ nd, heap[a]? = some nd ∧ nd.m_id = id
  reg : ∀ a (nd : Node T), heap[a]? = some nd → mapFind nd.m_id m = some a
  par : ∀ a (nd : Node T) p, heap[a]? = some nd → nd.p_parent = some p → p < a
  chain : ∀ a (nd : Node T), heap[a]? = some nd →
    SiblingChain heap nd.p_firstChild (childrenOf heap a)

/-- Two heaps of the same size whose cells agree on the parent pointer. -/
structure SameParents {T : Type} (heap heap1 : List (Node T)) : Prop where
  len : heap1.length = heap.length
  par : ∀ b : Nat, parentOf heap1 b = parentOf heap b

/-- Two heaps of the same size whose cells agree on id, payload and parent. -/
structure SameCells {T : Type} (heap heap1 : List (Node T)) : Prop where
  len : heap1.length = heap.length
  cell : ∀ (b : Nat) (nd1 : Node T), heap1[b]? = some nd1 →
    ∃ nd : Node T, heap[b]? = some nd ∧ nd1.m_id = nd.m_id ∧ nd1.m_data = nd.m_data ∧
      nd1.p_parent = nd.p_parent

/-- The cell that `AddOne(id, parent, data)` allocates. -/
def newCell {T : Type} (m : List (Int × Nat)) (id parent : Int) (data : G4TrackData T) :
    Node T :=
  { m_id := id, m_data := data, p_parent := mapFind parent m,
    p_firstChild := none, p_nextSibling := none }

/-- Contribution of the node at `b` to a sum: its quantity when the payload
satisfies `cond`, zero otherwise. -/
def nodeValue {T : Type} [Zero T] (cond : Condition T) (heap : List (Node T)) (b : Nat) : T :=
  if satisfies cond heap b then quantityAt heap b else 0

/-- Result of the ancestor search on the ancestor list `l` (nearest first):
the first ancestor whose payload satisfies `cond` gives `true` and its id,
no such ancestor gives `false` and the id passed in. -/
def nearestMatch {T : Type} (cond : Condition T) (heap : List (Node T)) (id : Int) :
    List Nat → Bool × Int
  | [] => (false, id)
  | b :: l =>
    match heap[b]? with
    | none => nearestMatch cond heap id l
    | some nb => if cond nb.m_data then (true, nb.m_id) else nearestMatch cond heap id l

/-- Sum of the quantities of the node at `a` and of all its descendants
whose payload satisfies `cond`. -/
def branchSum {T : Type} [Zero T] [Add T] (cond : Condition T) (heap : List (Node T))
    (a : Nat) : T :=
  sumOver cond heap (branchNodes heap heap.length a)

/-- The id `id` is registered for a node whose payload satisfies `cond` and
none of whose strict ancestors has a payload satisfying `cond`. -/
def IsHead {T : Type} (cond : Condition T) (heap : List (Node T)) (m : List (Int × Nat))
    (id : Int) : Prop :=
  ∃ (a : Nat) (nd : Node T), mapFind id m = some a ∧ heap[a]? = some nd ∧ nd.m_id = id ∧
    cond nd.m_data = true ∧
    ∃ anc, AncestorChain heap nd.p_parent anc ∧ ∀ b ∈ anc, satisfies cond heap b = false

/-- One insertion step of the driver `test.cc`: `AddSecondary` with enough
fuel; the container is returned unchanged if the call faults. -/
def addStep (id parent_id : Int) (pd : Nat) (value : Int) (c : Container Int) :
    Container Int :=
  match AddSecondary c.heap.length id parent_id pd value c with
  | .ok c1 => c1
  | .error _ => c

/-- The reference forest of `test.cc` (lines 54-62), quantities in tenths:
`1 <- 2 <- {3, 4, 5, 9}`, `4 <- {6, 7}`, `5 <- 8`; tag 1 is `e-`, tag 2 is
`e+`, tag 3 is `p`. -/
def referenceForest : Container Int :=
  addStep 9 2 3 9 (addStep 8 5 2 8 (addStep 7 4 1 7 (addStep 6 4 3 6 (addStep 5 2 3 5
    (addStep 4 2 3 4 (addStep 3 2 2 3 (addStep 2 1 1 2 (addStep 1 0 1 1 Container.empty))))))))

/-- The reference forest with the cursor on the node stored at address `a`. -/
def referenceAt (a : Nat) : Container Int :=
  { referenceForest with p_current := some a }

/-- The predicate `ptype(&electron)` of `test.cc` on tags. -/
def elefilter : Condition Int := fun d => d.pdef == 1

/-- The predicate `ptype(&proton)` of `test.cc` on tags. -/
def pfilter : Condition Int := fun d => d.pdef == 3

/-- The forest `1 <- 2` after the first two insertions of `test.cc`. -/
def twoNodes : Container Int :=
  addStep 2 1 1 2 (addStep 1 0 1 1 Container.empty)

/-- State returned by a second insertion of id 2 (parent 1, tag 2, quantity
5) into `twoNodes`. -/
def twoNodesDup : Container Int :=
  { heap := [⟨1, ⟨1, 1⟩, none, some 1, none⟩,
             ⟨2, ⟨1, 2⟩, some 0, none, some 2⟩,
             ⟨2, ⟨2, 5⟩, some 0, none, none⟩],
    m_map := [(1, 0), (2, 2)],
    p_current := none }

/-- Value of `idx` after the ascent loop of `GetHeads` has walked the nodes
of `path` (the start node first, then its ancestors): the walk stops with
`-1` at the first node whose id is a key of `helper`, and otherwise leaves
in `idx` the id of the last node of the path satisfying `cond`. -/
def ascendResult {T : Type} (cond : Condition T) (helper : List (Int × Bool))
    (heap : List (Node T)) : Int → List Nat → Int
  | idx, [] => idx
  | idx, y :: ys =>
    match heap[y]? with
    | none => ascendResult cond helper heap idx ys
    | some ny =>
      if (mapFind ny.m_id helper).isSome then -1
      else ascendResult cond helper heap (if cond ny.m_data then ny.m_id else idx) ys

/-- A forest holding a single root whose id is negative (`-2`). -/
def negativeRoot : Container Int :=
  addStep (-2) 0 1 1 Container.empty

/-- What `Data(cond)` returns with the cursor on the node at `b`: `T()`
after `+=` of the quantity when the payload satisfies `cond`, `T()`
otherwise. -/
def dataAt {T : Type} [Zero T] [Add T] (cond : Condition T) (heap : List (Node T))
    (b : Nat) : T :=
  if satisfies cond heap b then 0 + quantityAt heap b else 0

/-- Value of `result` after `result += x` has run for each `x` of `l`, in
order, starting from `r`; no law of `+` is used. -/
def accumulate {T : Type} [Add T] (r : T) (l : List T) : T :=
  l.foldl (fun acc x => acc + x) r

/-- The node at `a` and all its descendants in depth-first post-order: the
branches of the children in sibling order, then `a` itself; `depth` bounds
the number of levels explored below `a`. -/
def branchPostOrder {T : Type} (heap : List (Node T)) : Nat → Nat → List Nat
  | 0, a => [a]
  | depth + 1, a => ((childrenOf heap a).map (branchPostOrder heap depth)).flatten ++ [a]

/-- Six values of the C++ type `double` (IEEE-754 binary64): minus
infinity, `-1e308`, `0`, `1e308`, plus infinity and NaN. -/
inductive D6 where
  | ninf
  | neg
  | zero
  | pos
  | pinf
  | nan
deriving DecidableEq, Repr

/-- Addition of `double` in round-to-nearest on the six values of `D6`,
which it maps to themselves: `1e308 + 1e308` overflows to plus infinity,
`1e308 + -1e308` is `0`, an infinity absorbs every finite value, the two
infinities add to NaN, and NaN absorbs everything. -/
def D6.add : D6 → D6 → D6
  | .nan, _ => .nan
  | _, .nan => .nan
  | .zero, y => y
  | x, .zero => x
  | .pinf, .ninf => .nan
  | .ninf, .pinf => .nan
  | .pinf, _ => .pinf
  | _, .pinf => .pinf
  | .ninf, _ => .ninf
  | _, .ninf => .ninf
  | .pos, .pos => .pinf
  | .neg, .neg => .ninf
  | .pos, .neg => .zero
  | .neg, .pos => .zero

instance : Zero D6 := ⟨D6.zero⟩

instance : Add D6 := ⟨D6.add⟩

/-- One insertion into a forest of `D6` quantities: `AddSecondary` with
enough fuel; the container is returned unchanged if the call faults. -/
def overflowStep (id parent_id : Int) (value : D6) (c : Container D6) : Container D6 :=
  match AddSecondary c.heap.length id parent_id 1 value c with
  | .ok c1 => c1
  | .error _ => c

/-- The forest `1 <- {2, 3}`, `2 <- 4`, `3 <- 5` with quantities `0`, `0`,
`-1e308`, `1e308`, `1e308`, inserted in the order of the ids. -/
def overflowForest : Container D6 :=
  overflowStep 5 3 .pos (overflowStep 4 2 .pos (overflowStep 3 1 .neg
    (overflowStep 2 1 .zero (overflowStep 1 0 .zero Container.empty))))

/-- The forest `overflowForest` with the cursor on the node stored at
address `a`. -/
def overflowAt (a : Nat) : Container D6 :=
  { overflowForest with p_current := some a }

/-! ## Auxiliary lemmas -/

theorem mapFind_mapInsert {V : Type} (k k' : Int) (v : V) (m : List (Int × V)) :
    mapFind k (mapInsert k' v m) = if k = k' then some v else mapFind k m := by
  induction m with
  | nil => simp [mapInsert, mapFind]
  | cons hd tl ih =>
    obtain ⟨k0, v0⟩ := hd
    simp only [mapInsert]
    by_cases hk : k = k'
    · subst hk
      by_cases h1 : k < k0
      · simp [h1, mapFind]
      · by_cases h2 : k = k0
        · simp [h2, mapFind]
        · simp [h1, h2, mapFind, ih]
    · by_cases h1 : k' < k0
      · simp [h1, hk, mapFind]
      · by_cases h2 : k' = k0
        · subst h2
          simp [hk, mapFind]
        · simp [h1, h2, hk, mapFind, ih]

theorem SiblingChain.congr {T : Type} {heap heap1 : List (Node T)} {ptr : Option Nat}
    {l : List Nat} (h : SiblingChain heap ptr l)
    (hsame : ∀ a ∈ l, ∀ nd, heap[a]? = some nd →
      ∃ nd1, heap1[a]? = some nd1 ∧ nd1.p_nextSibling = nd.p_nextSibling) :
    SiblingChain heap1 ptr l := by
  induction h with
  | nil => exact .nil
  | cons hget _ ih =>
    obtain ⟨nd1, h1, h2⟩ := hsame _ (List.mem_cons_self _ _) _ hget
    refine .cons h1 ?_
    rw [h2]
    exact ih (fun a ha nd hnd => hsame a (List.mem_cons_of_mem _ ha) nd hnd)

theorem SiblingChain.chain_unique {T : Type} {heap : List (Node T)} {ptr : Option Nat}
    {l l1 : List Nat} (h : SiblingChain heap ptr l) (h1 : SiblingChain heap ptr l1) :
    l = l1 := by
  induction h generalizing l1 with
  | nil => cases h1; rfl
  | cons hget _ ih =>
    cases h1 with
    | cons hget1 hc1 =>
      rw [hget] at hget1
      cases hget1
      rw [ih hc1]

theorem mem_childrenOf {T : Type} {heap : List (Node T)} {a b : Nat} :
    b ∈ childrenOf heap a ↔ ∃ nd, heap[b]? = some nd ∧ nd.p_parent = some a := by
  unfold childrenOf parentOf
  simp only [List.mem_filter, List.mem_range, decide_eq_true_eq]
  constructor
  · rintro ⟨hlt, h⟩
    rw [List.getElem?_eq_getElem hlt] at h
    exact ⟨heap[b], List.getElem?_eq_getElem hlt, h⟩
  · rintro ⟨nd, hnd, hp⟩
    obtain ⟨hlt, _⟩ := List.getElem?_eq_some.mp hnd
    refine ⟨hlt, ?_⟩
    rw [hnd]; exact hp

theorem mem_childrenOf_iff_parentOf {T : Type} {heap : List (Node T)} {a b : Nat} :
    b ∈ childrenOf heap a ↔ parentOf heap b = some a := by
  rw [mem_childrenOf]
  unfold parentOf
  constructor
  · rintro ⟨nd, hnd, hp⟩
    rw [hnd]; exact hp
  · intro h
    cases hb : heap[b]? with
    | none => rw [hb] at h; cases h
    | some nd => rw [hb] at h; exact ⟨nd, rfl, h⟩

theorem childrenOf_nodup {T : Type} (heap : List (Node T)) (a : Nat) :
    (childrenOf heap a).Nodup :=
  (List.nodup_range _).filter _

theorem childrenOf_append {T : Type} {heap heap1 : List (Node T)} (nd : Node T)
    (h : SameParents heap heap1) (a : Nat) :
    childrenOf (heap1 ++ [nd]) a =
      childrenOf heap a ++ (if nd.p_parent = some a then [heap.length] else []) := by
  obtain ⟨hlen, hpar⟩ := h
  unfold childrenOf
  rw [List.length_append, List.length_singleton, List.range_succ, List.filter_append, hlen]
  congr 1
  · apply List.filter_congr
    intro b hb
    have hb1 : b < heap1.length := by rw [hlen]; exact List.mem_range.mp hb
    have : parentOf (heap1 ++ [nd]) b = parentOf heap b := by
      rw [← hpar b]
      unfold parentOf
      rw [List.getElem?_append_left hb1]
    rw [this]
  · have : parentOf (heap1 ++ [nd]) heap.length = nd.p_parent := by
      unfold parentOf
      rw [← hlen, List.getElem?_concat_length]
    simp only [List.filter_cons, List.filter_nil, this]
    split_ifs <;> simp_all

theorem SameCells.refl {T : Type} (heap : List (Node T)) : SameCells heap heap :=
  ⟨rfl, fun _ nd1 h => ⟨nd1, h, rfl, rfl, rfl⟩⟩

theorem SameCells.sameParents {T : Type} {heap heap1 : List (Node T)}
    (h : SameCells heap heap1) : SameParents heap heap1 := by
  refine ⟨h.len, fun b => ?_⟩
  unfold parentOf
  cases h1 : heap1[b]? with
  | none =>
    have : heap[b]? = none := by
      rw [List.getElem?_eq_none_iff] at h1 ⊢
      rw [← h.len]; exact h1
    rw [this]
  | some nd1 =>
    obtain ⟨nd, hnd, _, _, hp⟩ := h.cell b nd1 h1
    rw [hnd]; exact hp

theorem SameCells.set {T : Type} {heap : List (Node T)} {x : Nat} {nx nx1 : Node T}
    (hx : heap[x]? = some nx) (hid : nx1.m_id = nx.m_id) (hdata : nx1.m_data = nx.m_data)
    (hpar : nx1.p_parent = nx.p_parent) : SameCells heap (heap.set x nx1) := by
  refine ⟨List.length_set _ _ _, fun b nd1 h1 => ?_⟩
  by_cases hb : x = b
  · subst hb
    rw [List.getElem?_set_self (List.getElem?_eq_some.mp hx).1] at h1
    cases h1
    exact ⟨nx, hx, hid, hdata, hpar⟩
  · rw [List.getElem?_set_ne hb] at h1
    exact ⟨nd1, h1, rfl, rfl, rfl⟩

theorem linkLast_chain {T : Type} {heap : List (Node T)} (new : Node T)
    (hnew : new.p_nextSibling = none) {ptr : Option Nat} {l : List Nat}
    (hc : SiblingChain heap ptr l) :
    ∀ f, ptr = some f → l.Nodup → ∀ fuel, l.length ≤ fuel →
      ∃ last nd, last ∈ l ∧ heap[last]? = some nd ∧
        linkLast fuel heap f heap.length =
          .ok (heap.set last { nd with p_nextSibling := some heap.length }) ∧
        SiblingChain (heap.set last { nd with p_nextSibling := some heap.length } ++ [new])
          (some f) (l ++ [heap.length]) := by
  induction hc with
  | nil => intro f hf; cases hf
  | @cons a nd l hget hrest ih =>
    intro f hf hnd fuel hfuel
    cases hf
    obtain ⟨halt, _⟩ := List.getElem?_eq_some.mp hget
    cases fuel with
    | zero => simp at hfuel
    | succ k =>
      simp only [List.length_cons, Nat.add_le_add_iff_right] at hfuel
      cases hns : nd.p_nextSibling with
      | none =>
        rw [hns] at hrest
        cases hrest
        refine ⟨a, nd, List.mem_singleton_self _, hget, ?_, ?_⟩
        · simp only [linkLast, hget, hns]
        · have h1 : (heap.set a { nd with p_nextSibling := some heap.length } ++ [new])[a]? =
              some { nd with p_nextSibling := some heap.length } := by
            rw [List.getElem?_append_left (by rw [List.length_set]; exact halt),
              List.getElem?_set_self halt]
          have h2 : (heap.set a { nd with p_nextSibling := some heap.length } ++ [new])[heap.length]? =
              some new := by
            have := List.getElem?_concat_length
              (heap.set a { nd with p_nextSibling := some heap.length }) new
            rwa [List.length_set] at this
          refine .cons h1 ?_
          refine .cons h2 ?_
          rw [hnew]
          exact .nil
      | some nx =>
        rw [hns] at hrest ih
        obtain ⟨hnotin, hnd'⟩ := List.nodup_cons.mp hnd
        obtain ⟨last, ndl, hmem, hgl, hlink, hchain⟩ := ih nx rfl hnd' k hfuel
        refine ⟨last, ndl, List.mem_cons_of_mem _ hmem, hgl, ?_, ?_⟩
        · simp only [linkLast, hget, hns]
          exact hlink
        · have hne : last ≠ a := fun h => hnotin (h ▸ hmem)
          have h1 : (heap.set last { ndl with p_nextSibling := some heap.length } ++ [new])[a]? =
              some nd := by
            rw [List.getElem?_append_left (by rw [List.length_set]; exact halt),
              List.getElem?_set_ne hne, hget]
          refine .cons h1 ?_
          rw [hns]
          exact hchain

theorem getElem?_concat_cases {T : Type} {heap1 : List (Node T)} {new nd : Node T} {a : Nat}
    (h : (heap1 ++ [new])[a]? = some nd) :
    (a < heap1.length ∧ heap1[a]? = some nd) ∨ (a = heap1.length ∧ new = nd) := by
  by_cases ha : a < heap1.length
  · left
    rw [List.getElem?_append_left ha] at h
    exact ⟨ha, h⟩
  · right
    have hlt := (List.getElem?_eq_some.mp h).1
    simp only [List.length_append, List.length_singleton] at hlt
    have : a = heap1.length := by omega
    subst this
    rw [List.getElem?_concat_length] at h
    exact ⟨rfl, Option.some.inj h⟩

theorem HeapInv.extend {T : Type} {heap heap1 : List (Node T)} {m : List (Int × Nat)}
    (hinv : HeapInv heap m) (hsame : SameCells heap heap1) (new : Node T)
    (hfresh : mapFind new.m_id m = none)
    (hnewfc : new.p_firstChild = none)
    (hpar : ∀ p, new.p_parent = some p → p < heap.length)
    (hchain : ∀ a (nd1 : Node T), heap1[a]? = some nd1 →
      SiblingChain (heap1 ++ [new]) nd1.p_firstChild (childrenOf (heap1 ++ [new]) a)) :
    HeapInv (heap1 ++ [new]) (mapInsert new.m_id heap.length m) := by
  have hlen := hsame.len
  have hparAll : ∀ a (nd : Node T) p, (heap1 ++ [new])[a]? = some nd →
      nd.p_parent = some p → p < a := by
    intro a nd p hnd hp
    rcases getElem?_concat_cases hnd with ⟨_, h1⟩ | ⟨h1, h2⟩
    · obtain ⟨nd0, hnd0, _, _, hp0⟩ := hsame.cell a nd h1
      exact hinv.par a nd0 p hnd0 (hp0 ▸ hp)
    · subst h2
      rw [h1, hlen]
      exact hpar p hp
  refine ⟨?_, ?_, hparAll, ?_⟩
  · intro id a hfind
    rw [mapFind_mapInsert] at hfind
    split_ifs at hfind with hid
    · cases hfind
      refine ⟨new, ?_, hid.symm⟩
      rw [← hlen]
      exact List.getElem?_concat_length _ _
    · obtain ⟨nd, hnd, hndid⟩ := hinv.map_ok id a hfind
      have ha : a < heap1.length := by
        rw [hlen]; exact (List.getElem?_eq_some.mp hnd).1
      refine ⟨heap1[a], ?_, ?_⟩
      · rw [List.getElem?_append_left ha]
        exact List.getElem?_eq_getElem ha
      · obtain ⟨nd0, hnd0, hid0, _, _⟩ := hsame.cell a heap1[a] (List.getElem?_eq_getElem ha)
        rw [hnd] at hnd0
        cases hnd0
        rw [hid0]; exact hndid
  · intro a nd hnd
    rw [mapFind_mapInsert]
    rcases getElem?_concat_cases hnd with ⟨_, h1⟩ | ⟨h1, h2⟩
    · obtain ⟨nd0, hnd0, hid0, _, _⟩ := hsame.cell a nd h1
      have hreg := hinv.reg a nd0 hnd0
      have hne : nd.m_id ≠ new.m_id := by
        intro h
        rw [← hid0, h, hfresh] at hreg
        cases hreg
      rw [if_neg hne, hid0]
      exact hreg
    · subst h2
      rw [if_pos rfl, h1, hlen]
  · intro a nd hnd
    rcases getElem?_concat_cases hnd with ⟨_, h1⟩ | ⟨h1, h2⟩
    · exact hchain a nd h1
    · subst h2
      have hnil : childrenOf (heap1 ++ [new]) a = [] := by
        apply List.eq_nil_iff_forall_not_mem.mpr
        intro b hb
        obtain ⟨ndb, hndb, hpb⟩ := mem_childrenOf.mp hb
        have h3 := hparAll b ndb a hndb hpb
        have h4 := (List.getElem?_eq_some.mp hndb).1
        simp only [List.length_append, List.length_singleton] at h4
        omega
      rw [hnil, hnewfc]
      exact .nil

theorem getElem?_set_concat {T : Type} {heap : List (Node T)} {x a : Nat} {nx1 new nd : Node T}
    (hne : x ≠ a) (h : heap[a]? = some nd) : (heap.set x nx1 ++ [new])[a]? = some nd := by
  have ha := (List.getElem?_eq_some.mp h).1
  rw [List.getElem?_append_left (by rw [List.length_set]; exact ha), List.getElem?_set_ne hne, h]

theorem getElem?_set_concat_self {T : Type} {heap : List (Node T)} {x : Nat} {nx1 new : Node T}
    (hx : x < heap.length) : (heap.set x nx1 ++ [new])[x]? = some nx1 := by
  rw [List.getElem?_append_left (by rw [List.length_set]; exact hx), List.getElem?_set_self hx]

theorem AddOne_ok {T : Type} {c : Container T} (fuel : Nat) (id parent : Int)
    (data : G4TrackData T) (hinv : HeapInv c.heap c.m_map)
    (hfresh : mapFind id c.m_map = none) (hfuel : c.heap.length ≤ fuel) :
    ∃ heap1, SameCells c.heap heap1 ∧
      (mapFind parent c.m_map = none → heap1 = c.heap) ∧
      AddOne fuel id parent data c =
        .ok { heap := heap1 ++ [newCell c.m_map id parent data],
              m_map := mapInsert id c.heap.length c.m_map,
              p_current := c.p_current } ∧
      HeapInv (heap1 ++ [newCell c.m_map id parent data])
        (mapInsert id c.heap.length c.m_map) := by
  cases hp : mapFind parent c.m_map with
  | none =>
    refine ⟨c.heap, SameCells.refl _, fun _ => rfl, ?_, ?_⟩
    · simp only [AddOne, hp, newNode, newCell]
    · refine HeapInv.extend hinv (SameCells.refl _) (newCell c.m_map id parent data)
        hfresh rfl ?_ ?_
      · intro p h
        simp only [newCell, hp] at h
        cases h
      · intro a nd1 hnd1
        rw [childrenOf_append _ (SameCells.refl _).sameParents]
        have : (newCell c.m_map id parent data).p_parent ≠ some a := by
          simp only [newCell, hp]; exact fun h => by cases h
        rw [if_neg this, List.append_nil]
        refine (hinv.chain a nd1 hnd1).congr ?_
        intro b _ nd hnd
        refine ⟨nd, ?_, rfl⟩
        rw [List.getElem?_append_left (List.getElem?_eq_some.mp hnd).1, hnd]
  | some p =>
    obtain ⟨pn, hpn, _⟩ := hinv.map_ok parent p hp
    have hplt := (List.getElem?_eq_some.mp hpn).1
    have hnewpar : (newCell c.m_map id parent data).p_parent = some p := by
      simp only [newCell, hp]
    have hparlt : ∀ q, (newCell c.m_map id parent data).p_parent = some q →
        q < c.heap.length := by
      intro q hq
      rw [hnewpar] at hq
      cases hq
      exact hplt
    have hpchain := hinv.chain p pn hpn
    cases hfc : pn.p_firstChild with
    | none =>
      rw [hfc] at hpchain
      have hnil : childrenOf c.heap p = [] := by
        cases hl : childrenOf c.heap p with
        | nil => rfl
        | cons x xs => rw [hl] at hpchain; cases hpchain
      have hsame : SameCells c.heap
          (c.heap.set p { pn with p_firstChild := some c.heap.length }) :=
        SameCells.set hpn rfl rfl rfl
      refine ⟨_, hsame, (fun h => by cases h), ?_, ?_⟩
      · simp only [AddOne, hp, newNodeWithParent, hpn, hfc, newCell]
      · refine HeapInv.extend hinv hsame _ hfresh rfl hparlt ?_
        intro a nd1 hnd1
        rw [childrenOf_append _ hsame.sameParents, hnewpar]
        by_cases hap : p = a
        · subst hap
          rw [List.getElem?_set_self hplt] at hnd1
          cases hnd1
          rw [if_pos rfl, hnil, List.nil_append]
          refine @SiblingChain.cons _ _ _ (newCell c.m_map id parent data) _ ?_ .nil
          have := List.getElem?_concat_length
            (c.heap.set p { pn with p_firstChild := some c.heap.length })
            (newCell c.m_map id parent data)
          rwa [List.length_set] at this
        · rw [List.getElem?_set_ne hap] at hnd1
          have hne : some p ≠ some a := fun h => hap (Option.some.inj h)
          rw [if_neg hne, List.append_nil]
          refine (hinv.chain a nd1 hnd1).congr ?_
          intro b _ nd hnd
          by_cases hpb : p = b
          · subst hpb
            rw [hpn] at hnd
            cases hnd
            exact ⟨_, getElem?_set_concat_self hplt, rfl⟩
          · exact ⟨nd, getElem?_set_concat hpb hnd, rfl⟩
    | some fc =>
      rw [hfc] at hpchain
      have hlenle : (childrenOf c.heap p).length ≤ fuel := by
        refine le_trans ?_ hfuel
        unfold childrenOf
        exact le_trans (List.length_filter_le _ _) (by rw [List.length_range])
      obtain ⟨last, ndl, hmem, hgl, hlink, hch⟩ :=
        linkLast_chain (newCell c.m_map id parent data) rfl hpchain fc rfl
          (childrenOf_nodup _ _) fuel hlenle
      have hllt := (List.getElem?_eq_some.mp hgl).1
      have hsame : SameCells c.heap
          (c.heap.set last { ndl with p_nextSibling := some c.heap.length }) :=
        SameCells.set hgl rfl rfl rfl
      obtain ⟨ndl', hgl', hlastpar⟩ := mem_childrenOf.mp hmem
      rw [hgl] at hgl'
      cases hgl'
      refine ⟨_, hsame, (fun h => by cases h), ?_, ?_⟩
      · simp only [AddOne, hp, newNodeWithParent, hpn, hfc, hlink, newCell]
      · refine HeapInv.extend hinv hsame _ hfresh rfl hparlt ?_
        intro a nd1 hnd1
        rw [childrenOf_append _ hsame.sameParents, hnewpar]
        have hfc1 : ∃ nd, c.heap[a]? = some nd ∧ nd1.p_firstChild = nd.p_firstChild := by
          by_cases hla : last = a
          · subst hla
            rw [List.getElem?_set_self hllt] at hnd1
            cases hnd1
            exact ⟨ndl, hgl, rfl⟩
          · rw [List.getElem?_set_ne hla] at hnd1
            exact ⟨nd1, hnd1, rfl⟩
        obtain ⟨nd, hnd, hfceq⟩ := hfc1
        rw [hfceq]
        by_cases hap : p = a
        · subst hap
          rw [hpn] at hnd
          cases hnd
          rw [if_pos rfl, hfc]
          exact hch
        · have hne : some p ≠ some a := fun h => hap (Option.some.inj h)
          rw [if_neg hne, List.append_nil]
          refine (hinv.chain a nd hnd).congr ?_
          intro b hb ndb hndb
          have hlb : last ≠ b := by
            intro h
            subst h
            obtain ⟨ndb', hndb', hpb⟩ := mem_childrenOf.mp hb
            rw [hgl] at hndb'
            cases hndb'
            rw [hlastpar] at hpb
            exact hne hpb
          exact ⟨ndb, getElem?_set_concat hlb hndb, rfl⟩

theorem linkLast_fuel_indep {T : Type} {heap h1 h2 : List (Node T)} {this : Nat} :
    ∀ (k k' f : Nat), linkLast k heap f this = .ok h1 → linkLast k' heap f this = .ok h2 →
      h1 = h2 := by
  intro k
  induction k with
  | zero => intro k' f h; simp [linkLast] at h
  | succ k ih =>
    intro k' f hk hk'
    cases k' with
    | zero => simp [linkLast] at hk'
    | succ k' =>
      simp only [linkLast] at hk hk'
      cases hg : heap[f]? with
      | none => rw [hg] at hk; cases hk
      | some nd =>
        rw [hg] at hk hk'
        cases hns : nd.p_nextSibling with
        | none =>
          simp only [hns] at hk hk'
          cases hk; cases hk'; rfl
        | some nx =>
          simp only [hns] at hk hk'
          exact ih k' nx hk hk'

theorem AddOne_fuel_indep {T : Type} {c c1 c2 : Container T} {k k' : Nat} {id parent : Int}
    {data : G4TrackData T} (h1 : AddOne k id parent data c = .ok c1)
    (h2 : AddOne k' id parent data c = .ok c2) : c1 = c2 := by
  unfold AddOne at h1 h2
  cases hp : mapFind parent c.m_map with
  | none =>
    simp only [hp] at h1 h2
    cases h1; cases h2; rfl
  | some p =>
    simp only [hp, newNodeWithParent] at h1 h2
    cases hg : c.heap[p]? with
    | none => simp only [hg] at h1; cases h1
    | some pn =>
      simp only [hg] at h1 h2
      cases hfc : pn.p_firstChild with
      | none =>
        simp only [hfc] at h1 h2
        cases h1; cases h2; rfl
      | some fc =>
        simp only [hfc] at h1 h2
        cases hl1 : linkLast k c.heap fc c.heap.length with
        | error e => simp only [hl1] at h1; cases h1
        | ok g1 =>
          cases hl2 : linkLast k' c.heap fc c.heap.length with
          | error e => simp only [hl2] at h2; cases h2
          | ok g2 =>
            simp only [hl1] at h1
            simp only [hl2] at h2
            have := linkLast_fuel_indep _ _ _ hl1 hl2
            subst this
            cases h1; cases h2; rfl

theorem mapFind_none_of_not_exists {T : Type} {c : Container T} {id : Int}
    (h : Exists id c = false) : mapFind id c.m_map = none := by
  unfold Exists at h
  cases hm : mapFind id c.m_map with
  | none => rfl
  | some a => rw [hm] at h; cases h

theorem HeapInv.nil {T : Type} : HeapInv ([] : List (Node T)) [] := by
  refine ⟨?_, ?_, ?_, ?_⟩
  · intro id a h; simp [mapFind] at h
  · intro a nd h; simp at h
  · intro a nd p h; simp at h
  · intro a nd h; simp at h

theorem Built.heapInv {T : Type} {c : Container T} (h : Built c) :
    HeapInv c.heap c.m_map := by
  induction h with
  | empty => exact HeapInv.nil
  | @addOne c c1 fuel id parent data _ hfresh hadd ih =>
    obtain ⟨heap1, _, _, hok, hinv⟩ :=
      AddOne_ok c.heap.length id parent data ih
        (mapFind_none_of_not_exists hfresh) (le_refl _)
    have := AddOne_fuel_indep hadd hok
    subst this
    exact hinv

theorem Built.cursor {T : Type} {c : Container T} (h : Built c) : c.p_current = none := by
  induction h with
  | empty => rfl
  | @addOne c c1 fuel id parent data _ hfresh hadd ih =>
    obtain ⟨heap1, _, _, hok, _⟩ :=
      AddOne_ok c.heap.length id parent data
        (Built.heapInv ‹Built c›) (mapFind_none_of_not_exists hfresh) (le_refl _)
    have := AddOne_fuel_indep hadd hok
    subst this
    exact ih

section ops
variable {T : Type}

theorem sumOver_eq_map [AddCommMonoid T] (cond : Condition T) (heap : List (Node T))
    (l : List Nat) : sumOver cond heap l = (l.map (nodeValue cond heap)).sum := by
  unfold sumOver
  induction l with
  | nil => simp
  | cons x xs ih =>
    by_cases h : satisfies cond heap x
    · simp [List.filter_cons, h, nodeValue, ih]
    · simp [List.filter_cons, h, nodeValue, ih]

theorem sumOver_nil [AddCommMonoid T] (cond : Condition T) (heap : List (Node T)) :
    sumOver cond heap [] = 0 := by
  simp [sumOver]

theorem sumOver_cons [AddCommMonoid T] (cond : Condition T) (heap : List (Node T))
    (x : Nat) (l : List Nat) :
    sumOver cond heap (x :: l) = nodeValue cond heap x + sumOver cond heap l := by
  simp [sumOver_eq_map]

theorem sumOver_append [AddCommMonoid T] (cond : Condition T) (heap : List (Node T))
    (l1 l2 : List Nat) :
    sumOver cond heap (l1 ++ l2) = sumOver cond heap l1 + sumOver cond heap l2 := by
  simp [sumOver_eq_map]

theorem sumOver_flatten [AddCommMonoid T] (cond : Condition T) (heap : List (Node T))
    (ls : List (List Nat)) :
    sumOver cond heap ls.flatten = (ls.map (sumOver cond heap)).sum := by
  induction ls with
  | nil => simp [sumOver_nil]
  | cons x xs ih => simp [sumOver_append, ih]

theorem SelectParent_at {heap : List (Node T)} {m : List (Int × Nat)} {a : Nat} {nd : Node T}
    (h : heap[a]? = some nd) :
    SelectParent ⟨heap, m, some a⟩ = .ok (nd.p_parent.isSome, ⟨heap, m, nd.p_parent⟩) := by
  simp [SelectParent, deref, h]

theorem SelectFirstChild_at {heap : List (Node T)} {m : List (Int × Nat)} {a : Nat}
    {nd : Node T} (h : heap[a]? = some nd) :
    SelectFirstChild ⟨heap, m, some a⟩ =
      .ok (nd.p_firstChild.isSome, ⟨heap, m, nd.p_firstChild⟩) := by
  simp [SelectFirstChild, deref, h]

theorem SelectNextSibling_at {heap : List (Node T)} {m : List (Int × Nat)} {a : Nat}
    {nd : Node T} (h : heap[a]? = some nd) :
    SelectNextSibling ⟨heap, m, some a⟩ =
      .ok (nd.p_nextSibling.isSome, ⟨heap, m, nd.p_nextSibling⟩) := by
  simp [SelectNextSibling, deref, h]

theorem GetCurrentId_at {heap : List (Node T)} {m : List (Int × Nat)} {a : Nat} {nd : Node T}
    (h : heap[a]? = some nd) : GetCurrentId ⟨heap, m, some a⟩ = .ok nd.m_id := by
  simp [GetCurrentId, deref, h]

theorem GetData_at {heap : List (Node T)} {m : List (Int × Nat)} {a : Nat} {nd : Node T}
    (h : heap[a]? = some nd) : GetData ⟨heap, m, some a⟩ = .ok nd.m_data := by
  simp [GetData, deref, h]

theorem Select_at {heap : List (Node T)} {m : List (Int × Nat)} {cur : Option Nat} {id : Int}
    {a : Nat} (h : mapFind id m = some a) :
    Select id ⟨heap, m, cur⟩ = .ok ⟨heap, m, some a⟩ := by
  simp [Select, h]

theorem Data_at [AddCommMonoid T] {heap : List (Node T)} {m : List (Int × Nat)} {a : Nat}
    {nd : Node T} (cond : Condition T) (h : heap[a]? = some nd) :
    Data cond ⟨heap, m, some a⟩ = .ok (nodeValue cond heap a) := by
  simp [Data, CurrentValid, GetData, deref, h, nodeValue, satisfies, quantityAt]

theorem Data_null [AddCommMonoid T] {heap : List (Node T)} {m : List (Int × Nat)}
    (cond : Condition T) : Data cond ⟨heap, m, none⟩ = .ok 0 := by
  simp [Data, CurrentValid]

theorem sumSiblingsLoop_chain [AddCommMonoid T] {heap : List (Node T)} {m : List (Int × Nat)}
    (cond : Condition T) :
    ∀ (rest : List Nat) (x : Nat) (fuel : Nat) (r : T),
      SiblingChain heap (some x) (x :: rest) → rest.length < fuel →
      sumSiblingsLoop cond fuel r ⟨heap, m, some x⟩ =
        .ok (r + sumOver cond heap rest, ⟨heap, m, none⟩) := by
  intro rest
  induction rest with
  | nil =>
    intro x fuel r hc hf
    cases hc with
    | @cons _ nd _ hget hrest =>
      cases fuel with
      | zero => simp at hf
      | succ k =>
        cases hns : nd.p_nextSibling with
        | none =>
          simp [sumSiblingsLoop, SelectNextSibling_at hget, hns, sumOver_nil]
        | some y => rw [hns] at hrest; cases hrest
  | cons y ys ih =>
    intro x fuel r hc hf
    cases hc with
    | @cons _ nd _ hget hrest =>
      cases fuel with
      | zero => simp at hf
      | succ k =>
        simp only [List.length_cons, Nat.add_lt_add_iff_right] at hf
        cases hns : nd.p_nextSibling with
        | none => rw [hns] at hrest; cases hrest
        | some z =>
          rw [hns] at hrest
          cases hrest with
          | @cons _ ndy _ hgety hresty =>
            simp only [sumSiblingsLoop, SelectNextSibling_at hget, hns, Option.isSome_some,
              Data_at cond hgety]
            rw [ih y k _ (.cons hgety hresty) hf, sumOver_cons, add_assoc]

end ops

section engine
variable {T : Type}

theorem childrenOf_length_le (heap : List (Node T)) (a : Nat) :
    (childrenOf heap a).length ≤ heap.length := by
  unfold childrenOf
  exact le_trans (List.length_filter_le _ _) (by rw [List.length_range])

theorem SiblingChain.inv_some {heap : List (Node T)} {x : Nat} {l : List Nat}
    (h : SiblingChain heap (some x) l) :
    ∃ nd rest, l = x :: rest ∧ heap[x]? = some nd ∧
      SiblingChain heap nd.p_nextSibling rest := by
  generalize hp : some x = ptr at h
  cases h with
  | nil => cases hp
  | @cons a nd rest hget hrest =>
    cases hp
    exact ⟨nd, rest, rfl, hget, hrest⟩

theorem SiblingChain.inv_none {heap : List (Node T)} {l : List Nat}
    (h : SiblingChain heap none l) : l = [] := by
  generalize hp : (none : Option Nat) = ptr at h
  cases h with
  | nil => rfl
  | cons _ _ => cases hp

theorem SumSiblings_child [AddCommMonoid T] {heap : List (Node T)} {m : List (Int × Nat)}
    (hinv : HeapInv heap m) (cond : Condition T) {a p : Nat} {nd : Node T}
    (hget : heap[a]? = some nd) (hpar : nd.p_parent = some p) {fuel : Nat}
    (hfuel : heap.length ≤ fuel) :
    SumSiblings fuel cond ⟨heap, m, some a⟩ =
      .ok (sumOver cond heap (childrenOf heap p), ⟨heap, m, some a⟩) := by
  have hreg := hinv.reg a nd hget
  have hpa := hinv.par a nd p hget hpar
  have halt := (List.getElem?_eq_some.mp hget).1
  have hplt : p < heap.length := lt_trans hpa halt
  have hpn : heap[p]? = some heap[p] := List.getElem?_eq_getElem hplt
  have hchain := hinv.chain p _ hpn
  have hmem : a ∈ childrenOf heap p := mem_childrenOf.mpr ⟨nd, hget, hpar⟩
  have hlen := childrenOf_length_le heap p
  cases hl : childrenOf heap p with
  | nil => rw [hl] at hmem; cases hmem
  | cons x rest =>
    rw [hl] at hchain hlen
    simp only [List.length_cons] at hlen
    cases hfc : heap[p].p_firstChild with
    | none => rw [hfc] at hchain; cases hchain
    | some y =>
      rw [hfc] at hchain
      have hxy : y = x := by cases hchain; rfl
      subst hxy
      have hgy : ∃ ndy, heap[y]? = some ndy := by
        cases hchain with
        | @cons _ ndy _ h _ => exact ⟨ndy, h⟩
      obtain ⟨ndy, hgy⟩ := hgy
      have hloop := @sumSiblingsLoop_chain T _ heap m cond rest y fuel
        (0 + nodeValue cond heap y) hchain (by omega)
      rw [zero_add] at hloop
      simp only [SumSiblings, CurrentValid, Option.isSome_some, if_true, GetCurrentId_at hget,
        SelectParent_at hget, hpar, SelectFirstChild_at hpn, hfc, Data_at cond hgy, hloop,
        Select_at hreg, sumOver_cons, zero_add]

theorem SumSiblings_root [AddCommMonoid T] {heap : List (Node T)} {m : List (Int × Nat)}
    (hinv : HeapInv heap m) (cond : Condition T) {a : Nat} {nd : Node T}
    (hget : heap[a]? = some nd) (hpar : nd.p_parent = none) (fuel : Nat) :
    SumSiblings fuel cond ⟨heap, m, some a⟩ = .ok (0, ⟨heap, m, some a⟩) := by
  have hreg := hinv.reg a nd hget
  simp only [SumSiblings, CurrentValid, Option.isSome_some, if_true, GetCurrentId_at hget,
    SelectParent_at hget, hpar, Option.isSome_none, Data_null, Select_at hreg, zero_add]

theorem SumSiblings_null [AddCommMonoid T] {heap : List (Node T)} {m : List (Int × Nat)}
    (cond : Condition T) (fuel : Nat) :
    SumSiblings fuel cond ⟨heap, m, none⟩ = .ok (0, ⟨heap, m, none⟩) := by
  simp [SumSiblings, CurrentValid]

theorem SumChildren_at [AddCommMonoid T] {heap : List (Node T)} {m : List (Int × Nat)}
    (hinv : HeapInv heap m) (cond : Condition T) {a : Nat} {nd : Node T}
    (hget : heap[a]? = some nd) {fuel : Nat} (hfuel : heap.length ≤ fuel) :
    SumChildren fuel cond ⟨heap, m, some a⟩ =
      .ok (sumOver cond heap (childrenOf heap a), ⟨heap, m, some a⟩) := by
  have hreg := hinv.reg a nd hget
  have hchain := hinv.chain a nd hget
  cases hfc : nd.p_firstChild with
  | none =>
    rw [hfc] at hchain
    have hnil : childrenOf heap a = [] := hchain.inv_none
    simp only [SumChildren, CurrentValid, Option.isSome_some, if_true, GetCurrentId_at hget,
      SelectFirstChild_at hget, hfc, SumSiblings_null, Select_at hreg, hnil, sumOver_nil,
      zero_add]
  | some x =>
    rw [hfc] at hchain
    have hx : x ∈ childrenOf heap a := by
      obtain ⟨_, rest, hl, _, _⟩ := hchain.inv_some
      rw [hl]; exact List.mem_cons_self _ _
    obtain ⟨ndx, hgx, hpx⟩ := mem_childrenOf.mp hx
    simp only [SumChildren, CurrentValid, Option.isSome_some, if_true, GetCurrentId_at hget,
      SelectFirstChild_at hget, hfc, SumSiblings_child hinv cond hgx hpx hfuel, Select_at hreg,
      zero_add]

end engine

section ancestors
variable {T : Type}

theorem AncestorChain.exists_of_inv {heap : List (Node T)} {m : List (Int × Nat)}
    (hinv : HeapInv heap m) :
    ∀ (a : Nat) (nd : Node T), heap[a]? = some nd →
      ∃ l, AncestorChain heap nd.p_parent l ∧ l.length ≤ a ∧ ∀ b ∈ l, b < a := by
  intro a
  induction a using Nat.strong_induction_on with
  | _ a ih =>
    intro nd hget
    cases hp : nd.p_parent with
    | none => exact ⟨[], .nil, Nat.zero_le _, fun b hb => by cases hb⟩
    | some p =>
      have hpa := hinv.par a nd p hget hp
      have hplt : p < heap.length := lt_trans hpa (List.getElem?_eq_some.mp hget).1
      have hpn : heap[p]? = some heap[p] := List.getElem?_eq_getElem hplt
      obtain ⟨l, hl, hlen, hlt⟩ := ih p hpa _ hpn
      refine ⟨p :: l, .cons hpn hl, ?_, ?_⟩
      · simp only [List.length_cons]; omega
      · intro b hb
        rcases List.mem_cons.mp hb with h | h
        · rw [h]; exact hpa
        · exact lt_trans (hlt b h) hpa

theorem AncestorChain.path_unique {heap : List (Node T)} {ptr : Option Nat} {l l1 : List Nat}
    (h : AncestorChain heap ptr l) (h1 : AncestorChain heap ptr l1) : l = l1 := by
  induction h generalizing l1 with
  | nil => cases h1; rfl
  | cons hget _ ih =>
    cases h1 with
    | cons hget1 hc1 =>
      rw [hget] at hget1
      cases hget1
      rw [ih hc1]

theorem sumParentLoop_chain [AddCommMonoid T] {heap : List (Node T)} {m : List (Int × Nat)}
    (cond : Condition T) :
    ∀ (l : List Nat) (a : Nat) (nd : Node T) (fuel : Nat) (r : T),
      heap[a]? = some nd → AncestorChain heap nd.p_parent l → l.length < fuel →
      sumParentLoop cond fuel r ⟨heap, m, some a⟩ =
        .ok (r + sumOver cond heap l, ⟨heap, m, none⟩) := by
  intro l
  induction l with
  | nil =>
    intro a nd fuel r hget hc hf
    cases fuel with
    | zero => simp at hf
    | succ k =>
      cases hp : nd.p_parent with
      | none => simp [sumParentLoop, SelectParent_at hget, hp, sumOver_nil]
      | some p => rw [hp] at hc; cases hc
  | cons y ys ih =>
    intro a nd fuel r hget hc hf
    cases fuel with
    | zero => simp at hf
    | succ k =>
      simp only [List.length_cons, Nat.add_lt_add_iff_right] at hf
      cases hp : nd.p_parent with
      | none => rw [hp] at hc; cases hc
      | some p =>
        rw [hp] at hc
        cases hc with
        | @cons _ ndy _ hgety hresty =>
          simp only [sumParentLoop, SelectParent_at hget, hp, Option.isSome_some,
            Data_at cond hgety]
          rw [ih y ndy k _ hgety hresty hf, sumOver_cons, add_assoc]

theorem SumParent_at [AddCommMonoid T] {heap : List (Node T)} {m : List (Int × Nat)}
    (hinv : HeapInv heap m) (cond : Condition T) {a : Nat} {nd : Node T}
    (hget : heap[a]? = some nd) {l : List Nat} (hl : AncestorChain heap nd.p_parent l)
    {fuel : Nat} (hfuel : heap.length ≤ fuel) :
    SumParent fuel cond ⟨heap, m, some a⟩ =
      .ok (sumOver cond heap l, ⟨heap, m, some a⟩) := by
  have hreg := hinv.reg a nd hget
  obtain ⟨l1, hl1, hlen, _⟩ := AncestorChain.exists_of_inv hinv a nd hget
  have := hl.path_unique hl1
  subst this
  have halt := (List.getElem?_eq_some.mp hget).1
  have hloop := @sumParentLoop_chain T _ heap m cond l a nd fuel 0 hget hl (by omega)
  simp only [SumParent, CurrentValid, Option.isSome_some, if_true, GetCurrentId_at hget, hloop,
    Select_at hreg, zero_add]

theorem hasParentLoop_chain {heap : List (Node T)} {m : List (Int × Nat)}
    (cond : Condition T) (id : Int) :
    ∀ (l : List Nat) (a : Nat) (nd : Node T) (fuel : Nat) (res : Bool),
      heap[a]? = some nd → AncestorChain heap nd.p_parent l → l.length < fuel →
      ∃ cur, hasParentLoop cond fuel res id ⟨heap, m, some a⟩ =
        .ok ((if l = [] then res else (nearestMatch cond heap id l).1),
             (nearestMatch cond heap id l).2, ⟨heap, m, cur⟩) := by
  intro l
  induction l with
  | nil =>
    intro a nd fuel res hget hc hf
    cases fuel with
    | zero => simp at hf
    | succ k =>
      cases hp : nd.p_parent with
      | none =>
        exact ⟨none, by simp [hasParentLoop, SelectParent_at hget, hp, nearestMatch]⟩
      | some p => rw [hp] at hc; cases hc
  | cons y ys ih =>
    intro a nd fuel res hget hc hf
    cases fuel with
    | zero => simp at hf
    | succ k =>
      simp only [List.length_cons, Nat.add_lt_add_iff_right] at hf
      cases hp : nd.p_parent with
      | none => rw [hp] at hc; cases hc
      | some p =>
        rw [hp] at hc
        cases hc with
        | @cons _ ndy _ hgety hresty =>
          by_cases hcond : cond ndy.m_data = true
          · refine ⟨some y, ?_⟩
            simp [hasParentLoop, SelectParent_at hget, hp, GetData_at hgety, hcond,
              GetCurrentId_at hgety, nearestMatch, hgety]
          · obtain ⟨cur, hcur⟩ := ih y ndy k false hgety hresty hf
            refine ⟨cur, ?_⟩
            simp only [hasParentLoop, SelectParent_at hget, hp, Option.isSome_some,
              GetData_at hgety, hcond, hcur, nearestMatch, hgety]
            cases ys with
            | nil => simp [nearestMatch]
            | cons z zs => simp

theorem HasParent_at {heap : List (Node T)} {m : List (Int × Nat)}
    (hinv : HeapInv heap m) (cond : Condition T) (id : Int) {a : Nat} {nd : Node T}
    (hget : heap[a]? = some nd) {l : List Nat} (hl : AncestorChain heap nd.p_parent l)
    {fuel : Nat} (hfuel : heap.length ≤ fuel) :
    HasParent fuel id cond ⟨heap, m, some a⟩ =
      .ok ((nearestMatch cond heap id l).1, (nearestMatch cond heap id l).2,
           ⟨heap, m, some a⟩) := by
  have hreg := hinv.reg a nd hget
  obtain ⟨l1, hl1, hlen, _⟩ := AncestorChain.exists_of_inv hinv a nd hget
  have := hl.path_unique hl1
  subst this
  have halt := (List.getElem?_eq_some.mp hget).1
  obtain ⟨cur, hloop⟩ := @hasParentLoop_chain T heap m cond id l a nd fuel false hget hl
    (by omega)
  have hres : (if l = [] then false else (nearestMatch cond heap id l).1) =
      (nearestMatch cond heap id l).1 := by
    split_ifs with h
    · subst h; rfl
    · rfl
  rw [hres] at hloop
  simp only [HasParent, CurrentValid, Option.isSome_some, if_true, GetCurrentId_at hget, hloop,
    Select_at hreg]

end ancestors

section branch
variable {T : Type}

theorem childrenOf_pairwise (heap : List (Node T)) (a : Nat) :
    (childrenOf heap a).Pairwise (· < ·) :=
  (List.pairwise_lt_range _).filter _

theorem childrenOf_bounds {heap : List (Node T)} {m : List (Int × Nat)}
    (hinv : HeapInv heap m) {a b : Nat} (hb : b ∈ childrenOf heap a) :
    a < b ∧ b < heap.length := by
  obtain ⟨nd, hnd, hp⟩ := mem_childrenOf.mp hb
  exact ⟨hinv.par b nd a hnd hp, (List.getElem?_eq_some.mp hnd).1⟩

theorem branchNodes_stable {heap : List (Node T)} {m : List (Int × Nat)}
    (hinv : HeapInv heap m) :
    ∀ (d a : Nat), heap.length ≤ a + d + 1 → ∀ d1, d ≤ d1 →
      branchNodes heap d1 a = branchNodes heap d a := by
  intro d
  induction d with
  | zero =>
    intro a ha d1 _
    have hnil : childrenOf heap a = [] := by
      apply List.eq_nil_iff_forall_not_mem.mpr
      intro b hb
      have := childrenOf_bounds hinv hb
      omega
    cases d1 with
    | zero => rfl
    | succ e => simp [branchNodes, hnil]
  | succ d ih =>
    intro a ha d1 hd1
    cases d1 with
    | zero => omega
    | succ e =>
      simp only [branchNodes]
      congr 2
      apply List.map_congr_left
      intro b hb
      have := childrenOf_bounds hinv hb
      exact ih b (by omega) e (by omega)

theorem branchNodes_fix {heap : List (Node T)} {m : List (Int × Nat)}
    (hinv : HeapInv heap m) (a : Nat) :
    branchNodes heap heap.length a =
      a :: ((childrenOf heap a).map (branchNodes heap heap.length)).flatten := by
  have h := branchNodes_stable hinv heap.length a (by omega) (heap.length + 1) (by omega)
  rw [← h]
  rfl

theorem branchSum_fix [AddCommMonoid T] {heap : List (Node T)} {m : List (Int × Nat)}
    (hinv : HeapInv heap m) (cond : Condition T) (a : Nat) :
    branchSum cond heap a =
      nodeValue cond heap a + ((childrenOf heap a).map (branchSum cond heap)).sum := by
  unfold branchSum
  rw [branchNodes_fix hinv a, sumOver_cons, sumOver_flatten, List.map_map]
  rfl

theorem SumBranchLoop_chain [AddCommMonoid T] {heap : List (Node T)} {m : List (Int × Nat)}
    (cond : Condition T) :
    ∀ (l : List Nat) (x : Nat), SiblingChain heap (some x) l → l.Pairwise (· < ·) →
      (∀ e ∈ l, e < heap.length) →
      (∀ e ∈ l, ∀ (fuel : Nat) (r : T), 2 * (heap.length - e) ≤ fuel →
        SumBranchAux cond fuel r ⟨heap, m, some e⟩ =
          .ok (r + branchSum cond heap e, ⟨heap, m, some e⟩)) →
      ∀ (fuel : Nat) (r : T), 2 * (heap.length - x) + 1 ≤ fuel →
        SumBranchLoop cond fuel r ⟨heap, m, some x⟩ =
          .ok (r + (l.map (branchSum cond heap)).sum, ⟨heap, m, none⟩) := by
  intro l
  induction l with
  | nil => intro x hc; have := hc.inv_some; simp at this
  | cons y ys ih =>
    intro x hc hpw hlt haux fuel r hfuel
    obtain ⟨nd, rest, hl, hget, hrest⟩ := hc.inv_some
    cases hl
    cases fuel with
    | zero => omega
    | succ k =>
      have hx := haux y (List.mem_cons_self _ _) k r (by omega)
      cases hns : nd.p_nextSibling with
      | none =>
        rw [hns] at hrest
        have := hrest.inv_none
        subst this
        simp [SumBranchLoop, hx, SelectNextSibling_at hget, hns]
      | some z =>
        rw [hns] at hrest
        obtain ⟨hxlt, hpw'⟩ := List.pairwise_cons.mp hpw
        have hzmem : z ∈ ys := by
          obtain ⟨_, _, hl, _, _⟩ := hrest.inv_some
          rw [hl]; exact List.mem_cons_self _ _
        have hxz := hxlt z hzmem
        have hzlt := hlt z (List.mem_cons_of_mem _ hzmem)
        have hrec := ih z hrest hpw' (fun e he => hlt e (List.mem_cons_of_mem _ he))
          (fun e he => haux e (List.mem_cons_of_mem _ he)) k (r + branchSum cond heap y)
          (by omega)
        simp only [SumBranchLoop, hx, SelectNextSibling_at hget, hns, Option.isSome_some, hrec,
          List.map_cons, List.sum_cons, add_assoc]

theorem SumBranchAux_at [AddCommMonoid T] {heap : List (Node T)} {m : List (Int × Nat)}
    (hinv : HeapInv heap m) (cond : Condition T) :
    ∀ (k a : Nat) (nd : Node T), heap.length - a ≤ k → heap[a]? = some nd →
      ∀ (fuel : Nat) (r : T), 2 * (heap.length - a) ≤ fuel →
        SumBranchAux cond fuel r ⟨heap, m, some a⟩ =
          .ok (r + branchSum cond heap a, ⟨heap, m, some a⟩) := by
  intro k
  induction k with
  | zero =>
    intro a nd hk hget
    have := (List.getElem?_eq_some.mp hget).1
    omega
  | succ k ih =>
    intro a nd hk hget fuel r hfuel
    have halt := (List.getElem?_eq_some.mp hget).1
    have hreg := hinv.reg a nd hget
    have hchain := hinv.chain a nd hget
    cases fuel with
    | zero => omega
    | succ f =>
      rw [branchSum_fix hinv cond a]
      cases hfc : nd.p_firstChild with
      | none =>
        rw [hfc] at hchain
        have hnil : childrenOf heap a = [] := hchain.inv_none
        simp only [SumBranchAux, CurrentValid, Option.isSome_some, if_true, GetData_at hget,
          GetCurrentId_at hget, SelectFirstChild_at hget, hfc, Option.isSome_none,
          Bool.false_eq_true, if_false, Select_at hreg, Data_at cond hget, hnil, List.map_nil,
          List.sum_nil, add_zero]
      | some x =>
        rw [hfc] at hchain
        have hxmem : x ∈ childrenOf heap a := by
          obtain ⟨_, _, hl, _, _⟩ := hchain.inv_some
          rw [hl]; exact List.mem_cons_self _ _
        have hxb := childrenOf_bounds hinv hxmem
        have hloop := @SumBranchLoop_chain T _ heap m cond (childrenOf heap a) x hchain
          (childrenOf_pairwise heap a) (fun e he => (childrenOf_bounds hinv he).2)
          (fun e he fuel r hf => by
            have hb := childrenOf_bounds hinv he
            exact ih e heap[e] (by omega) (List.getElem?_eq_getElem hb.2) fuel r hf)
          f r (by omega)
        simp only [SumBranchAux, CurrentValid, Option.isSome_some, if_true, GetData_at hget,
          GetCurrentId_at hget, SelectFirstChild_at hget, hfc, hloop, Select_at hreg,
          Data_at cond hget]
        rw [add_assoc, add_comm (nodeValue cond heap a)]

theorem SumBranch_at [AddCommMonoid T] {heap : List (Node T)} {m : List (Int × Nat)}
    (hinv : HeapInv heap m) (cond : Condition T) {a : Nat} {nd : Node T}
    (hget : heap[a]? = some nd) {fuel : Nat} (hfuel : 2 * heap.length ≤ fuel) :
    SumBranch fuel cond ⟨heap, m, some a⟩ =
      .ok (branchSum cond heap a, ⟨heap, m, some a⟩) := by
  have h := SumBranchAux_at hinv cond heap.length a nd (by omega) hget fuel 0 (by omega)
  unfold SumBranch
  rw [h, zero_add]

end branch

section heads
variable {T : Type}

theorem mapFind_isSome_of_mem {V : Type} {k : Int} {v : V} {m : List (Int × V)}
    (h : (k, v) ∈ m) : ∃ w, mapFind k m = some w := by
  induction m with
  | nil => cases h
  | cons hd tl ih =>
    obtain ⟨k0, v0⟩ := hd
    by_cases hk : k = k0
    · exact ⟨v0, by simp [mapFind, hk]⟩
    · rcases List.mem_cons.mp h with h1 | h1
      · cases h1; exact absurd rfl hk
      · obtain ⟨w, hw⟩ := ih h1
        exact ⟨w, by simp [mapFind, hk, hw]⟩

theorem headsAscend_chain {heap : List (Node T)} {m : List (Int × Nat)}
    (hinv : HeapInv heap m) (cond : Condition T) (helper : List (Int × Bool)) :
    ∀ (l : List Nat) (a : Nat) (nd : Node T) (fuel : Nat) (idx : Int),
      heap[a]? = some nd → AncestorChain heap nd.p_parent l → l.length < fuel →
      ∃ idx1 cur, headsAscend cond helper fuel idx ⟨heap, m, some a⟩ =
          .ok (idx1, ⟨heap, m, cur⟩) ∧
        (idx1 = -1 ∨
         (idx1 = idx ∧ cond nd.m_data = false ∧ ∀ b ∈ l, satisfies cond heap b = false) ∨
         IsHead cond heap m idx1) := by
  intro l
  induction l with
  | nil =>
    intro a nd fuel idx hget hc hf
    cases fuel with
    | zero => simp at hf
    | succ k =>
      have hp : nd.p_parent = none := by
        cases hp : nd.p_parent with
        | none => rfl
        | some p => rw [hp] at hc; cases hc
      by_cases hh : (mapFind nd.m_id helper).isSome = true
      · exact ⟨-1, some a, by simp [headsAscend, GetCurrentId_at hget, hh], Or.inl rfl⟩
      · by_cases hcond : cond nd.m_data = true
        · refine ⟨nd.m_id, none, ?_, Or.inr (Or.inr ?_)⟩
          · simp [headsAscend, GetCurrentId_at hget, hh, GetData_at hget, hcond,
              SelectParent_at hget, hp]
          · exact ⟨a, nd, hinv.reg a nd hget, hget, rfl, hcond, [], hp ▸ hc,
              fun b hb => by cases hb⟩
        · refine ⟨idx, none, ?_, Or.inr (Or.inl ⟨rfl, by simpa using hcond,
            fun b hb => by cases hb⟩)⟩
          simp [headsAscend, GetCurrentId_at hget, hh, GetData_at hget, hcond,
            SelectParent_at hget, hp]
  | cons y ys ih =>
    intro a nd fuel idx hget hc hf
    cases fuel with
    | zero => simp at hf
    | succ k =>
      simp only [List.length_cons, Nat.add_lt_add_iff_right] at hf
      cases hp : nd.p_parent with
      | none => rw [hp] at hc; cases hc
      | some p =>
        have hc0 := hc
        rw [hp] at hc
        cases hc with
        | @cons _ ndy _ hgety hresty =>
          by_cases hh : (mapFind nd.m_id helper).isSome = true
          · exact ⟨-1, some a, by simp [headsAscend, GetCurrentId_at hget, hh], Or.inl rfl⟩
          · have hsat : satisfies cond heap y = cond ndy.m_data := by
              simp [satisfies, hgety]
            by_cases hcond : cond nd.m_data = true
            · obtain ⟨idx1, cur, hrun, hres⟩ := ih y ndy k nd.m_id hgety hresty hf
              refine ⟨idx1, cur, ?_, ?_⟩
              · simp [headsAscend, GetCurrentId_at hget, hh, GetData_at hget, hcond,
                  SelectParent_at hget, hp, hrun]
              · rcases hres with h | ⟨h1, h2, h3⟩ | h
                · exact Or.inl h
                · refine Or.inr (Or.inr ⟨a, nd, ?_, hget, h1.symm, hcond, y :: ys, hc0, ?_⟩)
                  · rw [h1]; exact hinv.reg a nd hget
                  · intro b hb
                    rcases List.mem_cons.mp hb with hb1 | hb1
                    · rw [hb1, hsat]; exact h2
                    · exact h3 b hb1
                · exact Or.inr (Or.inr h)
            · obtain ⟨idx1, cur, hrun, hres⟩ := ih y ndy k idx hgety hresty hf
              refine ⟨idx1, cur, ?_, ?_⟩
              · simp [headsAscend, GetCurrentId_at hget, hh, GetData_at hget, hcond,
                  SelectParent_at hget, hp, hrun]
              · rcases hres with h | ⟨h1, h2, h3⟩ | h
                · exact Or.inl h
                · refine Or.inr (Or.inl ⟨h1, by simpa using hcond, ?_⟩)
                  intro b hb
                  rcases List.mem_cons.mp hb with hb1 | hb1
                  · rw [hb1, hsat]; exact h2
                  · exact h3 b hb1
                · exact Or.inr (Or.inr h)

theorem headsLoop_heads {heap : List (Node T)} {m : List (Int × Nat)}
    (hinv : HeapInv heap m) (cond : Condition T) {fuel : Nat} (hfuel : heap.length ≤ fuel) :
    ∀ (it : List (Int × Nat)), (∀ e ∈ it, e ∈ m) →
      ∀ (found : Bool) (result : List Int) (helper : List (Int × Bool)) (cur : Option Nat),
        (∀ id ∈ result, IsHead cond heap m id) →
        ∃ found1 result1 cur1,
          headsLoop fuel cond it found result helper ⟨heap, m, cur⟩ =
            .ok (found1, result1, ⟨heap, m, cur1⟩) ∧
          ∀ id ∈ result1, IsHead cond heap m id := by
  intro it
  induction it with
  | nil =>
    intro _ found result helper cur hres
    exact ⟨found, result, cur, rfl, hres⟩
  | cons e es ih =>
    intro hmem found result helper cur hres
    obtain ⟨k, v⟩ := e
    obtain ⟨a, hfind⟩ := mapFind_isSome_of_mem (hmem _ (List.mem_cons_self _ _))
    obtain ⟨nd, hget, _⟩ := hinv.map_ok k a hfind
    obtain ⟨l, hl, hlen, _⟩ := AncestorChain.exists_of_inv hinv a nd hget
    have halt := (List.getElem?_eq_some.mp hget).1
    obtain ⟨idx1, cur1, hrun, hcase⟩ :=
      headsAscend_chain hinv cond helper l a nd fuel (-1) hget hl (by omega)
    have hmem' : ∀ e ∈ es, e ∈ m := fun e he => hmem e (List.mem_cons_of_mem _ he)
    by_cases hidx : idx1 > -1
    · have hhead : IsHead cond heap m idx1 := by
        rcases hcase with h | ⟨h, _, _⟩ | h
        · omega
        · omega
        · exact h
      obtain ⟨f1, r1, c1, hrun1, hres1⟩ := ih hmem' true (result ++ [idx1])
        (mapInsert idx1 true helper) cur1 (by
          intro id hid
          rcases List.mem_append.mp hid with h | h
          · exact hres id h
          · rw [List.mem_singleton.mp h]; exact hhead)
      exact ⟨f1, r1, c1, by simp only [headsLoop, Select_at hfind, hrun, hidx, if_true, hrun1],
        hres1⟩
    · obtain ⟨f1, r1, c1, hrun1, hres1⟩ := ih hmem' found result helper cur1 hres
      exact ⟨f1, r1, c1, by simp only [headsLoop, Select_at hfind, hrun, hidx, if_false, hrun1],
        hres1⟩

end heads

theorem addStep_built {c : Container Int} (hb : Built c) (id parent_id : Int) (pd : Nat)
    (value : Int) (hfresh : Exists id c = false) : Built (addStep id parent_id pd value c) := by
  obtain ⟨heap1, _, _, hok, _⟩ := AddOne_ok c.heap.length id parent_id ⟨pd, value⟩
    hb.heapInv (mapFind_none_of_not_exists hfresh) (le_refl _)
  have h : addStep id parent_id pd value c =
      { heap := heap1 ++ [newCell c.m_map id parent_id ⟨pd, value⟩],
        m_map := mapInsert id c.heap.length c.m_map, p_current := c.p_current } := by
    unfold addStep AddSecondary
    rw [hok]
  rw [h]
  exact Built.addOne hb hfresh hok

theorem referenceForest_eq :
    referenceForest =
      { heap := [⟨1, ⟨1, 1⟩, none, some 1, none⟩,
                 ⟨2, ⟨1, 2⟩, some 0, some 2, none⟩,
                 ⟨3, ⟨2, 3⟩, some 1, none, some 3⟩,
                 ⟨4, ⟨3, 4⟩, some 1, some 5, some 4⟩,
                 ⟨5, ⟨3, 5⟩, some 1, some 7, some 8⟩,
                 ⟨6, ⟨3, 6⟩, some 3, none, some 6⟩,
                 ⟨7, ⟨1, 7⟩, some 3, none, none⟩,
                 ⟨8, ⟨2, 8⟩, some 4, none, none⟩,
                 ⟨9, ⟨3, 9⟩, some 1, none, none⟩],
        m_map := [(1, 0), (2, 1), (3, 2), (4, 3), (5, 4), (6, 5), (7, 6), (8, 7), (9, 8)],
        p_current := none } :=
  rfl

theorem referenceForest_built : Built referenceForest := by
  unfold referenceForest
  refine addStep_built (addStep_built (addStep_built (addStep_built (addStep_built
    (addStep_built (addStep_built (addStep_built (addStep_built Built.empty
    1 0 1 1 ?_) 2 1 1 2 ?_) 3 2 2 3 ?_) 4 2 3 4 ?_) 5 2 3 5 ?_) 6 4 3 6 ?_) 7 4 1 7 ?_)
    8 5 2 8 ?_) 9 2 3 9 ?_ <;> rfl

theorem Built.select {T : Type} {c c1 : Container T} (hb : Built c) {id : Int}
    (hs : Select id c = .ok c1) :
    ∃ (a : Nat) (nd : Node T), c1 = ⟨c.heap, c.m_map, some a⟩ ∧ c.heap[a]? = some nd ∧
      nd.m_id = id := by
  unfold Select at hs
  cases hm : mapFind id c.m_map with
  | none => rw [hm] at hs; cases hs
  | some a =>
    rw [hm] at hs
    cases hs
    obtain ⟨nd, hnd, hid⟩ := hb.heapInv.map_ok id a hm
    exact ⟨a, nd, rfl, hnd, hid⟩

theorem parentOf_eq {T : Type} {heap : List (Node T)} {a : Nat} {nd : Node T}
    (h : heap[a]? = some nd) : parentOf heap a = nd.p_parent := by
  simp [parentOf, h]

theorem AncestorChain.valid {T : Type} {heap : List (Node T)} {ptr : Option Nat}
    {l : List Nat} (h : AncestorChain heap ptr l) : ∀ b ∈ l, ∃ nb, heap[b]? = some nb := by
  induction h with
  | nil => intro b hb; cases hb
  | @cons a nd l hget _ ih =>
    intro b hb
    rcases List.mem_cons.mp hb with h1 | h1
    · rw [h1]; exact ⟨nd, hget⟩
    · exact ih b h1

theorem nearestMatch_find_some {T : Type} (cond : Condition T) (heap : List (Node T))
    (id : Int) : ∀ (l : List Nat) (b : Nat), l.find? (satisfies cond heap) = some b →
      ∃ nb, heap[b]? = some nb ∧ nearestMatch cond heap id l = (true, nb.m_id) := by
  intro l
  induction l with
  | nil => intro b h; simp at h
  | cons x xs ih =>
    intro b h
    rw [List.find?_cons] at h
    cases hx : heap[x]? with
    | none =>
      have hs : satisfies cond heap x = false := by simp [satisfies, hx]
      rw [hs] at h
      simp only [nearestMatch, hx]
      exact ih b h
    | some nx =>
      by_cases hc : cond nx.m_data = true
      · have hs : satisfies cond heap x = true := by simp [satisfies, hx, hc]
        rw [hs] at h
        cases h
        exact ⟨nx, hx, by simp [nearestMatch, hx, hc]⟩
      · have hs : satisfies cond heap x = false := by simp [satisfies, hx, hc]
        rw [hs] at h
        simp only [nearestMatch, hx, hc]
        exact ih b h

theorem nearestMatch_find_none {T : Type} (cond : Condition T) (heap : List (Node T))
    (id : Int) : ∀ (l : List Nat), l.find? (satisfies cond heap) = none →
      nearestMatch cond heap id l = (false, id) := by
  intro l
  induction l with
  | nil => intro _; rfl
  | cons x xs ih =>
    intro h
    rw [List.find?_cons] at h
    cases hx : heap[x]? with
    | none =>
      have hs : satisfies cond heap x = false := by simp [satisfies, hx]
      rw [hs] at h
      simp only [nearestMatch, hx]
      exact ih h
    | some nx =>
      by_cases hc : cond nx.m_data = true
      · have hs : satisfies cond heap x = true := by simp [satisfies, hx, hc]
        rw [hs] at h
        cases h
      · have hs : satisfies cond heap x = false := by simp [satisfies, hx, hc]
        rw [hs] at h
        simp only [nearestMatch, hx, hc]
        exact ih h

/-- Claim C1: in a forest built by insertions of distinct ids, `AddOne` of
an id not yet present returns, registers the id for the new cell, and: when
`parent` is registered (at address `p`), the new cell has parent `p` and the
child sequence of `p` (from `p_firstChild` along `p_nextSibling`) becomes
the previous sequence followed by the new cell; when `parent` is not
registered, the heap only gains a cell without parent, child or sibling. -/
theorem AddOne_appends_last_child {T : Type} (c : Container T) (hb : Built c)
    (id parent : Int) (data : G4TrackData T) (hfresh : Exists id c = false)
    (fuel : Nat) (hf : c.heap.length ≤ fuel) :
    ∃ c1, AddOne fuel id parent data c = .ok c1 ∧
      mapFind id c1.m_map = some c.heap.length ∧
      (∀ p, mapFind parent c.m_map = some p →
        c1.heap[c.heap.length]? = some ⟨id, data, some p, none, none⟩ ∧
        ∃ (pn pn1 : Node T) (old : List Nat),
          c.heap[p]? = some pn ∧ pn.m_id = parent ∧ c1.heap[p]? = some pn1 ∧
          SiblingChain c.heap pn.p_firstChild old ∧
          SiblingChain c1.heap pn1.p_firstChild (old ++ [c.heap.length])) ∧
      (mapFind parent c.m_map = none →
        c1.heap = c.heap ++ [⟨id, data, none, none, none⟩]) := by
  have hinv := hb.heapInv
  obtain ⟨heap1, hsame, hroot, hok, hinv1⟩ := AddOne_ok fuel id parent data hinv
    (mapFind_none_of_not_exists hfresh) hf
  refine ⟨_, hok, ?_, ?_, ?_⟩
  · simp [mapFind_mapInsert]
  · intro p hp
    have hnew : (heap1 ++ [newCell c.m_map id parent data])[c.heap.length]? =
        some (newCell c.m_map id parent data) := by
      rw [← hsame.len]; exact List.getElem?_concat_length _ _
    refine ⟨?_, ?_⟩
    · show (heap1 ++ [newCell c.m_map id parent data])[c.heap.length]? = _
      rw [hnew]
      simp [newCell, hp]
    · obtain ⟨pn, hpn, hpid⟩ := hinv.map_ok parent p hp
      have hplt := (List.getElem?_eq_some.mp hpn).1
      have hplt1 : p < (heap1 ++ [newCell c.m_map id parent data]).length := by
        rw [List.length_append, hsame.len]; omega
      have hpn1 := List.getElem?_eq_getElem hplt1
      refine ⟨pn, _, childrenOf c.heap p, hpn, hpid, hpn1, hinv.chain p pn hpn, ?_⟩
      have hch := hinv1.chain p _ hpn1
      rw [childrenOf_append _ hsame.sameParents] at hch
      have hnp : (newCell c.m_map id parent data).p_parent = some p := by
        simp [newCell, hp]
      rw [if_pos hnp] at hch
      exact hch
  · intro hnone
    show heap1 ++ [newCell c.m_map id parent data] = _
    rw [hroot hnone]
    simp [newCell, hnone]

/-- Claim C8: in a built forest with the cursor on the node at address `a`,
whose strict ancestors are `anc` (nearest first): when some ancestor
satisfies `cond`, `HasParent` returns true and sets `id` to the id of the
first such ancestor; when none does (in particular when `a` is a root) it
returns false and leaves `id` as passed in. -/
theorem HasParent_finds_nearest_ancestor {T : Type} (c c1 : Container T) (hb : Built c)
    (id : Int) (hs : Select id c = .ok c1) (a : Nat) (hcur : c1.p_current = some a)
    (cond : Condition T) (id0 : Int) (fuel : Nat) (hf : c.heap.length ≤ fuel) :
    ∃ anc, AncestorChain c1.heap (parentOf c1.heap a) anc ∧
      (∀ b, anc.find? (satisfies cond c1.heap) = some b →
        ∃ nb, c1.heap[b]? = some nb ∧
          HasParent fuel id0 cond c1 = .ok (true, nb.m_id, c1)) ∧
      (anc.find? (satisfies cond c1.heap) = none →
        HasParent fuel id0 cond c1 = .ok (false, id0, c1)) := by
  have hinv := hb.heapInv
  obtain ⟨a1, nd, hc1, hget, _⟩ := hb.select hs
  subst hc1
  cases hcur
  obtain ⟨anc, hanc, _, _⟩ := AncestorChain.exists_of_inv hinv a nd hget
  have h1 := HasParent_at hinv cond id0 hget hanc hf
  refine ⟨anc, ?_, ?_, ?_⟩
  · show AncestorChain c.heap (parentOf c.heap a) anc
    rw [parentOf_eq hget]; exact hanc
  · intro b hfind
    obtain ⟨nb, hnb, hnm⟩ := nearestMatch_find_some cond c.heap id0 anc b hfind
    refine ⟨nb, hnb, ?_⟩
    show HasParent fuel id0 cond _ = _
    rw [h1, hnm]
  · intro hfind
    have hnm := nearestMatch_find_none cond c.heap id0 anc hfind
    show HasParent fuel id0 cond _ = _
    rw [h1, hnm]

/-- Claim C9: in a built forest with the cursor on the node registered for
`id`, each of `SumSiblings`, `SumChildren`, `SumBranch`, `SumParent` and
`HasParent` returns with the container state it was called on, whose cursor
is valid and whose current id is `id`. -/
theorem traversals_restore_cursor {T : Type} [AddCommMonoid T] (c c1 : Container T)
    (hb : Built c) (id : Int) (hs : Select id c = .ok c1) (cond : Condition T) (id0 : Int)
    (fuel : Nat) (hf : 2 * c.heap.length ≤ fuel) :
    CurrentValid c1 = true ∧ GetCurrentId c1 = .ok id ∧
      (∃ v, SumSiblings fuel cond c1 = .ok (v, c1)) ∧
      (∃ v, SumChildren fuel cond c1 = .ok (v, c1)) ∧
      (∃ v, SumBranch fuel cond c1 = .ok (v, c1)) ∧
      (∃ v, SumParent fuel cond c1 = .ok (v, c1)) ∧
      (∃ r i, HasParent fuel id0 cond c1 = .ok (r, i, c1)) := by
  have hinv := hb.heapInv
  obtain ⟨a, nd, hc1, hget, hid⟩ := hb.select hs
  subst hc1
  have hf1 : c.heap.length ≤ fuel := by omega
  obtain ⟨anc, hanc, _, _⟩ := AncestorChain.exists_of_inv hinv a nd hget
  refine ⟨rfl, ?_, ?_, ⟨_, SumChildren_at hinv cond hget hf1⟩,
    ⟨_, SumBranch_at hinv cond hget hf⟩, ⟨_, SumParent_at hinv cond hget hanc hf1⟩,
    ⟨_, _, HasParent_at hinv cond id0 hget hanc hf1⟩⟩
  · rw [GetCurrentId_at hget, hid]
  · cases hp : nd.p_parent with
    | none => exact ⟨_, SumSiblings_root hinv cond hget hp fuel⟩
    | some p => exact ⟨_, SumSiblings_child hinv cond hget hp hf1⟩

/-- Claim C10: in a built forest, whatever the cursor, `GetHeads` called
with an empty result vector returns, and every id in the vector it produces
is registered for a node whose payload satisfies `cond` and none of whose
strict ancestors has a payload satisfying `cond`. -/
theorem GetHeads_returns_heads {T : Type} (c : Container T) (hb : Built c)
    (cur : Option Nat) (cond : Condition T) (fuel : Nat) (hf : c.heap.length ≤ fuel) :
    ∃ found result c1,
      GetHeads fuel [] cond { c with p_current := cur } = .ok (found, result, c1) ∧
      ∀ id ∈ result, IsHead cond c.heap c.m_map id := by
  have hinv := hb.heapInv
  obtain ⟨found, result, cur1, hrun, hres⟩ :=
    headsLoop_heads hinv cond hf c.m_map (fun e he => he) false [] [] cur
      (fun id hid => by cases hid)
  exact ⟨found, result, _, hrun, hres⟩

/-- Witness of C1 on the reference forest: inserting the fresh id 10 under
parent 4. -/
theorem AddOne_appends_last_child_witness :
    Built referenceForest ∧ Exists 10 referenceForest = false ∧
    referenceForest.heap.length ≤ 9 ∧
    ∃ c1, AddOne 9 10 4 ⟨3, 10⟩ referenceForest = .ok c1 ∧
      mapFind 10 c1.m_map = some referenceForest.heap.length ∧
      (∀ p, mapFind 4 referenceForest.m_map = some p →
        c1.heap[referenceForest.heap.length]? = some ⟨10, ⟨3, 10⟩, some p, none, none⟩ ∧
        ∃ (pn pn1 : Node Int) (old : List Nat),
          referenceForest.heap[p]? = some pn ∧ pn.m_id = 4 ∧ c1.heap[p]? = some pn1 ∧
          SiblingChain referenceForest.heap pn.p_firstChild old ∧
          SiblingChain c1.heap pn1.p_firstChild (old ++ [referenceForest.heap.length])) ∧
      (mapFind 4 referenceForest.m_map = none →
        c1.heap = referenceForest.heap ++ [⟨10, ⟨3, 10⟩, none, none, none⟩]) :=
  ⟨referenceForest_built, rfl, by decide,
    AddOne_appends_last_child referenceForest referenceForest_built 10 4 ⟨3, 10⟩ rfl 9
      (by decide)⟩

/-- Evaluation for C2: inserting id 2 a second time into `1 <- 2` does not
fail; it allocates a third cell, rebinds id 2 to it and appends it to the
child chain of node 1, which then lists two cells with id 2. -/
theorem AddOne_duplicate_id_overwrites :
    Exists 2 twoNodes = true ∧
    AddOne 2 2 1 ⟨2, 5⟩ twoNodes = .ok twoNodesDup ∧
    mapFind 2 twoNodes.m_map = some 1 ∧ mapFind 2 twoNodesDup.m_map = some 2 ∧
    childrenOf twoNodes.heap 0 = [1] ∧ childrenOf twoNodesDup.heap 0 = [1, 2] ∧
    idAt twoNodesDup.heap 1 = some 2 ∧ idAt twoNodesDup.heap 2 = some 2 :=
  ⟨rfl, rfl, rfl, rfl, by decide, by decide, rfl, rfl⟩

/-- Evaluation for C5 on the reference forest: with the cursor on the root
(id 1, address 0, quantity 1) `SumSiblings` returns zero although `Data`
returns the root's quantity. -/
theorem SumSiblings_at_root_returns_zero :
    Select 1 referenceForest = .ok (referenceAt 0) ∧
    parentOf (referenceAt 0).heap 0 = none ∧
    Data alwaysTrue (referenceAt 0) = .ok 1 ∧
    SumSiblings 9 alwaysTrue (referenceAt 0) = .ok (0, referenceAt 0) :=
  ⟨rfl, rfl, rfl, rfl⟩

/-- Witness of C8 on the reference forest, cursor on id 8 (address 7),
predicate `e-`, id passed in `-1`. -/
theorem HasParent_finds_nearest_ancestor_witness :
    Built referenceForest ∧ Select 8 referenceForest = .ok (referenceAt 7) ∧
    (referenceAt 7).p_current = some 7 ∧ referenceForest.heap.length ≤ 9 ∧
    ∃ anc, AncestorChain (referenceAt 7).heap (parentOf (referenceAt 7).heap 7) anc ∧
      (∀ b, anc.find? (satisfies elefilter (referenceAt 7).heap) = some b →
        ∃ nb, (referenceAt 7).heap[b]? = some nb ∧
          HasParent 9 (-1) elefilter (referenceAt 7) = .ok (true, nb.m_id, referenceAt 7)) ∧
      (anc.find? (satisfies elefilter (referenceAt 7).heap) = none →
        HasParent 9 (-1) elefilter (referenceAt 7) = .ok (false, -1, referenceAt 7)) :=
  ⟨referenceForest_built, rfl, rfl, by decide,
    HasParent_finds_nearest_ancestor referenceForest (referenceAt 7) referenceForest_built
      8 rfl 7 rfl elefilter (-1) 9 (by decide)⟩

/-- Witness of C9 on the reference forest, cursor on id 4 (address 3). -/
theorem traversals_restore_cursor_witness :
    Built referenceForest ∧ Select 4 referenceForest = .ok (referenceAt 3) ∧
    2 * referenceForest.heap.length ≤ 18 ∧
    (CurrentValid (referenceAt 3) = true ∧ GetCurrentId (referenceAt 3) = .ok 4 ∧
      (∃ v, SumSiblings 18 pfilter (referenceAt 3) = .ok (v, referenceAt 3)) ∧
      (∃ v, SumChildren 18 pfilter (referenceAt 3) = .ok (v, referenceAt 3)) ∧
      (∃ v, SumBranch 18 pfilter (referenceAt 3) = .ok (v, referenceAt 3)) ∧
      (∃ v, SumParent 18 pfilter (referenceAt 3) = .ok (v, referenceAt 3)) ∧
      (∃ r i, HasParent 18 0 pfilter (referenceAt 3) = .ok (r, i, referenceAt 3))) :=
  ⟨referenceForest_built, rfl, by decide,
    traversals_restore_cursor referenceForest (referenceAt 3) referenceForest_built 4 rfl
      pfilter 0 18 (by decide)⟩

/-- Witness of C10 on the reference forest with the predicate `p`. -/
theorem GetHeads_returns_heads_witness :
    Built referenceForest ∧ referenceForest.heap.length ≤ 9 ∧
    ∃ found result c1,
      GetHeads 9 [] pfilter { referenceForest with p_current := none } =
        .ok (found, result, c1) ∧
      ∀ id ∈ result, IsHead pfilter referenceForest.heap referenceForest.m_map id :=
  ⟨referenceForest_built, by decide,
    GetHeads_returns_heads referenceForest referenceForest_built none pfilter 9 (by decide)⟩

theorem clearLoop_eq (m : List (Int × Nat)) :
    ∀ deleted : List Nat, clearLoop m deleted = ([], deleted ++ m.map Prod.snd) := by
  induction m with
  | nil => intro d; simp [clearLoop]
  | cons e es ih =>
    intro d
    obtain ⟨k, v⟩ := e
    simp [clearLoop, ih]

theorem Exists_mk {T : Type} (heap : List (Node T)) (m : List (Int × Nat)) (cur : Option Nat)
    (id : Int) : Exists id ⟨heap, m, cur⟩ = (mapFind id m).isSome := rfl

/-- Claim C18: when `id` is not registered, each of `Matches`, `Update`,
`ParentMatches`, `GetValue`, `GetSumParents`, `GetSumSecondaries` and
`GetSecondariesIds` returns false, hands back its output parameter as it
was passed, and returns the container state unchanged. -/
theorem absent_id_returns_false {T : Type} [Zero T] [Add T] (c : Container T) (id : Int)
    (habs : Exists id c = false) (cond : Condition T) (fuel : Nat) (value result : T)
    (parentid : Int) (ids : List Int) :
    Matches id cond c = .ok (false, c) ∧
    Update id value cond c = .ok (false, c) ∧
    ParentMatches fuel id parentid cond c = .ok (false, parentid, c) ∧
    GetValue id result cond c = .ok (false, result, c) ∧
    GetSumParents fuel id result cond c = .ok (false, result, c) ∧
    GetSumSecondaries fuel id result cond c = .ok (false, result, c) ∧
    GetSecondariesIds fuel id ids cond c = .ok (false, ids, c) := by
  refine ⟨?_, ?_, ?_, ?_, ?_, ?_, ?_⟩
  · simp [Matches, habs]
  · simp [Update, habs]
  · simp [ParentMatches, habs]
  · simp [GetValue, habs]
  · simp [GetSumParents, habs]
  · simp [GetSumSecondaries, habs]
  · simp [GetSecondariesIds, habs]

/-- Witness of C18 on the reference forest with the unregistered id 42. -/
theorem absent_id_returns_false_witness :
    Exists 42 referenceForest = false ∧
    (Matches 42 elefilter referenceForest = .ok (false, referenceForest) ∧
    Update 42 7 elefilter referenceForest = .ok (false, referenceForest) ∧
    ParentMatches 9 42 (-1) elefilter referenceForest = .ok (false, -1, referenceForest) ∧
    GetValue 42 5 elefilter referenceForest = .ok (false, 5, referenceForest) ∧
    GetSumParents 9 42 5 elefilter referenceForest = .ok (false, 5, referenceForest) ∧
    GetSumSecondaries 9 42 5 elefilter referenceForest = .ok (false, 5, referenceForest) ∧
    GetSecondariesIds 9 42 [3] elefilter referenceForest = .ok (false, [3], referenceForest)) :=
  ⟨rfl, absent_id_returns_false referenceForest 42 rfl elefilter 9 7 5 (-1) [3]⟩

/-- Claim C19: for every container, `Clear` leaves no map entry (size 0,
`Exists` false for every id) after deleting exactly the nodes the map
pointed to, and a second `Clear` deletes nothing and returns the same empty
container. -/
theorem Clear_empties_and_is_idempotent {T : Type} (c : Container T) :
    Size (Clear c).1 = 0 ∧ (∀ id, Exists id (Clear c).1 = false) ∧
    (Clear c).2 = c.m_map.map Prod.snd ∧
    Clear (Clear c).1 = ((Clear c).1, []) := by
  simp [Clear, Size, Exists, clearLoop_eq, mapFind, clearLoop]

/-- Evaluation for C20 on the reference forest with the cursor on id 3
(address 2): `Clear` deletes the node under the cursor but leaves
`p_current` as it was, so `CurrentValid` still returns true. -/
theorem Clear_leaves_cursor_dangling :
    Select 3 referenceForest = .ok (referenceAt 2) ∧
    CurrentValid (referenceAt 2) = true ∧
    2 ∈ (Clear (referenceAt 2)).2 ∧
    (Clear (referenceAt 2)).1.p_current = some 2 ∧
    CurrentValid (Clear (referenceAt 2)).1 = true :=
  ⟨rfl, rfl, by decide, rfl, rfl⟩

theorem mapFind_of_exists {T : Type} {c : Container T} {id : Int}
    (h : Exists id c = true) : ∃ a, mapFind id c.m_map = some a := by
  unfold Exists at h
  cases hm : mapFind id c.m_map with
  | none => rw [hm] at h; cases h
  | some a => exact ⟨a, rfl⟩

theorem nearestMatch_fst_iff {T : Type} (cond : Condition T) (heap : List (Node T))
    (id : Int) (l : List Nat) :
    (nearestMatch cond heap id l).1 = true ↔ ∃ x ∈ l, satisfies cond heap x = true := by
  cases hf : l.find? (satisfies cond heap) with
  | none =>
    rw [nearestMatch_find_none cond heap id l hf]
    simp only [Bool.false_eq_true, false_iff, not_exists, not_and]
    intro x hx
    exact List.find?_eq_none.mp hf x hx
  | some b =>
    obtain ⟨nb, _, hnm⟩ := nearestMatch_find_some cond heap id l b hf
    rw [hnm]
    simp only [true_iff]
    exact ⟨b, List.mem_of_find?_eq_some hf, List.find?_some hf⟩

/-- Claim C12: in a built forest, whatever the cursor, `Update` returns true
exactly when `id` is registered and the payload of its node satisfies
`cond`; on true the heap differs only in that node, whose payload keeps its
tag and gets `value` as quantity (id and relations unchanged); on false the
heap is unchanged; the map is unchanged in both cases. -/
theorem Update_sets_quantity_only {T : Type} (c : Container T) (hb : Built c)
    (cur : Option Nat) (id : Int) (value : T) (cond : Condition T) :
    ∃ b c1, Update id value cond { c with p_current := cur } = .ok (b, c1) ∧
      c1.m_map = c.m_map ∧
      (b = true ↔ ∃ a nd, mapFind id c.m_map = some a ∧ c.heap[a]? = some nd ∧
        cond nd.m_data = true) ∧
      (b = true → ∃ a nd, mapFind id c.m_map = some a ∧ c.heap[a]? = some nd ∧
        c1.heap = c.heap.set a { nd with m_data := { nd.m_data with data := value } }) ∧
      (b = false → c1.heap = c.heap) := by
  have hinv := hb.heapInv
  obtain ⟨heap, m, cur0⟩ := c
  simp only at hinv ⊢
  cases hm : mapFind id m with
  | none =>
    refine ⟨false, ⟨heap, m, cur⟩, ?_, rfl, ?_, ?_, fun _ => rfl⟩
    · simp [Update, Exists, hm]
    · simp
    · intro h; cases h
  | some a =>
    obtain ⟨nd, hget, _⟩ := hinv.map_ok id a hm
    by_cases hc : cond nd.m_data = true
    · refine ⟨true, ⟨heap.set a { nd with m_data := { nd.m_data with data := value } }, m,
        some a⟩, ?_, rfl, ?_, ?_, ?_⟩
      · simp [Update, Exists, hm, Select, GetData, deref, hget, hc, UpdateCurrent,
          UpdateCurrentValue]
      · simp only [true_iff]
        exact ⟨a, nd, rfl, hget, hc⟩
      · intro _
        exact ⟨a, nd, rfl, hget, rfl⟩
      · intro h; cases h
    · refine ⟨false, ⟨heap, m, some a⟩, ?_, rfl, ?_, ?_, fun _ => rfl⟩
      · simp [Update, Exists, hm, Select, GetData, deref, hget, hc]
      · simp only [Bool.false_eq_true, false_iff, not_exists, not_and]
        intro a1 nd1 ha1 hget1
        cases ha1
        rw [hget] at hget1
        cases hget1
        exact hc
      · intro h; cases h

/-- Claim C13: in a built forest, whatever the cursor and whatever value
`result` held, `GetValue` on a registered id returns the truth value of
`cond` on the node's payload and sets `result` to the node's quantity when
it matches and to zero when it does not. -/
theorem GetValue_returns_quantity_or_zero {T : Type} [AddCommMonoid T] (c : Container T)
    (hb : Built c) (cur : Option Nat) (id : Int) (hex : Exists id c = true) (result : T)
    (cond : Condition T) :
    ∃ a nd c1, mapFind id c.m_map = some a ∧ c.heap[a]? = some nd ∧ nd.m_id = id ∧
      GetValue id result cond { c with p_current := cur } =
        .ok (cond nd.m_data, (if cond nd.m_data then nd.m_data.data else 0), c1) := by
  have hinv := hb.heapInv
  obtain ⟨a, hm⟩ := mapFind_of_exists hex
  obtain ⟨nd, hget, hid⟩ := hinv.map_ok id a hm
  obtain ⟨heap, m, cur0⟩ := c
  simp only at hinv hm hget ⊢
  refine ⟨a, nd, ⟨heap, m, some a⟩, hm, hget, hid, ?_⟩
  simp [GetValue, Exists, hm, Select, Data, CurrentValid, GetData, deref, hget]

section secondaries
variable {T : Type}

theorem satisfies_eq {heap : List (Node T)} {x : Nat} {nd : Node T} (cond : Condition T)
    (h : heap[x]? = some nd) : satisfies cond heap x = cond nd.m_data := by
  simp [satisfies, h]

theorem nodeValue_eq [AddCommMonoid T] {heap : List (Node T)} {x : Nat} {nd : Node T}
    (cond : Condition T) (h : heap[x]? = some nd) :
    nodeValue cond heap x = if cond nd.m_data then nd.m_data.data else 0 := by
  simp [nodeValue, satisfies, quantityAt, h]

theorem sumSecondariesLoop_chain [AddCommMonoid T] {heap : List (Node T)}
    {m : List (Int × Nat)} (cond : Condition T) :
    ∀ (rest : List Nat) (x : Nat) (fuel : Nat) (b : Bool) (r : T),
      SiblingChain heap (some x) (x :: rest) → rest.length < fuel →
      sumSecondariesLoop cond fuel b r ⟨heap, m, some x⟩ =
        .ok (b || (x :: rest).any (satisfies cond heap),
             r + sumOver cond heap (x :: rest), ⟨heap, m, none⟩) := by
  intro rest
  induction rest with
  | nil =>
    intro x fuel b r hc hf
    obtain ⟨nd, rest1, hl, hget, hrest⟩ := hc.inv_some
    cases hl
    cases fuel with
    | zero => simp at hf
    | succ k =>
      cases hns : nd.p_nextSibling with
      | some y => rw [hns] at hrest; have := hrest.inv_some; simp at this
      | none =>
        by_cases hcond : cond nd.m_data = true
        · simp [sumSecondariesLoop, GetData_at hget, SelectNextSibling_at hget, hns, hcond,
            sumOver_cons, sumOver_nil, nodeValue_eq cond hget, satisfies_eq cond hget]
        · simp [sumSecondariesLoop, GetData_at hget, SelectNextSibling_at hget, hns, hcond,
            sumOver_cons, sumOver_nil, nodeValue_eq cond hget, satisfies_eq cond hget]
  | cons y ys ih =>
    intro x fuel b r hc hf
    obtain ⟨nd, rest1, hl, hget, hrest⟩ := hc.inv_some
    cases hl
    cases fuel with
    | zero => simp at hf
    | succ k =>
      simp only [List.length_cons, Nat.add_lt_add_iff_right] at hf
      cases hns : nd.p_nextSibling with
      | none => rw [hns] at hrest; have := hrest.inv_none; simp at this
      | some z =>
        rw [hns] at hrest
        obtain ⟨_, _, hl2, _, _⟩ := hrest.inv_some
        cases hl2
        have hrec := fun b1 r1 => ih y k b1 r1 hrest hf
        by_cases hcond : cond nd.m_data = true
        · simp only [sumSecondariesLoop, GetData_at hget, SelectNextSibling_at hget, hns, hcond,
            if_true, Option.isSome_some, hrec]
          rw [sumOver_cons _ _ x, nodeValue_eq cond hget, if_pos hcond, add_assoc]
          simp [satisfies_eq cond hget, hcond]
        · simp only [sumSecondariesLoop, GetData_at hget, SelectNextSibling_at hget, hns, hcond,
            if_false, Option.isSome_some, hrec, Bool.false_eq_true]
          rw [sumOver_cons _ _ x, nodeValue_eq cond hget, if_neg hcond, zero_add]
          simp [satisfies_eq cond hget, hcond]

theorem GetSumSecondaries_at [AddCommMonoid T] {heap : List (Node T)} {m : List (Int × Nat)}
    (hinv : HeapInv heap m) (cond : Condition T) (cur : Option Nat) {id : Int} {a : Nat}
    (hm : mapFind id m = some a) (result : T) {fuel : Nat} (hfuel : heap.length ≤ fuel) :
    ∃ cur1, GetSumSecondaries fuel id result cond ⟨heap, m, cur⟩ =
      .ok ((childrenOf heap a).any (satisfies cond heap),
           result + sumOver cond heap (childrenOf heap a), ⟨heap, m, cur1⟩) := by
  obtain ⟨nd, hget, _⟩ := hinv.map_ok id a hm
  have hchain := hinv.chain a nd hget
  have hlen := childrenOf_length_le heap a
  cases hfc : nd.p_firstChild with
  | none =>
    rw [hfc] at hchain
    have hnil : childrenOf heap a = [] := hchain.inv_none
    refine ⟨none, ?_⟩
    simp [GetSumSecondaries, Exists, hm, Select, SelectFirstChild_at hget, hfc, hnil,
      sumOver_nil]
  | some x =>
    rw [hfc] at hchain
    obtain ⟨_, rest, hl, _, _⟩ := hchain.inv_some
    rw [hl] at hchain hlen
    simp only [List.length_cons] at hlen
    refine ⟨none, ?_⟩
    have hloop := @sumSecondariesLoop_chain T _ heap m cond rest x fuel false result hchain
      (by omega)
    simp only [GetSumSecondaries, Exists, hm, Option.isSome_some, if_true, Select,
      SelectFirstChild_at hget, hfc, hloop, hl, Bool.false_or]

theorem secondariesIdsLoop_chain {heap : List (Node T)} {m : List (Int × Nat)}
    (cond : Condition T) :
    ∀ (rest : List Nat) (x : Nat) (fuel : Nat) (b : Bool) (res : List Int),
      SiblingChain heap (some x) (x :: rest) → rest.length < fuel →
      secondariesIdsLoop cond fuel b res ⟨heap, m, some x⟩ =
        .ok (b || (x :: rest).any (satisfies cond heap),
             res ++ ((x :: rest).filter (satisfies cond heap)).filterMap (idAt heap),
             ⟨heap, m, none⟩) := by
  intro rest
  induction rest with
  | nil =>
    intro x fuel b res hc hf
    obtain ⟨nd, rest1, hl, hget, hrest⟩ := hc.inv_some
    cases hl
    cases fuel with
    | zero => simp at hf
    | succ k =>
      cases hns : nd.p_nextSibling with
      | some y => rw [hns] at hrest; have := hrest.inv_some; simp at this
      | none =>
        by_cases hcond : cond nd.m_data = true
        · simp [secondariesIdsLoop, GetData_at hget, GetCurrentId_at hget,
            SelectNextSibling_at hget, hns, hcond, satisfies_eq cond hget, idAt, hget]
        · simp [secondariesIdsLoop, GetData_at hget, SelectNextSibling_at hget, hns, hcond,
            satisfies_eq cond hget]
  | cons y ys ih =>
    intro x fuel b res hc hf
    obtain ⟨nd, rest1, hl, hget, hrest⟩ := hc.inv_some
    cases hl
    cases fuel with
    | zero => simp at hf
    | succ k =>
      simp only [List.length_cons, Nat.add_lt_add_iff_right] at hf
      cases hns : nd.p_nextSibling with
      | none => rw [hns] at hrest; have := hrest.inv_none; simp at this
      | some z =>
        rw [hns] at hrest
        obtain ⟨_, _, hl2, _, _⟩ := hrest.inv_some
        cases hl2
        have hrec := fun b1 r1 => ih y k b1 r1 hrest hf
        by_cases hcond : cond nd.m_data = true
        · simp only [secondariesIdsLoop, GetData_at hget, GetCurrentId_at hget,
            SelectNextSibling_at hget, hns, hcond, if_true, Option.isSome_some, hrec]
          simp [List.filter_cons, satisfies_eq cond hget, hcond, idAt, hget]
        · simp only [secondariesIdsLoop, GetData_at hget, SelectNextSibling_at hget, hns,
            hcond, if_false, Option.isSome_some, hrec, Bool.false_eq_true]
          simp [List.filter_cons, satisfies_eq cond hget, hcond]

theorem GetSecondariesIds_at {heap : List (Node T)} {m : List (Int × Nat)}
    (hinv : HeapInv heap m) (cond : Condition T) (cur : Option Nat) {id : Int} {a : Nat}
    (hm : mapFind id m = some a) (res : List Int) {fuel : Nat} (hfuel : heap.length ≤ fuel) :
    ∃ cur1, GetSecondariesIds fuel id res cond ⟨heap, m, cur⟩ =
      .ok ((childrenOf heap a).any (satisfies cond heap),
           res ++ ((childrenOf heap a).filter (satisfies cond heap)).filterMap (idAt heap),
           ⟨heap, m, cur1⟩) := by
  obtain ⟨nd, hget, _⟩ := hinv.map_ok id a hm
  have hchain := hinv.chain a nd hget
  have hlen := childrenOf_length_le heap a
  cases hfc : nd.p_firstChild with
  | none =>
    rw [hfc] at hchain
    have hnil : childrenOf heap a = [] := hchain.inv_none
    refine ⟨none, ?_⟩
    simp [GetSecondariesIds, Exists, hm, Select, SelectFirstChild_at hget, hfc, hnil]
  | some x =>
    rw [hfc] at hchain
    obtain ⟨_, rest, hl, _, _⟩ := hchain.inv_some
    rw [hl] at hchain hlen
    simp only [List.length_cons] at hlen
    refine ⟨none, ?_⟩
    have hloop := @secondariesIdsLoop_chain T heap m cond rest x fuel false res hchain
      (by omega)
    simp only [GetSecondariesIds, Exists, hm, Option.isSome_some, if_true, Select,
      SelectFirstChild_at hget, hfc, hloop, hl, Bool.false_or]

theorem forall₂_idAt_filterMap {heap : List (Node T)} :
    ∀ (l : List Nat), (∀ b ∈ l, ∃ nb, heap[b]? = some nb) →
      List.Forall₂ (fun b i => idAt heap b = some i) l (l.filterMap (idAt heap)) := by
  intro l
  induction l with
  | nil => intro _; exact .nil
  | cons x xs ih =>
    intro h
    obtain ⟨nx, hnx⟩ := h x (List.mem_cons_self _ _)
    have hid : idAt heap x = some nx.m_id := by simp [idAt, hnx]
    rw [List.filterMap_cons, hid]
    exact .cons hid (ih (fun b hb => h b (List.mem_cons_of_mem _ hb)))

end secondaries

theorem sumOver_eq_zero {T : Type} [AddCommMonoid T] (cond : Condition T)
    (heap : List (Node T)) (l : List Nat) (h : ∀ b ∈ l, satisfies cond heap b = false) :
    sumOver cond heap l = 0 := by
  unfold sumOver
  have : l.filter (satisfies cond heap) = [] := by
    apply List.filter_eq_nil_iff.mpr
    intro b hb
    rw [h b hb]
    exact Bool.false_ne_true
  rw [this]
  rfl

/-- Claim C16: in a built forest, whatever the cursor, `GetSumSecondaries`
returns false exactly when `id` is not registered or no direct child of its
node satisfies `cond`, and then `result` is handed back as it was passed. -/
theorem GetSumSecondaries_false_keeps_result {T : Type} [AddCommMonoid T]
    (c : Container T) (hb : Built c) (cur : Option Nat) (id : Int) (result : T)
    (cond : Condition T) (fuel : Nat) (hf : c.heap.length ≤ fuel) :
    ∃ b r c1,
      GetSumSecondaries fuel id result cond { c with p_current := cur } = .ok (b, r, c1) ∧
      (b = false ↔ (Exists id c = false ∨
        ∃ a, mapFind id c.m_map = some a ∧
          ∀ ch ∈ childrenOf c.heap a, satisfies cond c.heap ch = false)) ∧
      (b = false → r = result) := by
  have hinv := hb.heapInv
  obtain ⟨heap, m, cur0⟩ := c
  simp only at hinv hf ⊢
  cases hm : mapFind id m with
  | none =>
    refine ⟨false, result, ⟨heap, m, cur⟩, ?_, ?_, fun _ => rfl⟩
    · simp [GetSumSecondaries, Exists, hm]
    · simp [Exists, hm]
  | some a =>
    obtain ⟨cur1, hrun⟩ := GetSumSecondaries_at hinv cond cur hm result hf
    refine ⟨_, _, _, hrun, ?_, ?_⟩
    · simp [Exists, hm, List.any_eq_false]
    · intro hb
      rw [List.any_eq_false] at hb
      rw [sumOver_eq_zero cond heap _ (fun b hbm => by simpa using hb b hbm), add_zero]

/-- Claim C17: in a built forest, whatever the cursor, `GetSecondariesIds`
on a registered id hands back `result` followed by the ids of the direct
children of its node that satisfy `cond`, one id per such child in sibling
order, and returns true exactly when it appended at least one id. -/
theorem GetSecondariesIds_appends_matching_children {T : Type} (c : Container T)
    (hb : Built c) (cur : Option Nat) (id : Int) (hex : Exists id c = true)
    (result : List Int) (cond : Condition T) (fuel : Nat) (hf : c.heap.length ≤ fuel) :
    ∃ a b appended c1, mapFind id c.m_map = some a ∧
      GetSecondariesIds fuel id result cond { c with p_current := cur } =
        .ok (b, result ++ appended, c1) ∧
      List.Forall₂ (fun ch i => idAt c.heap ch = some i)
        ((childrenOf c.heap a).filter (satisfies cond c.heap)) appended ∧
      (b = true ↔ appended ≠ []) := by
  have hinv := hb.heapInv
  obtain ⟨a, hm⟩ := mapFind_of_exists hex
  obtain ⟨heap, m, cur0⟩ := c
  simp only at hinv hf hm ⊢
  obtain ⟨cur1, hrun⟩ := GetSecondariesIds_at hinv cond cur hm result hf
  have hvalid : ∀ b ∈ (childrenOf heap a).filter (satisfies cond heap),
      ∃ nb, heap[b]? = some nb := by
    intro b hb
    obtain ⟨nb, hnb, _⟩ := mem_childrenOf.mp (List.mem_filter.mp hb).1
    exact ⟨nb, hnb⟩
  have hfa := forall₂_idAt_filterMap _ hvalid
  refine ⟨a, _, _, _, hm, hrun, hfa, ?_⟩
  have hlen := hfa.length_eq
  rw [List.any_eq_true]
  constructor
  · rintro ⟨x, hx, hsx⟩ hnil
    rw [hnil] at hlen
    have hmem : x ∈ (childrenOf heap a).filter (satisfies cond heap) :=
      List.mem_filter.mpr ⟨hx, hsx⟩
    rw [List.eq_nil_of_length_eq_zero hlen] at hmem
    cases hmem
  · intro hne
    cases hfl : (childrenOf heap a).filter (satisfies cond heap) with
    | nil =>
      exact absurd (by rw [hfl]; rfl) hne
    | cons x xs =>
      have hmem : x ∈ (childrenOf heap a).filter (satisfies cond heap) := by
        rw [hfl]; exact List.mem_cons_self _ _
      exact ⟨x, (List.mem_filter.mp hmem).1, (List.mem_filter.mp hmem).2⟩

section headsExact
variable {T : Type}

theorem headsAscend_exact {heap : List (Node T)} {m : List (Int × Nat)}
    (cond : Condition T) (helper : List (Int × Bool)) :
    ∀ (l : List Nat) (a : Nat) (nd : Node T) (fuel : Nat) (idx : Int),
      heap[a]? = some nd → AncestorChain heap nd.p_parent l → l.length < fuel →
      ∃ cur, headsAscend cond helper fuel idx ⟨heap, m, some a⟩ =
        .ok (ascendResult cond helper heap idx (a :: l), ⟨heap, m, cur⟩) := by
  intro l
  induction l with
  | nil =>
    intro a nd fuel idx hget hc hf
    cases fuel with
    | zero => simp at hf
    | succ k =>
      have hp : nd.p_parent = none := by
        cases hp : nd.p_parent with
        | none => rfl
        | some p => rw [hp] at hc; cases hc
      by_cases hh : (mapFind nd.m_id helper).isSome = true
      · exact ⟨some a, by simp [headsAscend, GetCurrentId_at hget, hh, ascendResult, hget]⟩
      · exact ⟨none, by simp [headsAscend, GetCurrentId_at hget, hh, GetData_at hget,
          SelectParent_at hget, hp, ascendResult, hget]⟩
  | cons y ys ih =>
    intro a nd fuel idx hget hc hf
    cases fuel with
    | zero => simp at hf
    | succ k =>
      simp only [List.length_cons, Nat.add_lt_add_iff_right] at hf
      cases hp : nd.p_parent with
      | none => rw [hp] at hc; cases hc
      | some p =>
        rw [hp] at hc
        cases hc with
        | @cons _ ndy _ hgety hresty =>
          by_cases hh : (mapFind nd.m_id helper).isSome = true
          · exact ⟨some a, by simp [headsAscend, GetCurrentId_at hget, hh, ascendResult, hget]⟩
          · obtain ⟨cur, hrun⟩ := ih y ndy k (if cond nd.m_data then nd.m_id else idx)
              hgety hresty hf
            refine ⟨cur, ?_⟩
            rw [show ascendResult cond helper heap idx (a :: y :: ys) =
              ascendResult cond helper heap (if cond nd.m_data then nd.m_id else idx)
                (y :: ys) by simp [ascendResult, hget, hh]]
            simp only [headsAscend, GetCurrentId_at hget, hh, GetData_at hget,
              SelectParent_at hget, hp, Option.isSome_some, hrun]
            simp

theorem ascendResult_no_hit (cond : Condition T) (helper : List (Int × Bool))
    (heap : List (Node T)) :
    ∀ (path : List Nat) (idx : Int), ascendResult cond helper heap idx path ≠ -1 →
      ∀ y ∈ path, ∀ ny : Node T, heap[y]? = some ny →
        (mapFind ny.m_id helper).isSome = false := by
  intro path
  induction path with
  | nil => intro _ _ y hy; cases hy
  | cons x xs ih =>
    intro idx hres y hy ny hny
    cases hx : heap[x]? with
    | none =>
      simp only [ascendResult, hx] at hres
      rcases List.mem_cons.mp hy with h | h
      · rw [h, hx] at hny; cases hny
      · exact ih idx hres y h ny hny
    | some nx =>
      by_cases hh : (mapFind nx.m_id helper).isSome = true
      · simp [ascendResult, hx, hh] at hres
      · simp only [ascendResult, hx, hh] at hres
        rcases List.mem_cons.mp hy with h | h
        · rw [h, hx] at hny
          cases hny
          simpa using hh
        · exact ih _ hres y h ny hny

theorem ascendResult_is_path_id (cond : Condition T) (helper : List (Int × Bool))
    (heap : List (Node T)) :
    ∀ (path : List Nat) (idx : Int), ascendResult cond helper heap idx path ≠ -1 →
      ascendResult cond helper heap idx path ≠ idx →
      ∃ y ∈ path, ∃ ny : Node T, heap[y]? = some ny ∧
        ny.m_id = ascendResult cond helper heap idx path := by
  intro path
  induction path with
  | nil => intro idx _ h; simp [ascendResult] at h
  | cons x xs ih =>
    intro idx hres hne
    cases hx : heap[x]? with
    | none =>
      simp only [ascendResult, hx] at hres hne ⊢
      obtain ⟨y, hy, ny, hny, hid⟩ := ih idx hres hne
      exact ⟨y, List.mem_cons_of_mem _ hy, ny, hny, hid⟩
    | some nx =>
      by_cases hh : (mapFind nx.m_id helper).isSome = true
      · simp [ascendResult, hx, hh] at hres
      · simp only [ascendResult, hx, hh] at hres hne ⊢
        by_cases hc : cond nx.m_data = true
        · simp only [hc, if_true] at hres hne ⊢
          by_cases heq : ascendResult cond helper heap nx.m_id xs = nx.m_id
          · exact ⟨x, List.mem_cons_self _ _, nx, hx, heq.symm⟩
          · obtain ⟨y, hy, ny, hny, hid⟩ := ih nx.m_id hres heq
            exact ⟨y, List.mem_cons_of_mem _ hy, ny, hny, hid⟩
        · simp only [hc, if_false] at hres hne ⊢
          obtain ⟨y, hy, ny, hny, hid⟩ := ih idx hres hne
          exact ⟨y, List.mem_cons_of_mem _ hy, ny, hny, hid⟩

theorem ascendResult_no_match (cond : Condition T) (helper : List (Int × Bool))
    (heap : List (Node T)) :
    ∀ (path : List Nat) (idx : Int),
      (∀ y ∈ path, ∀ ny : Node T, heap[y]? = some ny →
        (mapFind ny.m_id helper).isSome = false) →
      (∀ y ∈ path, satisfies cond heap y = false) →
      ascendResult cond helper heap idx path = idx := by
  intro path
  induction path with
  | nil => intro idx _ _; rfl
  | cons x xs ih =>
    intro idx hhit hsat
    have ih' := ih idx (fun y hy => hhit y (List.mem_cons_of_mem _ hy))
      (fun y hy => hsat y (List.mem_cons_of_mem _ hy))
    cases hx : heap[x]? with
    | none => simp only [ascendResult, hx]; exact ih'
    | some nx =>
      have h1 := hhit x (List.mem_cons_self _ _) nx hx
      have h2 := hsat x (List.mem_cons_self _ _)
      rw [satisfies_eq cond hx] at h2
      simp only [ascendResult, hx, h1, h2, Bool.false_eq_true, if_false]
      exact ih'

end headsExact

section headsComplete
variable {T : Type}

theorem mapFind_mem {V : Type} {k : Int} {v : V} {m : List (Int × V)}
    (h : mapFind k m = some v) : (k, v) ∈ m := by
  induction m with
  | nil => simp [mapFind] at h
  | cons hd tl ih =>
    obtain ⟨k0, v0⟩ := hd
    by_cases hk : k = k0
    · simp only [mapFind, hk, if_true] at h
      cases h
      rw [hk]; exact List.mem_cons_self _ _
    · simp only [mapFind, hk, if_false] at h
      exact List.mem_cons_of_mem _ (ih h)

theorem IsHead.ascend_eq {heap : List (Node T)} {m : List (Int × Nat)} {cond : Condition T}
    (helper : List (Int × Bool)) {k : Int} (hk : IsHead cond heap m k) {a : Nat}
    {nd : Node T} (hm : mapFind k m = some a) (hget : heap[a]? = some nd) {l : List Nat}
    (hl : AncestorChain heap nd.p_parent l) (idx : Int)
    (hnohit : ∀ y ∈ a :: l, ∀ ny : Node T, heap[y]? = some ny →
      (mapFind ny.m_id helper).isSome = false) :
    ascendResult cond helper heap idx (a :: l) = k := by
  obtain ⟨a1, nd1, hm1, hget1, hid1, hcond, anc, hanc, hnone⟩ := hk
  rw [hm] at hm1
  cases hm1
  rw [hget] at hget1
  cases hget1
  have := hl.path_unique hanc
  subst this
  have h1 := hnohit a (List.mem_cons_self _ _) nd hget
  simp only [ascendResult, hget, h1, Bool.false_eq_true, if_false, hcond, if_true]
  rw [ascendResult_no_match cond helper heap l nd.m_id
    (fun y hy => hnohit y (List.mem_cons_of_mem _ hy)) hnone]
  exact hid1

theorem IsHead.hit_mem {heap : List (Node T)} {m : List (Int × Nat)} (hinv : HeapInv heap m)
    {cond : Condition T} {helper : List (Int × Bool)} {result : List Int}
    (H1 : ∀ id, (mapFind id helper).isSome = true ↔ id ∈ result)
    (H3 : ∀ id ∈ result, IsHead cond heap m id ∧ id > -1)
    {k : Int} (hk : IsHead cond heap m k) {a : Nat} {nd : Node T}
    (hm : mapFind k m = some a) (hget : heap[a]? = some nd) {l : List Nat}
    (hl : AncestorChain heap nd.p_parent l)
    (hhit : ∃ y ∈ a :: l, ∃ ny : Node T, heap[y]? = some ny ∧
      (mapFind ny.m_id helper).isSome = true) : k ∈ result := by
  obtain ⟨a1, nd1, hm1, hget1, hid1, hcond, anc, hanc, hnone⟩ := hk
  rw [hm] at hm1
  cases hm1
  rw [hget] at hget1
  cases hget1
  have := hl.path_unique hanc
  subst this
  obtain ⟨y, hy, ny, hny, hh⟩ := hhit
  have hmem := (H1 ny.m_id).mp hh
  rcases List.mem_cons.mp hy with h | h
  · subst h
    rw [hget] at hny
    cases hny
    rw [← hid1]; exact hmem
  · obtain ⟨a2, nd2, hm2, hget2, _, hcond2, _⟩ := (H3 ny.m_id hmem).1
    have hreg := hinv.reg y ny hny
    rw [hreg] at hm2
    cases hm2
    rw [hny] at hget2
    cases hget2
    have := hnone y h
    rw [satisfies_eq cond hny, hcond2] at this
    cases this

theorem headsLoop_exact {heap : List (Node T)} {m : List (Int × Nat)}
    (hinv : HeapInv heap m) (cond : Condition T) {fuel : Nat} (hfuel : heap.length ≤ fuel) :
    ∀ (it : List (Int × Nat)), (∀ e ∈ it, e ∈ m) →
      ∀ (found : Bool) (result : List Int) (helper : List (Int × Bool)) (cur : Option Nat),
        (∀ id, (mapFind id helper).isSome = true ↔ id ∈ result) →
        result.Nodup →
        (∀ id ∈ result, IsHead cond heap m id ∧ id > -1) →
        (found = true ↔ result ≠ []) →
        ∃ found1 result1 cur1,
          headsLoop fuel cond it found result helper ⟨heap, m, cur⟩ =
            .ok (found1, result1, ⟨heap, m, cur1⟩) ∧
          result1.Nodup ∧
          (∀ id ∈ result1, IsHead cond heap m id ∧ id > -1) ∧
          (∀ id ∈ result, id ∈ result1) ∧
          (∀ e ∈ it, IsHead cond heap m e.1 → e.1 > -1 → e.1 ∈ result1) ∧
          (found1 = true ↔ result1 ≠ []) := by
  intro it
  induction it with
  | nil =>
    intro _ found result helper cur _ H2 H3 H5
    exact ⟨found, result, cur, rfl, H2, H3, fun id h => h, (fun e he => by cases he), H5⟩
  | cons e es ih =>
    intro hmem found result helper cur H1 H2 H3 H5
    obtain ⟨k, v⟩ := e
    obtain ⟨a, hfind⟩ := mapFind_isSome_of_mem (hmem _ (List.mem_cons_self _ _))
    obtain ⟨nd, hget, hid⟩ := hinv.map_ok k a hfind
    obtain ⟨l, hl, hlen, _⟩ := AncestorChain.exists_of_inv hinv a nd hget
    have halt := (List.getElem?_eq_some.mp hget).1
    obtain ⟨cur1, hrun⟩ := @headsAscend_exact T heap m cond helper l a nd fuel (-1) hget hl
      (by omega)
    obtain ⟨idx2, cur2, hrun2, hcase⟩ :=
      headsAscend_chain hinv cond helper l a nd fuel (-1) hget hl (by omega)
    rw [hrun] at hrun2
    have hidx : ascendResult cond helper heap (-1) (a :: l) = idx2 := by
      injection hrun2 with h
      exact (Prod.mk.inj h).1
    have hmem' : ∀ e ∈ es, e ∈ m := fun e he => hmem e (List.mem_cons_of_mem _ he)
    by_cases hpos : ascendResult cond helper heap (-1) (a :: l) > -1
    · have hne : ascendResult cond helper heap (-1) (a :: l) ≠ -1 := by omega
      have hhead : IsHead cond heap m (ascendResult cond helper heap (-1) (a :: l)) := by
        rw [hidx]
        rcases hcase with h | ⟨h, _, _⟩ | h
        · rw [hidx] at hne; exact absurd h hne
        · rw [hidx] at hne; exact absurd h hne
        · exact h
      have hnohit := ascendResult_no_hit cond helper heap (a :: l) (-1) hne
      obtain ⟨y, hy, ny, hny, hyid⟩ :=
        ascendResult_is_path_id cond helper heap (a :: l) (-1) hne hne
      have hnotin : ascendResult cond helper heap (-1) (a :: l) ∉ result := by
        intro hin
        have h1 := (H1 _).mpr hin
        rw [← hyid, hnohit y hy ny hny] at h1
        cases h1
      obtain ⟨f1, r1, c1, hrun1, hnd1, hhd1, hsub1, hcomp1, hf1⟩ :=
        ih hmem' true (result ++ [ascendResult cond helper heap (-1) (a :: l)])
          (mapInsert (ascendResult cond helper heap (-1) (a :: l)) true helper) cur1
          (by
            intro id
            rw [mapFind_mapInsert, List.mem_append, List.mem_singleton]
            by_cases hid' : id = ascendResult cond helper heap (-1) (a :: l)
            · simp [hid']
            · simp only [hid', if_false, or_false]
              exact H1 id)
          (by
            refine List.Nodup.append H2 (List.nodup_singleton _) ?_
            intro x hx hx'
            rw [List.mem_singleton.mp hx'] at hx
            exact hnotin hx)
          (by
            intro id hid'
            rcases List.mem_append.mp hid' with h | h
            · exact H3 id h
            · rw [List.mem_singleton.mp h]; exact ⟨hhead, hpos⟩)
          (by simp)
      refine ⟨f1, r1, c1, ?_, hnd1, hhd1, ?_, ?_, hf1⟩
      · simp only [headsLoop, Select_at hfind, hrun, hpos, if_true, hrun1]
      · intro id hid'
        exact hsub1 id (List.mem_append_left _ hid')
      · intro e he hhe hgt
        rcases List.mem_cons.mp he with h | h
        · subst h
          have := IsHead.ascend_eq helper hhe hfind hget hl (-1) hnohit
          apply hsub1
          rw [this]
          exact List.mem_append_right _ (List.mem_singleton_self _)
        · exact hcomp1 e h hhe hgt
    · obtain ⟨f1, r1, c1, hrun1, hnd1, hhd1, hsub1, hcomp1, hf1⟩ :=
        ih hmem' found result helper cur1 H1 H2 H3 H5
      refine ⟨f1, r1, c1, ?_, hnd1, hhd1, hsub1, ?_, hf1⟩
      · simp only [headsLoop, Select_at hfind, hrun, hpos, if_false, hrun1]
      · intro e he hhe hgt
        rcases List.mem_cons.mp he with h | h
        · subst h
          by_cases hnohit : ∀ y ∈ a :: l, ∀ ny : Node T, heap[y]? = some ny →
              (mapFind ny.m_id helper).isSome = false
          · have := IsHead.ascend_eq helper hhe hfind hget hl (-1) hnohit
            rw [this] at hpos
            exact absurd hgt hpos
          · have hhit : ∃ y ∈ a :: l, ∃ ny : Node T, heap[y]? = some ny ∧
                (mapFind ny.m_id helper).isSome = true := by
              by_contra hcon
              apply hnohit
              intro y hy ny hny
              cases hs : (mapFind ny.m_id helper).isSome with
              | false => rfl
              | true => exact absurd ⟨y, hy, ny, hny, hs⟩ hcon
            exact hsub1 _ (IsHead.hit_mem hinv H1 H3 hhe hfind hget hl hhit)
        · exact hcomp1 e h hhe hgt

theorem GetHeads_exact {heap : List (Node T)} {m : List (Int × Nat)}
    (hinv : HeapInv heap m) (cond : Condition T) (cur : Option Nat) {fuel : Nat}
    (hfuel : heap.length ≤ fuel) :
    ∃ found result cur1,
      GetHeads fuel [] cond ⟨heap, m, cur⟩ = .ok (found, result, ⟨heap, m, cur1⟩) ∧
      result.Nodup ∧
      (∀ id, id ∈ result ↔ (IsHead cond heap m id ∧ id > -1)) ∧
      (found = true ↔ result ≠ []) := by
  obtain ⟨f1, r1, c1, hrun, hnd, hhd, _, hcomp, hf⟩ :=
    headsLoop_exact hinv cond hfuel m (fun e he => he) false [] [] cur
      (by intro id; simp [mapFind]) List.nodup_nil (fun id hid => by cases hid) (by simp)
  refine ⟨f1, r1, c1, hrun, hnd, ?_, hf⟩
  intro id
  constructor
  · exact hhd id
  · rintro ⟨hh, hgt⟩
    have hh2 := hh
    obtain ⟨a, nd, hm, _⟩ := hh2
    exact hcomp (id, a) (mapFind_mem hm) hh hgt

end headsComplete

theorem IsHead_alwaysTrue_iff {T : Type} {heap : List (Node T)} {m : List (Int × Nat)}
    (hinv : HeapInv heap m) (id : Int) :
    IsHead alwaysTrue heap m id ↔
      ∃ (a : Nat) (nd : Node T), mapFind id m = some a ∧ heap[a]? = some nd ∧
        nd.p_parent = none := by
  constructor
  · rintro ⟨a, nd, hm, hget, _, _, anc, hanc, hnone⟩
    refine ⟨a, nd, hm, hget, ?_⟩
    cases hp : nd.p_parent with
    | none => rfl
    | some p =>
      rw [hp] at hanc
      cases hanc with
      | @cons _ np _ hgp _ =>
        have := hnone p (List.mem_cons_self _ _)
        simp [satisfies, hgp, alwaysTrue] at this
  · rintro ⟨a, nd, hm, hget, hp⟩
    obtain ⟨nd1, hget1, hid⟩ := hinv.map_ok id a hm
    rw [hget] at hget1
    cases hget1
    exact ⟨a, nd, hm, hget, hid, rfl, [], hp ▸ AncestorChain.nil, fun b hb => by cases hb⟩

/-- Counterexample to C11 as stated: on the empty forest, and on the forest
whose only root has id `-2`, `GetHeads` with the always-true predicate
returns false and an empty vector. -/
theorem GetHeads_alwaysTrue_returns_false :
    Built (Container.empty : Container Int) ∧
    GetHeads 0 [] alwaysTrue (Container.empty : Container Int) =
      .ok (false, [], Container.empty) ∧
    Built negativeRoot ∧ parentOf negativeRoot.heap 0 = none ∧
    idAt negativeRoot.heap 0 = some (-2) ∧
    GetHeads 1 [] alwaysTrue negativeRoot =
      .ok (false, [], { negativeRoot with p_current := none }) :=
  ⟨Built.empty, rfl, addStep_built Built.empty (-2) 0 1 1 rfl, rfl, rfl, rfl⟩

/-- Claim C11, amended: in a built forest, whatever the cursor, `GetHeads`
with the always-true predicate and an empty vector fills the vector with
exactly the ids greater than `-1` of the root nodes, each once, and returns
true exactly when the vector is not empty; in particular it returns true on
a non-empty forest whose ids are all greater than `-1`. -/
theorem GetHeads_alwaysTrue_lists_nonnegative_roots {T : Type} (c : Container T)
    (hb : Built c) (cur : Option Nat) (fuel : Nat) (hf : c.heap.length ≤ fuel) :
    ∃ found result c1,
      GetHeads fuel [] alwaysTrue { c with p_current := cur } = .ok (found, result, c1) ∧
      result.Nodup ∧
      (∀ id, id ∈ result ↔
        (id > -1 ∧ ∃ (a : Nat) (nd : Node T), mapFind id c.m_map = some a ∧
          c.heap[a]? = some nd ∧ nd.p_parent = none)) ∧
      (found = true ↔ result ≠ []) ∧
      (c.heap ≠ [] → (∀ e ∈ c.m_map, e.1 > -1) → found = true) := by
  have hinv := hb.heapInv
  obtain ⟨heap, m, cur0⟩ := c
  simp only at hinv hf ⊢
  obtain ⟨found, result, cur1, hrun, hnd, hiff, hfound⟩ :=
    GetHeads_exact hinv alwaysTrue cur hf
  have hiff' : ∀ id, id ∈ result ↔
      (id > -1 ∧ ∃ (a : Nat) (nd : Node T), mapFind id m = some a ∧
        heap[a]? = some nd ∧ nd.p_parent = none) := by
    intro id
    rw [hiff id, IsHead_alwaysTrue_iff hinv id]
    exact and_comm
  refine ⟨found, result, _, hrun, hnd, hiff', hfound, ?_⟩
  intro hne hids
  rw [hfound]
  have hlen : 0 < heap.length := List.length_pos.mpr hne
  have hget : heap[0]? = some heap[0] := List.getElem?_eq_getElem hlen
  have hreg := hinv.reg 0 _ hget
  have hroot : heap[0].p_parent = none := by
    cases hp : heap[0].p_parent with
    | none => rfl
    | some p => exact absurd (hinv.par 0 _ p hget hp) (Nat.not_lt_zero _)
  have hmem : heap[0].m_id ∈ result :=
    (hiff' _).mpr ⟨hids _ (mapFind_mem hreg), 0, _, hreg, hget, hroot⟩
  intro hnil
  rw [hnil] at hmem
  cases hmem

/-- Witness of the amended C11 on the reference forest, where the vector
produced is `[1]`. -/
theorem GetHeads_alwaysTrue_lists_nonnegative_roots_witness :
    Built referenceForest ∧ referenceForest.heap.length ≤ 9 ∧
    GetHeads 9 [] alwaysTrue { referenceForest with p_current := none } =
      .ok (true, [1], referenceAt 0) ∧
    ∃ found result c1,
      GetHeads 9 [] alwaysTrue { referenceForest with p_current := none } =
        .ok (found, result, c1) ∧
      result.Nodup ∧
      (∀ id, id ∈ result ↔
        (id > -1 ∧ ∃ (a : Nat) (nd : Node Int), mapFind id referenceForest.m_map = some a ∧
          referenceForest.heap[a]? = some nd ∧ nd.p_parent = none)) ∧
      (found = true ↔ result ≠ []) ∧
      (referenceForest.heap ≠ [] → (∀ e ∈ referenceForest.m_map, e.1 > -1) → found = true) :=
  ⟨referenceForest_built, by decide, rfl,
    GetHeads_alwaysTrue_lists_nonnegative_roots referenceForest referenceForest_built none 9
      (by decide)⟩

/-- Witness of C12 on the reference forest: `Update(4, 434)` with the
predicate `p`. -/
theorem Update_sets_quantity_only_witness :
    Built referenceForest ∧
    ∃ b c1, Update 4 434 pfilter { referenceForest with p_current := none } = .ok (b, c1) ∧
      c1.m_map = referenceForest.m_map ∧
      (b = true ↔ ∃ a nd, mapFind 4 referenceForest.m_map = some a ∧
        referenceForest.heap[a]? = some nd ∧ pfilter nd.m_data = true) ∧
      (b = true → ∃ a nd, mapFind 4 referenceForest.m_map = some a ∧
        referenceForest.heap[a]? = some nd ∧
        c1.heap = referenceForest.heap.set a
          { nd with m_data := { nd.m_data with data := 434 } }) ∧
      (b = false → c1.heap = referenceForest.heap) :=
  ⟨referenceForest_built,
    Update_sets_quantity_only referenceForest referenceForest_built none 4 434 pfilter⟩

/-- Witness of C13 on the reference forest: `GetValue(4)` with the
predicate `e-` and `result` holding 7 beforehand. -/
theorem GetValue_returns_quantity_or_zero_witness :
    Built referenceForest ∧ Exists 4 referenceForest = true ∧
    ∃ a nd c1, mapFind 4 referenceForest.m_map = some a ∧
      referenceForest.heap[a]? = some nd ∧ nd.m_id = 4 ∧
      GetValue 4 7 elefilter { referenceForest with p_current := none } =
        .ok (elefilter nd.m_data, (if elefilter nd.m_data then nd.m_data.data else 0), c1) :=
  ⟨referenceForest_built, rfl,
    GetValue_returns_quantity_or_zero referenceForest referenceForest_built none 4 rfl 7
      elefilter⟩

/-- Witness of C16 on the reference forest: `GetSumSecondaries(4)` with the
predicate `e+` and `result` holding `-1` beforehand (test.cc lines 167-169). -/
theorem GetSumSecondaries_false_keeps_result_witness :
    Built referenceForest ∧ referenceForest.heap.length ≤ 9 ∧
    ∃ b r c1,
      GetSumSecondaries 9 4 (-1) (fun d => d.pdef == 2)
        { referenceForest with p_current := none } = .ok (b, r, c1) ∧
      (b = false ↔ (Exists 4 referenceForest = false ∨
        ∃ a, mapFind 4 referenceForest.m_map = some a ∧
          ∀ ch ∈ childrenOf referenceForest.heap a,
            satisfies (fun d => d.pdef == 2) referenceForest.heap ch = false)) ∧
      (b = false → r = -1) :=
  ⟨referenceForest_built, by decide,
    GetSumSecondaries_false_keeps_result referenceForest referenceForest_built none 4 (-1)
      (fun d => d.pdef == 2) 9 (by decide)⟩

/-- Witness of C17 on the reference forest: `GetSecondariesIds(2)` with the
predicate `p` (test.cc lines 176-178). -/
theorem GetSecondariesIds_appends_matching_children_witness :
    Built referenceForest ∧ Exists 2 referenceForest = true ∧
    referenceForest.heap.length ≤ 9 ∧
    ∃ a b appended c1, mapFind 2 referenceForest.m_map = some a ∧
      GetSecondariesIds 9 2 [] pfilter { referenceForest with p_current := none } =
        .ok (b, [] ++ appended, c1) ∧
      List.Forall₂ (fun ch i => idAt referenceForest.heap ch = some i)
        ((childrenOf referenceForest.heap a).filter (satisfies pfilter referenceForest.heap))
        appended ∧
      (b = true ↔ appended ≠ []) :=
  ⟨referenceForest_built, rfl, by decide,
    GetSecondariesIds_appends_matching_children referenceForest referenceForest_built none 2
      rfl [] pfilter 9 (by decide)⟩

theorem exists_head_of_satisfying {T : Type} {heap : List (Node T)} {m : List (Int × Nat)}
    (hinv : HeapInv heap m) (cond : Condition T) :
    ∀ (a : Nat) (nd : Node T), heap[a]? = some nd → cond nd.m_data = true →
      ∃ id, IsHead cond heap m id := by
  intro a
  induction a using Nat.strong_induction_on with
  | _ a ih =>
    intro nd hget hcond
    obtain ⟨anc, hanc, _, hlt⟩ := AncestorChain.exists_of_inv hinv a nd hget
    by_cases hnone : ∀ b ∈ anc, satisfies cond heap b = false
    · exact ⟨nd.m_id, a, nd, hinv.reg a nd hget, hget, rfl, hcond, anc, hanc, hnone⟩
    · have hex : ∃ b ∈ anc, satisfies cond heap b = true := by
        by_contra hcon
        apply hnone
        intro b hb
        cases hs : satisfies cond heap b with
        | false => rfl
        | true => exact absurd ⟨b, hb, hs⟩ hcon
      obtain ⟨b, hb, hs⟩ := hex
      obtain ⟨nb, hnb⟩ := hanc.valid b hb
      rw [satisfies_eq cond hnb] at hs
      exact ih b (hlt b hb) nb hnb hs

theorem AncestorChain.last_root {T : Type} {heap : List (Node T)} {ptr : Option Nat}
    {l : List Nat} (h : AncestorChain heap ptr l) :
    ∀ r, l.getLast? = some r → parentOf heap r = none := by
  induction h with
  | nil => intro r hr; simp at hr
  | @cons a nd l hget hrest ih =>
    intro r hr
    cases l with
    | nil =>
      simp only [List.getLast?_singleton, Option.some.injEq] at hr
      subst hr
      rw [parentOf_eq hget]
      cases hp : nd.p_parent with
      | none => rfl
      | some p => rw [hp] at hrest; cases hrest
    | cons x xs =>
      rw [List.getLast?_cons_cons] at hr
      exact ih r hr

/-- Claim C21: in a built forest, whatever the cursor and the predicate,
`GetHeads` called with an empty vector returns a vector in which no id
occurs twice. -/
theorem GetHeads_result_has_no_duplicates {T : Type} (c : Container T) (hb : Built c)
    (cur : Option Nat) (cond : Condition T) (fuel : Nat) (hf : c.heap.length ≤ fuel) :
    ∃ found result c1,
      GetHeads fuel [] cond { c with p_current := cur } = .ok (found, result, c1) ∧
      result.Nodup := by
  have hinv := hb.heapInv
  obtain ⟨heap, m, cur0⟩ := c
  simp only at hinv hf ⊢
  obtain ⟨found, result, cur1, hrun, hnd, _, _⟩ := GetHeads_exact hinv cond cur hf
  exact ⟨found, result, _, hrun, hnd⟩

/-- Witness of C21 on the reference forest with the predicate `p`, where
the vector produced is `[4, 5, 9]` although the head 4 is reached from the
starting nodes 4, 6 and 7. -/
theorem GetHeads_result_has_no_duplicates_witness :
    Built referenceForest ∧ referenceForest.heap.length ≤ 9 ∧
    GetHeads 9 [] pfilter { referenceForest with p_current := none } =
      .ok (true, [4, 5, 9], { referenceForest with p_current := none }) ∧
    ∃ found result c1,
      GetHeads 9 [] pfilter { referenceForest with p_current := none } =
        .ok (found, result, c1) ∧
      result.Nodup :=
  ⟨referenceForest_built, by decide, rfl,
    GetHeads_result_has_no_duplicates referenceForest referenceForest_built none pfilter 9
      (by decide)⟩

/-- Claim C22: every forest built from the empty one by `AddOne` calls with
distinct ids satisfies the data-model invariant: for each node, the chain
from its `p_firstChild` along `p_nextSibling` lists, each once, exactly the
nodes whose parent is that node; its parent, if any, is a node registered
in the map; it is not among its own ancestors; and the map is injective
(a registered id leads to a node with that id, and two nodes with the same
id are the same node). -/
theorem built_forest_satisfies_invariant {T : Type} (c : Container T) (hb : Built c) :
    (∀ (a : Nat) (nd : Node T), c.heap[a]? = some nd →
      (∃ l, SiblingChain c.heap nd.p_firstChild l ∧ l.Nodup ∧
        ∀ b, b ∈ l ↔ parentOf c.heap b = some a) ∧
      (∀ p, nd.p_parent = some p →
        ∃ pn : Node T, c.heap[p]? = some pn ∧ mapFind pn.m_id c.m_map = some p) ∧
      (∃ anc, AncestorChain c.heap nd.p_parent anc ∧ a ∉ anc)) ∧
    (∀ (id : Int) (a : Nat), mapFind id c.m_map = some a →
      ∃ nd : Node T, c.heap[a]? = some nd ∧ nd.m_id = id) ∧
    (∀ (a b : Nat) (na nb : Node T), c.heap[a]? = some na → c.heap[b]? = some nb →
      na.m_id = nb.m_id → a = b) := by
  have hinv := hb.heapInv
  refine ⟨?_, hinv.map_ok, ?_⟩
  · intro a nd hget
    refine ⟨⟨childrenOf c.heap a, hinv.chain a nd hget, childrenOf_nodup _ _,
      fun b => mem_childrenOf_iff_parentOf⟩, ?_, ?_⟩
    · intro p hp
      have hpa := hinv.par a nd p hget hp
      have hplt : p < c.heap.length := lt_trans hpa (List.getElem?_eq_some.mp hget).1
      have hpn := List.getElem?_eq_getElem hplt
      exact ⟨_, hpn, hinv.reg p _ hpn⟩
    · obtain ⟨anc, hanc, _, hlt⟩ := AncestorChain.exists_of_inv hinv a nd hget
      refine ⟨anc, hanc, ?_⟩
      intro hmem
      have := hlt a hmem
      omega
  · intro a b na nb ha hb' hid
    have h1 := hinv.reg a na ha
    have h2 := hinv.reg b nb hb'
    rw [hid, h2] at h1
    exact (Option.some.inj h1).symm

/-- Witness of C22 on the reference forest. -/
theorem built_forest_satisfies_invariant_witness :
    Built referenceForest ∧
    ((∀ (a : Nat) (nd : Node Int), referenceForest.heap[a]? = some nd →
      (∃ l, SiblingChain referenceForest.heap nd.p_firstChild l ∧ l.Nodup ∧
        ∀ b, b ∈ l ↔ parentOf referenceForest.heap b = some a) ∧
      (∀ p, nd.p_parent = some p →
        ∃ pn : Node Int, referenceForest.heap[p]? = some pn ∧
          mapFind pn.m_id referenceForest.m_map = some p) ∧
      (∃ anc, AncestorChain referenceForest.heap nd.p_parent anc ∧ a ∉ anc)) ∧
    (∀ (id : Int) (a : Nat), mapFind id referenceForest.m_map = some a →
      ∃ nd : Node Int, referenceForest.heap[a]? = some nd ∧ nd.m_id = id) ∧
    (∀ (a b : Nat) (na nb : Node Int), referenceForest.heap[a]? = some na →
      referenceForest.heap[b]? = some nb → na.m_id = nb.m_id → a = b)) :=
  ⟨referenceForest_built, built_forest_satisfies_invariant referenceForest referenceForest_built⟩

/-- Claim C24: in a built forest whose ids are all non-negative, whatever
the cursor and the predicate, `GetHeads` called with an empty vector
returns a vector containing the id of every node that satisfies `cond` and
has no strict ancestor satisfying `cond`, and returns true exactly when some
node of the forest satisfies `cond`. -/
theorem GetHeads_complete_on_nonnegative_ids {T : Type} (c : Container T) (hb : Built c)
    (hids : ∀ e ∈ c.m_map, 0 ≤ e.1) (cur : Option Nat) (cond : Condition T) (fuel : Nat)
    (hf : c.heap.length ≤ fuel) :
    ∃ found result c1,
      GetHeads fuel [] cond { c with p_current := cur } = .ok (found, result, c1) ∧
      (∀ (a : Nat) (nd : Node T) (anc : List Nat), c.heap[a]? = some nd →
        cond nd.m_data = true → AncestorChain c.heap nd.p_parent anc →
        (∀ b ∈ anc, satisfies cond c.heap b = false) → nd.m_id ∈ result) ∧
      (found = true ↔ ∃ (a : Nat) (nd : Node T), c.heap[a]? = some nd ∧
        cond nd.m_data = true) := by
  have hinv := hb.heapInv
  obtain ⟨heap, m, cur0⟩ := c
  simp only at hinv hf hids ⊢
  obtain ⟨found, result, cur1, hrun, _, hiff, hfound⟩ := GetHeads_exact hinv cond cur hf
  have hpos : ∀ id, IsHead cond heap m id → id > -1 := by
    intro id hh
    obtain ⟨a, nd, hm, _⟩ := hh
    have := hids _ (mapFind_mem hm)
    simp only at this
    omega
  refine ⟨found, result, _, hrun, ?_, ?_⟩
  · intro a nd anc hget hcond hanc hnone
    have hh : IsHead cond heap m nd.m_id :=
      ⟨a, nd, hinv.reg a nd hget, hget, rfl, hcond, anc, hanc, hnone⟩
    exact (hiff _).mpr ⟨hh, hpos _ hh⟩
  · rw [hfound]
    constructor
    · intro hne
      cases hr : result with
      | nil => exact absurd hr hne
      | cons id rest =>
        have hmem : id ∈ result := by rw [hr]; exact List.mem_cons_self _ _
        obtain ⟨⟨a, nd, _, hget, _, hcond, _⟩, _⟩ := (hiff id).mp hmem
        exact ⟨a, nd, hget, hcond⟩
    · rintro ⟨a, nd, hget, hcond⟩ hnil
      obtain ⟨id, hh⟩ := exists_head_of_satisfying hinv cond a nd hget hcond
      have hmem := (hiff id).mpr ⟨hh, hpos id hh⟩
      rw [hnil] at hmem
      cases hmem

/-- Witness of C24 on the reference forest with the predicate `e-`. -/
theorem GetHeads_complete_on_nonnegative_ids_witness :
    Built referenceForest ∧ (∀ e ∈ referenceForest.m_map, 0 ≤ e.1) ∧
    referenceForest.heap.length ≤ 9 ∧
    ∃ found result c1,
      GetHeads 9 [] elefilter { referenceForest with p_current := none } =
        .ok (found, result, c1) ∧
      (∀ (a : Nat) (nd : Node Int) (anc : List Nat), referenceForest.heap[a]? = some nd →
        elefilter nd.m_data = true → AncestorChain referenceForest.heap nd.p_parent anc →
        (∀ b ∈ anc, satisfies elefilter referenceForest.heap b = false) →
        nd.m_id ∈ result) ∧
      (found = true ↔ ∃ (a : Nat) (nd : Node Int), referenceForest.heap[a]? = some nd ∧
        elefilter nd.m_data = true) :=
  ⟨referenceForest_built, by decide, by decide,
    GetHeads_complete_on_nonnegative_ids referenceForest referenceForest_built (by decide)
      none elefilter 9 (by decide)⟩

theorem SumSiblings_ok {T : Type} [AddCommMonoid T] {heap : List (Node T)}
    {m : List (Int × Nat)} (hinv : HeapInv heap m) (cond : Condition T) {a : Nat}
    {nd : Node T} (hget : heap[a]? = some nd) {fuel : Nat} (hfuel : heap.length ≤ fuel) :
    ∃ v, SumSiblings fuel cond ⟨heap, m, some a⟩ = .ok (v, ⟨heap, m, some a⟩) := by
  cases hp : nd.p_parent with
  | none => exact ⟨_, SumSiblings_root hinv cond hget hp fuel⟩
  | some p => exact ⟨_, SumSiblings_child hinv cond hget hp hfuel⟩

theorem facade_lookups_ok {T : Type} [AddCommMonoid T] {heap : List (Node T)}
    {m : List (Int × Nat)} (hinv : HeapInv heap m) (cond : Condition T) (cur : Option Nat)
    (id parentid : Int) (value result : T) {fuel : Nat} (hfuel : heap.length ≤ fuel) :
    (∃ r, Matches id cond ⟨heap, m, cur⟩ = .ok r) ∧
    (∃ r, GetValue id result cond ⟨heap, m, cur⟩ = .ok r) ∧
    (∃ r, Update id value cond ⟨heap, m, cur⟩ = .ok r) ∧
    (∃ r, ParentMatches fuel id parentid cond ⟨heap, m, cur⟩ = .ok r) ∧
    (∃ r, GetSumParents fuel id result cond ⟨heap, m, cur⟩ = .ok r) := by
  cases hm : mapFind id m with
  | none =>
    refine ⟨?_, ?_, ?_, ?_, ?_⟩
    · exact ⟨(false, ⟨heap, m, cur⟩), by simp [Matches, Exists, hm]⟩
    · exact ⟨(false, result, ⟨heap, m, cur⟩), by simp [GetValue, Exists, hm]⟩
    · exact ⟨(false, ⟨heap, m, cur⟩), by simp [Update, Exists, hm]⟩
    · exact ⟨(false, parentid, ⟨heap, m, cur⟩), by simp [ParentMatches, Exists, hm]⟩
    · exact ⟨(false, result, ⟨heap, m, cur⟩), by simp [GetSumParents, Exists, hm]⟩
  | some a =>
    obtain ⟨nd, hget, _⟩ := hinv.map_ok id a hm
    obtain ⟨anc, hanc, _, _⟩ := AncestorChain.exists_of_inv hinv a nd hget
    refine ⟨?_, ?_, ?_, ?_, ?_⟩
    · exact ⟨(cond nd.m_data, ⟨heap, m, some a⟩), by
        by_cases hc : cond nd.m_data = true
        · simp [Matches, Exists, hm, Select, GetData_at hget, hc]
        · simp [Matches, Exists, hm, Select, GetData_at hget, hc]⟩
    · exact ⟨(cond nd.m_data, nodeValue cond heap a, ⟨heap, m, some a⟩), by
        simp only [GetValue, Exists, hm, Option.isSome_some, if_true, Select,
          Data_at cond hget, GetData_at hget]⟩
    · by_cases hc : cond nd.m_data = true
      · exact ⟨(true, ⟨heap.set a { nd with m_data := { nd.m_data with data := value } }, m,
          some a⟩), by
          simp [Update, Exists, hm, Select, GetData_at hget, hc, UpdateCurrent,
            UpdateCurrentValue, hget]⟩
      · exact ⟨(false, ⟨heap, m, some a⟩), by
          simp [Update, Exists, hm, Select, GetData_at hget, hc]⟩
    · exact ⟨_, by
        simp only [ParentMatches, Exists, hm, Option.isSome_some, if_true, Select]
        exact HasParent_at hinv cond parentid hget hanc hfuel⟩
    · exact ⟨((nearestMatch cond heap 0 anc).1, sumOver cond heap anc, ⟨heap, m, some a⟩), by
        simp only [GetSumParents, Exists, hm, Option.isSome_some, if_true, Select,
          SumParent_at hinv cond hget hanc hfuel, HasParent_at hinv cond 0 hget hanc hfuel]⟩

theorem facade_children_ok {T : Type} [AddCommMonoid T] {heap : List (Node T)}
    {m : List (Int × Nat)} (hinv : HeapInv heap m) (cond : Condition T) (cur : Option Nat)
    (id : Int) (result : T) (ids : List Int) {fuel : Nat} (hfuel : heap.length ≤ fuel) :
    (∃ r, GetSumSecondaries fuel id result cond ⟨heap, m, cur⟩ = .ok r) ∧
    (∃ r, GetSecondariesIds fuel id ids cond ⟨heap, m, cur⟩ = .ok r) := by
  cases hm : mapFind id m with
  | none =>
    refine ⟨?_, ?_⟩
    · exact ⟨(false, result, ⟨heap, m, cur⟩), by simp [GetSumSecondaries, Exists, hm]⟩
    · exact ⟨(false, ids, ⟨heap, m, cur⟩), by simp [GetSecondariesIds, Exists, hm]⟩
  | some a =>
    obtain ⟨_, h1⟩ := GetSumSecondaries_at hinv cond cur hm result hfuel
    obtain ⟨_, h2⟩ := GetSecondariesIds_at hinv cond cur hm ids hfuel
    exact ⟨⟨_, h1⟩, ⟨_, h2⟩⟩

/-- In a built forest, with enough fuel, every facade operation (for any
id, registered or not, and any cursor) and every engine operation entered
with the cursor on an allocated node returns a value. `Select` on an id
missing from the map is the only source of `Fault.missingId` and every
fault is propagated to the caller, so no `Select` executed inside these
operations is made with an id absent from the map. -/
theorem operations_return_on_allocated_cursor {T : Type} [AddCommMonoid T] (c : Container T)
    (hb : Built c) (cond : Condition T) (fuel : Nat) (hf : 2 * c.heap.length ≤ fuel) :
    (∀ (cur : Option Nat) (id parentid : Int) (value result : T) (ids : List Int),
      (∃ r, Matches id cond { c with p_current := cur } = .ok r) ∧
      (∃ r, GetValue id result cond { c with p_current := cur } = .ok r) ∧
      (∃ r, Update id value cond { c with p_current := cur } = .ok r) ∧
      (∃ r, ParentMatches fuel id parentid cond { c with p_current := cur } = .ok r) ∧
      (∃ r, GetSumParents fuel id result cond { c with p_current := cur } = .ok r) ∧
      (∃ r, GetSumSecondaries fuel id result cond { c with p_current := cur } = .ok r) ∧
      (∃ r, GetSecondariesIds fuel id ids cond { c with p_current := cur } = .ok r) ∧
      (∃ r, GetHeads fuel [] cond { c with p_current := cur } = .ok r)) ∧
    (∀ (a : Nat) (id0 : Int), a < c.heap.length →
      (∃ r, SumSiblings fuel cond { c with p_current := some a } = .ok r) ∧
      (∃ r, SumChildren fuel cond { c with p_current := some a } = .ok r) ∧
      (∃ r, SumBranch fuel cond { c with p_current := some a } = .ok r) ∧
      (∃ r, SumParent fuel cond { c with p_current := some a } = .ok r) ∧
      (∃ r, HasParent fuel id0 cond { c with p_current := some a } = .ok r)) := by
  have hinv := hb.heapInv
  obtain ⟨heap, m, cur0⟩ := c
  simp only at hinv hf ⊢
  have hf1 : heap.length ≤ fuel := by omega
  constructor
  · intro cur id parentid value result ids
    obtain ⟨h1, h2, h3, h4, h5⟩ :=
      facade_lookups_ok hinv cond cur id parentid value result hf1
    obtain ⟨h6, h7⟩ := facade_children_ok hinv cond cur id result ids hf1
    obtain ⟨found, res, cur1, hrun, _⟩ := GetHeads_exact hinv cond cur hf1
    exact ⟨h1, h2, h3, h4, h5, h6, h7, ⟨_, hrun⟩⟩
  · intro a id0 halt
    have hget : heap[a]? = some heap[a] := List.getElem?_eq_getElem halt
    obtain ⟨anc, hanc, _, _⟩ := AncestorChain.exists_of_inv hinv a _ hget
    obtain ⟨v, hv⟩ := SumSiblings_ok hinv cond hget hf1
    exact ⟨⟨_, hv⟩, ⟨_, SumChildren_at hinv cond hget hf1⟩,
      ⟨_, SumBranch_at hinv cond hget hf⟩, ⟨_, SumParent_at hinv cond hget hanc hf1⟩,
      ⟨_, HasParent_at hinv cond id0 hget hanc hf1⟩⟩

/-- Claim C25: in a built forest, a node's parent has a smaller address
than the node (it was allocated by an earlier insertion), so the chain of
strict ancestors of any node is shorter than the number of nodes and ends
at a node without parent; with the cursor on any node, `SumParent`,
`HasParent` and `GetHeads` return for every fuel at least the number of
nodes, and `SumBranch` for every fuel at least twice that number. -/
theorem parent_walk_bounded_and_traversals_return {T : Type} [AddCommMonoid T]
    (c : Container T) (hb : Built c) (a : Nat) (nd : Node T) (hget : c.heap[a]? = some nd)
    (cond : Condition T) (id0 : Int) :
    (∀ p, nd.p_parent = some p → p < a) ∧
    ∃ anc, AncestorChain c.heap nd.p_parent anc ∧ anc.length < c.heap.length ∧
      (∀ r, (a :: anc).getLast? = some r → parentOf c.heap r = none) ∧
      (∀ fuel, c.heap.length ≤ fuel →
        (∃ r, SumParent fuel cond { c with p_current := some a } = .ok r) ∧
        (∃ r, HasParent fuel id0 cond { c with p_current := some a } = .ok r) ∧
        (∃ r, GetHeads fuel [] cond { c with p_current := some a } = .ok r)) ∧
      (∀ fuel, 2 * c.heap.length ≤ fuel →
        ∃ r, SumBranch fuel cond { c with p_current := some a } = .ok r) := by
  have hinv := hb.heapInv
  obtain ⟨heap, m, cur0⟩ := c
  simp only at hinv hget ⊢
  have halt := (List.getElem?_eq_some.mp hget).1
  obtain ⟨anc, hanc, hlen, _⟩ := AncestorChain.exists_of_inv hinv a nd hget
  refine ⟨fun p hp => hinv.par a nd p hget hp, anc, hanc, by omega, ?_, ?_, ?_⟩
  · exact (AncestorChain.cons hget hanc).last_root
  · intro fuel hfuel
    obtain ⟨found, res, cur1, hrun, _⟩ := GetHeads_exact hinv cond (some a) hfuel
    exact ⟨⟨_, SumParent_at hinv cond hget hanc hfuel⟩,
      ⟨_, HasParent_at hinv cond id0 hget hanc hfuel⟩, ⟨_, hrun⟩⟩
  · intro fuel hfuel
    exact ⟨_, SumBranch_at hinv cond hget hfuel⟩

/-- Instance of `operations_return_on_allocated_cursor` on the reference
forest with the predicate `e-`. -/
theorem operations_return_on_allocated_cursor_reference :
    Built referenceForest ∧ 2 * referenceForest.heap.length ≤ 18 ∧
    ((∀ (cur : Option Nat) (id parentid : Int) (value result : Int) (ids : List Int),
      (∃ r, Matches id elefilter { referenceForest with p_current := cur } = .ok r) ∧
      (∃ r, GetValue id result elefilter { referenceForest with p_current := cur } = .ok r) ∧
      (∃ r, Update id value elefilter { referenceForest with p_current := cur } = .ok r) ∧
      (∃ r, ParentMatches 18 id parentid elefilter
        { referenceForest with p_current := cur } = .ok r) ∧
      (∃ r, GetSumParents 18 id result elefilter
        { referenceForest with p_current := cur } = .ok r) ∧
      (∃ r, GetSumSecondaries 18 id result elefilter
        { referenceForest with p_current := cur } = .ok r) ∧
      (∃ r, GetSecondariesIds 18 id ids elefilter
        { referenceForest with p_current := cur } = .ok r) ∧
      (∃ r, GetHeads 18 [] elefilter { referenceForest with p_current := cur } = .ok r)) ∧
    (∀ (a : Nat) (id0 : Int), a < referenceForest.heap.length →
      (∃ r, SumSiblings 18 elefilter { referenceForest with p_current := some a } = .ok r) ∧
      (∃ r, SumChildren 18 elefilter { referenceForest with p_current := some a } = .ok r) ∧
      (∃ r, SumBranch 18 elefilter { referenceForest with p_current := some a } = .ok r) ∧
      (∃ r, SumParent 18 elefilter { referenceForest with p_current := some a } = .ok r) ∧
      (∃ r, HasParent 18 id0 elefilter
        { referenceForest with p_current := some a } = .ok r))) :=
  ⟨referenceForest_built, by decide,
    operations_return_on_allocated_cursor referenceForest referenceForest_built elefilter 18
      (by decide)⟩

/-- Witness of C25 on the reference forest at the node with id 8
(address 7), whose ancestors are ids 5, 2 and 1. -/
theorem parent_walk_bounded_and_traversals_return_witness :
    Built referenceForest ∧
    referenceForest.heap[7]? = some ⟨8, ⟨2, 8⟩, some 4, none, none⟩ ∧
    ((∀ p, (⟨8, ⟨2, 8⟩, some 4, none, none⟩ : Node Int).p_parent = some p → p < 7) ∧
    ∃ anc, AncestorChain referenceForest.heap
        (⟨8, ⟨2, 8⟩, some 4, none, none⟩ : Node Int).p_parent anc ∧
      anc.length < referenceForest.heap.length ∧
      (∀ r, (7 :: anc).getLast? = some r → parentOf referenceForest.heap r = none) ∧
      (∀ fuel, referenceForest.heap.length ≤ fuel →
        (∃ r, SumParent fuel alwaysTrue { referenceForest with p_current := some 7 } = .ok r) ∧
        (∃ r, HasParent fuel (-1) alwaysTrue
          { referenceForest with p_current := some 7 } = .ok r) ∧
        (∃ r, GetHeads fuel [] alwaysTrue
          { referenceForest with p_current := some 7 } = .ok r)) ∧
      (∀ fuel, 2 * referenceForest.heap.length ≤ fuel →
        ∃ r, SumBranch fuel alwaysTrue { referenceForest with p_current := some 7 } = .ok r)) :=
  ⟨referenceForest_built, rfl,
    parent_walk_bounded_and_traversals_return referenceForest referenceForest_built 7
      ⟨8, ⟨2, 8⟩, some 4, none, none⟩ rfl alwaysTrue (-1)⟩

section accum
variable {T : Type}

theorem Data_acc [Zero T] [Add T] {heap : List (Node T)} {m : List (Int × Nat)} {a : Nat}
    {nd : Node T} (cond : Condition T) (h : heap[a]? = some nd) :
    Data cond ⟨heap, m, some a⟩ = .ok (dataAt cond heap a) := by
  by_cases hc : cond nd.m_data = true
  · simp [Data, CurrentValid, GetData, deref, h, dataAt, satisfies, quantityAt, hc]
  · simp [Data, CurrentValid, GetData, deref, h, dataAt, satisfies, quantityAt, hc]

theorem Data_none [Zero T] [Add T] {heap : List (Node T)} {m : List (Int × Nat)}
    (cond : Condition T) : Data cond ⟨heap, m, none⟩ = .ok 0 := by
  simp [Data, CurrentValid]

theorem accumulate_append [Add T] (r : T) (l1 l2 : List T) :
    accumulate r (l1 ++ l2) = accumulate (accumulate r l1) l2 := by
  simp [accumulate, List.foldl_append]

theorem sumSiblingsLoop_acc [Zero T] [Add T] {heap : List (Node T)} {m : List (Int × Nat)}
    (cond : Condition T) :
    ∀ (rest : List Nat) (x : Nat) (fuel : Nat) (r : T),
      SiblingChain heap (some x) (x :: rest) → rest.length < fuel →
      sumSiblingsLoop cond fuel r ⟨heap, m, some x⟩ =
        .ok (accumulate r (rest.map (dataAt cond heap)), ⟨heap, m, none⟩) := by
  intro rest
  induction rest with
  | nil =>
    intro x fuel r hc hf
    obtain ⟨nd, rest1, hl, hget, hrest⟩ := hc.inv_some
    cases hl
    cases fuel with
    | zero => simp at hf
    | succ k =>
      cases hns : nd.p_nextSibling with
      | some y => rw [hns] at hrest; have := hrest.inv_some; simp at this
      | none => simp [sumSiblingsLoop, SelectNextSibling_at hget, hns, accumulate]
  | cons y ys ih =>
    intro x fuel r hc hf
    obtain ⟨nd, rest1, hl, hget, hrest⟩ := hc.inv_some
    cases hl
    cases fuel with
    | zero => simp at hf
    | succ k =>
      simp only [List.length_cons, Nat.add_lt_add_iff_right] at hf
      cases hns : nd.p_nextSibling with
      | none => rw [hns] at hrest; have := hrest.inv_none; simp at this
      | some z =>
        rw [hns] at hrest
        obtain ⟨ndy, _, hl2, hgety, _⟩ := hrest.inv_some
        cases hl2
        simp only [sumSiblingsLoop, SelectNextSibling_at hget, hns, Option.isSome_some,
          Data_acc cond hgety]
        rw [ih y k _ hrest hf]
        rfl

theorem SumSiblings_child_acc [Zero T] [Add T] {heap : List (Node T)} {m : List (Int × Nat)}
    (hinv : HeapInv heap m) (cond : Condition T) {a p : Nat} {nd : Node T}
    (hget : heap[a]? = some nd) (hpar : nd.p_parent = some p) {fuel : Nat}
    (hfuel : heap.length ≤ fuel) :
    SumSiblings fuel cond ⟨heap, m, some a⟩ =
      .ok (accumulate 0 ((childrenOf heap p).map (dataAt cond heap)), ⟨heap, m, some a⟩) := by
  have hreg := hinv.reg a nd hget
  have hpa := hinv.par a nd p hget hpar
  have halt := (List.getElem?_eq_some.mp hget).1
  have hplt : p < heap.length := lt_trans hpa halt
  have hpn : heap[p]? = some heap[p] := List.getElem?_eq_getElem hplt
  have hchain := hinv.chain p _ hpn
  have hmem : a ∈ childrenOf heap p := mem_childrenOf.mpr ⟨nd, hget, hpar⟩
  have hlen := childrenOf_length_le heap p
  cases hl : childrenOf heap p with
  | nil => rw [hl] at hmem; cases hmem
  | cons x rest =>
    rw [hl] at hchain hlen
    simp only [List.length_cons] at hlen
    cases hfc : heap[p].p_firstChild with
    | none => rw [hfc] at hchain; have := hchain.inv_none; simp at this
    | some y =>
      rw [hfc] at hchain
      obtain ⟨ndy, _, hl2, hgy, _⟩ := hchain.inv_some
      cases hl2
      have hloop := @sumSiblingsLoop_acc T _ _ heap m cond rest x fuel
        (0 + dataAt cond heap x) hchain (by omega)
      simp only [SumSiblings, CurrentValid, Option.isSome_some, if_true, GetCurrentId_at hget,
        SelectParent_at hget, hpar, SelectFirstChild_at hpn, hfc, Data_acc cond hgy, hloop,
        Select_at hreg]
      rfl

theorem SumSiblings_none [Zero T] [Add T] {heap : List (Node T)} {m : List (Int × Nat)}
    (cond : Condition T) (fuel : Nat) :
    SumSiblings fuel cond ⟨heap, m, none⟩ = .ok (0, ⟨heap, m, none⟩) := by
  simp [SumSiblings, CurrentValid]

theorem SumChildren_acc [Zero T] [Add T] {heap : List (Node T)} {m : List (Int × Nat)}
    (hinv : HeapInv heap m) (cond : Condition T) {a : Nat} {nd : Node T}
    (hget : heap[a]? = some nd) {fuel : Nat} (hfuel : heap.length ≤ fuel) :
    SumChildren fuel cond ⟨heap, m, some a⟩ =
      .ok (0 + accumulate 0 ((childrenOf heap a).map (dataAt cond heap)),
           ⟨heap, m, some a⟩) := by
  have hreg := hinv.reg a nd hget
  have hchain := hinv.chain a nd hget
  cases hfc : nd.p_firstChild with
  | none =>
    rw [hfc] at hchain
    have hnil : childrenOf heap a = [] := hchain.inv_none
    simp only [SumChildren, CurrentValid, Option.isSome_some, if_true, GetCurrentId_at hget,
      SelectFirstChild_at hget, hfc, SumSiblings_none, Select_at hreg, hnil]
    rfl
  | some x =>
    rw [hfc] at hchain
    have hx : x ∈ childrenOf heap a := by
      obtain ⟨_, rest, hl, _, _⟩ := hchain.inv_some
      rw [hl]; exact List.mem_cons_self _ _
    obtain ⟨ndx, hgx, hpx⟩ := mem_childrenOf.mp hx
    simp only [SumChildren, CurrentValid, Option.isSome_some, if_true, GetCurrentId_at hget,
      SelectFirstChild_at hget, hfc, SumSiblings_child_acc hinv cond hgx hpx hfuel,
      Select_at hreg]

theorem sumParentLoop_acc [Zero T] [Add T] {heap : List (Node T)} {m : List (Int × Nat)}
    (cond : Condition T) :
    ∀ (l : List Nat) (a : Nat) (nd : Node T) (fuel : Nat) (r : T),
      heap[a]? = some nd → AncestorChain heap nd.p_parent l → l.length < fuel →
      sumParentLoop cond fuel r ⟨heap, m, some a⟩ =
        .ok (accumulate r (l.map (dataAt cond heap)), ⟨heap, m, none⟩) := by
  intro l
  induction l with
  | nil =>
    intro a nd fuel r hget hc hf
    cases fuel with
    | zero => simp at hf
    | succ k =>
      cases hp : nd.p_parent with
      | none => simp [sumParentLoop, SelectParent_at hget, hp, accumulate]
      | some p => rw [hp] at hc; cases hc
  | cons y ys ih =>
    intro a nd fuel r hget hc hf
    cases fuel with
    | zero => simp at hf
    | succ k =>
      simp only [List.length_cons, Nat.add_lt_add_iff_right] at hf
      cases hp : nd.p_parent with
      | none => rw [hp] at hc; cases hc
      | some p =>
        rw [hp] at hc
        cases hc with
        | @cons _ ndy _ hgety hresty =>
          simp only [sumParentLoop, SelectParent_at hget, hp, Option.isSome_some,
            Data_acc cond hgety]
          rw [ih y ndy k _ hgety hresty hf]
          rfl

theorem SumParent_acc [Zero T] [Add T] {heap : List (Node T)} {m : List (Int × Nat)}
    (hinv : HeapInv heap m) (cond : Condition T) {a : Nat} {nd : Node T}
    (hget : heap[a]? = some nd) {l : List Nat} (hl : AncestorChain heap nd.p_parent l)
    {fuel : Nat} (hfuel : heap.length ≤ fuel) :
    SumParent fuel cond ⟨heap, m, some a⟩ =
      .ok (accumulate 0 (l.map (dataAt cond heap)), ⟨heap, m, some a⟩) := by
  have hreg := hinv.reg a nd hget
  obtain ⟨l1, hl1, hlen, _⟩ := AncestorChain.exists_of_inv hinv a nd hget
  have := hl.path_unique hl1
  subst this
  have halt := (List.getElem?_eq_some.mp hget).1
  have hloop := @sumParentLoop_acc T _ _ heap m cond l a nd fuel 0 hget hl (by omega)
  simp only [SumParent, CurrentValid, Option.isSome_some, if_true, GetCurrentId_at hget, hloop,
    Select_at hreg]

end accum

theorem overflowStep_built {c : Container D6} (hb : Built c) (id parent_id : Int)
    (value : D6) (hfresh : Exists id c = false) : Built (overflowStep id parent_id value c) := by
  obtain ⟨heap1, _, _, hok, _⟩ := AddOne_ok c.heap.length id parent_id ⟨1, value⟩
    hb.heapInv (mapFind_none_of_not_exists hfresh) (le_refl _)
  have h : overflowStep id parent_id value c =
      { heap := heap1 ++ [newCell c.m_map id parent_id ⟨1, value⟩],
        m_map := mapInsert id c.heap.length c.m_map, p_current := c.p_current } := by
    unfold overflowStep AddSecondary
    rw [hok]
  rw [h]
  exact Built.addOne hb hfresh hok

theorem overflowForest_built : Built overflowForest := by
  unfold overflowForest
  refine overflowStep_built (overflowStep_built (overflowStep_built (overflowStep_built
    (overflowStep_built Built.empty 1 0 .zero ?_) 2 1 .zero ?_) 3 1 .neg ?_) 4 2 .pos ?_)
    5 3 .pos ?_ <;> rfl

section accumBranch
variable {T : Type}

theorem branchPostOrder_stable {heap : List (Node T)} {m : List (Int × Nat)}
    (hinv : HeapInv heap m) :
    ∀ (d a : Nat), heap.length ≤ a + d + 1 → ∀ d1, d ≤ d1 →
      branchPostOrder heap d1 a = branchPostOrder heap d a := by
  intro d
  induction d with
  | zero =>
    intro a ha d1 _
    have hnil : childrenOf heap a = [] := by
      apply List.eq_nil_iff_forall_not_mem.mpr
      intro b hb
      have := childrenOf_bounds hinv hb
      omega
    cases d1 with
    | zero => rfl
    | succ e => simp [branchPostOrder, hnil]
  | succ d ih =>
    intro a ha d1 hd1
    cases d1 with
    | zero => omega
    | succ e =>
      simp only [branchPostOrder]
      congr 2
      apply List.map_congr_left
      intro b hb
      have := childrenOf_bounds hinv hb
      exact ih b (by omega) e (by omega)

theorem branchPostOrder_fix {heap : List (Node T)} {m : List (Int × Nat)}
    (hinv : HeapInv heap m) (a : Nat) :
    branchPostOrder heap heap.length a =
      ((childrenOf heap a).map (branchPostOrder heap heap.length)).flatten ++ [a] := by
  have h := branchPostOrder_stable hinv heap.length a (by omega) (heap.length + 1) (by omega)
  rw [← h]
  rfl

theorem flatten_map_perm {f g : Nat → List Nat} :
    ∀ (l : List Nat), (∀ b ∈ l, (f b).Perm (g b)) →
      ((l.map f).flatten).Perm ((l.map g).flatten) := by
  intro l
  induction l with
  | nil => intro _; exact List.Perm.refl _
  | cons x xs ih =>
    intro h
    simp only [List.map_cons, List.flatten_cons]
    exact List.Perm.append (h x (List.mem_cons_self _ _))
      (ih (fun b hb => h b (List.mem_cons_of_mem _ hb)))

theorem branchPostOrder_perm (heap : List (Node T)) :
    ∀ (d a : Nat), (branchPostOrder heap d a).Perm (branchNodes heap d a) := by
  intro d
  induction d with
  | zero => intro a; exact List.Perm.refl _
  | succ d ih =>
    intro a
    simp only [branchPostOrder, branchNodes]
    refine List.Perm.trans List.perm_append_comm ?_
    exact List.Perm.cons a (flatten_map_perm _ (fun b _ => ih b))

theorem SumBranchLoop_acc [Zero T] [Add T] {heap : List (Node T)} {m : List (Int × Nat)}
    (cond : Condition T) :
    ∀ (l : List Nat) (x : Nat), SiblingChain heap (some x) l → l.Pairwise (· < ·) →
      (∀ e ∈ l, e < heap.length) →
      (∀ e ∈ l, ∀ (fuel : Nat) (r : T), 2 * (heap.length - e) ≤ fuel →
        SumBranchAux cond fuel r ⟨heap, m, some e⟩ =
          .ok (accumulate r ((branchPostOrder heap heap.length e).map (dataAt cond heap)),
               ⟨heap, m, some e⟩)) →
      ∀ (fuel : Nat) (r : T), 2 * (heap.length - x) + 1 ≤ fuel →
        SumBranchLoop cond fuel r ⟨heap, m, some x⟩ =
          .ok (accumulate r
                (((l.map (branchPostOrder heap heap.length)).flatten).map (dataAt cond heap)),
               ⟨heap, m, none⟩) := by
  intro l
  induction l with
  | nil => intro x hc; have := hc.inv_some; simp at this
  | cons y ys ih =>
    intro x hc hpw hlt haux fuel r hfuel
    obtain ⟨nd, rest, hl, hget, hrest⟩ := hc.inv_some
    cases hl
    cases fuel with
    | zero => omega
    | succ k =>
      have hx := haux y (List.mem_cons_self _ _) k r (by omega)
      cases hns : nd.p_nextSibling with
      | none =>
        rw [hns] at hrest
        have := hrest.inv_none
        subst this
        simp [SumBranchLoop, hx, SelectNextSibling_at hget, hns]
      | some z =>
        rw [hns] at hrest
        obtain ⟨hxlt, hpw'⟩ := List.pairwise_cons.mp hpw
        have hzmem : z ∈ ys := by
          obtain ⟨_, _, hl, _, _⟩ := hrest.inv_some
          rw [hl]; exact List.mem_cons_self _ _
        have hxz := hxlt z hzmem
        have hzlt := hlt z (List.mem_cons_of_mem _ hzmem)
        have hrec := ih z hrest hpw' (fun e he => hlt e (List.mem_cons_of_mem _ he))
          (fun e he => haux e (List.mem_cons_of_mem _ he)) k
          (accumulate r ((branchPostOrder heap heap.length y).map (dataAt cond heap)))
          (by omega)
        simp only [SumBranchLoop, hx, SelectNextSibling_at hget, hns, Option.isSome_some, hrec,
          List.map_cons, List.flatten_cons, List.map_append, accumulate_append]

theorem SumBranchAux_acc [Zero T] [Add T] {heap : List (Node T)} {m : List (Int × Nat)}
    (hinv : HeapInv heap m) (cond : Condition T) :
    ∀ (k a : Nat) (nd : Node T), heap.length - a ≤ k → heap[a]? = some nd →
      ∀ (fuel : Nat) (r : T), 2 * (heap.length - a) ≤ fuel →
        SumBranchAux cond fuel r ⟨heap, m, some a⟩ =
          .ok (accumulate r ((branchPostOrder heap heap.length a).map (dataAt cond heap)),
               ⟨heap, m, some a⟩) := by
  intro k
  induction k with
  | zero =>
    intro a nd hk hget
    have := (List.getElem?_eq_some.mp hget).1
    omega
  | succ k ih =>
    intro a nd hk hget fuel r hfuel
    have halt := (List.getElem?_eq_some.mp hget).1
    have hreg := hinv.reg a nd hget
    have hchain := hinv.chain a nd hget
    cases fuel with
    | zero => omega
    | succ f =>
      rw [branchPostOrder_fix hinv a]
      cases hfc : nd.p_firstChild with
      | none =>
        rw [hfc] at hchain
        have hnil : childrenOf heap a = [] := hchain.inv_none
        simp only [SumBranchAux, CurrentValid, Option.isSome_some, if_true, GetData_at hget,
          GetCurrentId_at hget, SelectFirstChild_at hget, hfc, Option.isSome_none,
          Bool.false_eq_true, if_false, Select_at hreg, Data_acc cond hget, hnil, List.map_nil,
          List.flatten_nil, List.nil_append, List.map_cons]
        rfl
      | some x =>
        rw [hfc] at hchain
        have hxmem : x ∈ childrenOf heap a := by
          obtain ⟨_, _, hl, _, _⟩ := hchain.inv_some
          rw [hl]; exact List.mem_cons_self _ _
        have hxb := childrenOf_bounds hinv hxmem
        have hloop := @SumBranchLoop_acc T _ _ heap m cond (childrenOf heap a) x hchain
          (childrenOf_pairwise heap a) (fun e he => (childrenOf_bounds hinv he).2)
          (fun e he fuel r hf => by
            have hb := childrenOf_bounds hinv he
            exact ih e heap[e] (by omega) (List.getElem?_eq_getElem hb.2) fuel r hf)
          f r (by omega)
        simp only [SumBranchAux, CurrentValid, Option.isSome_some, if_true, GetData_at hget,
          GetCurrentId_at hget, SelectFirstChild_at hget, hfc, hloop, Select_at hreg,
          Data_acc cond hget, List.map_append, accumulate_append]
        rfl

theorem SumBranch_acc [Zero T] [Add T] {heap : List (Node T)} {m : List (Int × Nat)}
    (hinv : HeapInv heap m) (cond : Condition T) {a : Nat} {nd : Node T}
    (hget : heap[a]? = some nd) {fuel : Nat} (hfuel : 2 * heap.length ≤ fuel) :
    SumBranch fuel cond ⟨heap, m, some a⟩ =
      .ok (accumulate 0 ((branchPostOrder heap heap.length a).map (dataAt cond heap)),
           ⟨heap, m, some a⟩) := by
  have h := SumBranchAux_acc hinv cond heap.length a nd (by omega) hget fuel 0 (by omega)
  unfold SumBranch
  rw [h]

theorem accumulate_eq_add [Zero T] [Add T] (hassoc : ∀ x y z : T, x + y + z = x + (y + z))
    (hzero : ∀ x : T, x + 0 = x) (hzero1 : ∀ x : T, 0 + x = x) :
    ∀ (l : List T) (r : T), accumulate r l = r + accumulate 0 l := by
  intro l
  induction l with
  | nil => intro r; exact (hzero r).symm
  | cons x xs ih =>
    intro r
    show accumulate (r + x) xs = r + accumulate (0 + x) xs
    rw [ih (r + x), ih (0 + x), hzero1, hassoc]

theorem accumulate_flatten [Zero T] [Add T] (hassoc : ∀ x y z : T, x + y + z = x + (y + z))
    (hzero : ∀ x : T, x + 0 = x) (hzero1 : ∀ x : T, 0 + x = x) (f : Nat → List T) :
    ∀ (l : List Nat),
      accumulate 0 ((l.map f).flatten) = (l.map (fun e => accumulate 0 (f e))).sum := by
  intro l
  induction l with
  | nil => rfl
  | cons x xs ih =>
    simp only [List.map_cons, List.flatten_cons, List.sum_cons, accumulate_append]
    rw [accumulate_eq_add hassoc hzero hzero1, ih]

theorem accumulate_dataAt [Zero T] [Add T] (hzero : ∀ x : T, x + 0 = x)
    (hzero1 : ∀ x : T, 0 + x = x) (cond : Condition T) (heap : List (Node T)) :
    ∀ (l : List Nat) (r : T),
      accumulate r (l.map (dataAt cond heap)) =
        accumulate r ((l.filter (satisfies cond heap)).map (quantityAt heap)) := by
  intro l
  induction l with
  | nil => intro r; rfl
  | cons x xs ih =>
    intro r
    show accumulate (r + dataAt cond heap x) _ = _
    by_cases hx : satisfies cond heap x = true
    · rw [List.filter_cons_of_pos hx]
      show _ = accumulate (r + quantityAt heap x) _
      rw [← ih]
      simp [dataAt, hx, hzero1]
    · rw [List.filter_cons_of_neg hx, ← ih]
      simp [dataAt, hx, hzero]

end accumBranch

theorem accumulate_eq_sum {T : Type} [Zero T] [Add T]
    (hassoc : ∀ x y z : T, x + y + z = x + (y + z))
    (hzero : ∀ x : T, x + 0 = x) (hzero1 : ∀ x : T, 0 + x = x) :
    ∀ (l : List T), accumulate 0 l = l.sum := by
  intro l
  induction l with
  | nil => rfl
  | cons x xs ih =>
    show accumulate (0 + x) xs = _
    rw [accumulate_eq_add hassoc hzero hzero1, hzero1, ih, List.sum_cons]

/-- Counterexample for C3 on the forest `1 <- {2, 3}`, `2 <- 4`, `3 <- 5`
with the `double` quantities `0`, `0`, `-1e308`, `1e308`, `1e308`:
`SumBranch` at id 1 accumulates `1e308 + 0 + 1e308 + -1e308 + 0` from left
to right and returns plus infinity, whereas `Data` at id 1 is `0`,
`SumBranch` at id 2 is `1e308` and `SumBranch` at id 3 is `0`, which add up
to `1e308` in every order. -/
theorem SumBranch_decomposition_fails :
    Built overflowForest ∧
    overflowForest.heap.map (fun nd => (nd.m_id, nd.p_parent, nd.m_data.data)) =
      [(1, none, D6.zero), (2, some 0, D6.zero), (3, some 0, D6.neg),
       (4, some 1, D6.pos), (5, some 2, D6.pos)] ∧
    Select 1 overflowForest = .ok (overflowAt 0) ∧
    childrenOf overflowForest.heap 0 = [1, 2] ∧
    SumBranch 10 alwaysTrue (overflowAt 0) = .ok (D6.pinf, overflowAt 0) ∧
    Data alwaysTrue (overflowAt 0) = .ok D6.zero ∧
    SumBranch 10 alwaysTrue (overflowAt 1) = .ok (D6.pos, overflowAt 1) ∧
    SumBranch 10 alwaysTrue (overflowAt 2) = .ok (D6.zero, overflowAt 2) ∧
    D6.zero + (D6.pos + D6.zero) = D6.pos ∧ (D6.zero + D6.pos) + D6.zero = D6.pos ∧
    D6.zero + (D6.zero + D6.pos) = D6.pos ∧ (D6.zero + D6.zero) + D6.pos = D6.pos ∧
    (D6.pos + D6.zero) + D6.zero = D6.pos ∧ D6.pos + (D6.zero + D6.zero) = D6.pos ∧
    D6.pos ≠ D6.pinf :=
  ⟨overflowForest_built, rfl, rfl, by decide, rfl, rfl, rfl, rfl, rfl, rfl, rfl, rfl, rfl, rfl,
    by decide⟩

/-- Claim C3, amended: in a built forest with the cursor on the node at
address `a`, `SumBranch` returns the value obtained by starting from `T()`
and adding with `+=`, from left to right, the value `Data` of every node of
the branch of `a` in depth-first post-order (the branches of the children
in sibling order, then `a`); this list holds `a` and all its descendants.
When `+` on `T` is associative and commutative and `T()` is neutral, the
result is `Data` at the cursor plus the sum, over the direct children of
`a`, of `SumBranch` taken at each child, and it is the sum of the
quantities of the nodes of the branch that satisfy `cond`. -/
theorem SumBranch_accumulates_post_order {T : Type} [Zero T] [Add T] (c c1 : Container T)
    (hb : Built c) (id : Int) (hs : Select id c = .ok c1) (a : Nat)
    (hcur : c1.p_current = some a) (cond : Condition T) (fuel : Nat)
    (hf : 2 * c.heap.length ≤ fuel) :
    SumBranch fuel cond c1 =
        .ok (accumulate 0 ((branchPostOrder c1.heap c1.heap.length a).map
          (dataAt cond c1.heap)), c1) ∧
      branchPostOrder c1.heap c1.heap.length a =
        ((childrenOf c1.heap a).map (branchPostOrder c1.heap c1.heap.length)).flatten ++ [a] ∧
      (branchPostOrder c1.heap c1.heap.length a).Perm
        (branchNodes c1.heap c1.heap.length a) ∧
      ((∀ x y z : T, x + y + z = x + (y + z)) → (∀ x y : T, x + y = y + x) →
        (∀ x : T, 0 + x = x) →
        ∃ (v d : T) (w : Nat → T),
          SumBranch fuel cond c1 = .ok (v, c1) ∧
          Data cond c1 = .ok d ∧
          (∀ ch ∈ childrenOf c1.heap a,
            SumBranch fuel cond { c1 with p_current := some ch } =
              .ok (w ch, { c1 with p_current := some ch })) ∧
          v = d + ((childrenOf c1.heap a).map w).sum ∧
          v = sumOver cond c1.heap (branchPostOrder c1.heap c1.heap.length a)) := by
  have hinv := hb.heapInv
  obtain ⟨a1, nd, hc1, hget, _⟩ := hb.select hs
  subst hc1
  cases hcur
  have hrun := SumBranch_acc hinv cond hget hf
  refine ⟨hrun, branchPostOrder_fix hinv a, branchPostOrder_perm _ _ _, ?_⟩
  intro hassoc hcomm hzero1
  have hzero : ∀ x : T, x + 0 = x := fun x => by rw [hcomm]; exact hzero1 x
  refine ⟨_, dataAt cond c.heap a,
    fun e => accumulate 0 ((branchPostOrder c.heap c.heap.length e).map (dataAt cond c.heap)),
    hrun, Data_acc cond hget, ?_, ?_, ?_⟩
  · intro ch hch
    have hb2 := childrenOf_bounds hinv hch
    exact SumBranch_acc hinv cond (List.getElem?_eq_getElem hb2.2) hf
  · show accumulate 0 ((branchPostOrder c.heap c.heap.length a).map (dataAt cond c.heap)) = _
    rw [branchPostOrder_fix hinv a, List.map_append, accumulate_append, List.map_flatten,
      List.map_map]
    rw [accumulate_flatten hassoc hzero hzero1
      ((List.map (dataAt cond c.heap)) ∘ (branchPostOrder c.heap c.heap.length))]
    show (_ + dataAt cond c.heap a) = _
    rw [hcomm]
    rfl
  · show accumulate 0 ((branchPostOrder c.heap c.heap.length a).map (dataAt cond c.heap)) = _
    rw [accumulate_dataAt hzero hzero1, accumulate_eq_sum hassoc hzero hzero1]
    rfl

/-- Witness of C3 on the reference forest, cursor on id 4 (address 3). -/
theorem SumBranch_accumulates_post_order_witness :
    Built referenceForest ∧ Select 4 referenceForest = .ok (referenceAt 3) ∧
    (referenceAt 3).p_current = some 3 ∧ 2 * referenceForest.heap.length ≤ 18 ∧
    (SumBranch 18 alwaysTrue (referenceAt 3) =
        .ok (accumulate 0 ((branchPostOrder (referenceAt 3).heap (referenceAt 3).heap.length
          3).map (dataAt alwaysTrue (referenceAt 3).heap)), referenceAt 3) ∧
      branchPostOrder (referenceAt 3).heap (referenceAt 3).heap.length 3 =
        ((childrenOf (referenceAt 3).heap 3).map
          (branchPostOrder (referenceAt 3).heap (referenceAt 3).heap.length)).flatten ++ [3] ∧
      (branchPostOrder (referenceAt 3).heap (referenceAt 3).heap.length 3).Perm
        (branchNodes (referenceAt 3).heap (referenceAt 3).heap.length 3) ∧
      ((∀ x y z : Int, x + y + z = x + (y + z)) → (∀ x y : Int, x + y = y + x) →
        (∀ x : Int, 0 + x = x) →
        ∃ (v d : Int) (w : Nat → Int),
          SumBranch 18 alwaysTrue (referenceAt 3) = .ok (v, referenceAt 3) ∧
          Data alwaysTrue (referenceAt 3) = .ok d ∧
          (∀ ch ∈ childrenOf (referenceAt 3).heap 3,
            SumBranch 18 alwaysTrue { referenceAt 3 with p_current := some ch } =
              .ok (w ch, { referenceAt 3 with p_current := some ch })) ∧
          v = d + ((childrenOf (referenceAt 3).heap 3).map w).sum ∧
          v = sumOver alwaysTrue (referenceAt 3).heap
            (branchPostOrder (referenceAt 3).heap (referenceAt 3).heap.length 3))) :=
  ⟨referenceForest_built, rfl, rfl, by decide,
    SumBranch_accumulates_post_order referenceForest (referenceAt 3) referenceForest_built
      4 rfl 3 rfl alwaysTrue 18 (by decide)⟩

/-- Claim C4: in a built forest with the cursor on a node `a` whose parent
is `p`, `SumSiblings` returns the value obtained by starting from `T()` and
adding with `+=`, in sibling order, the value `Data` of every child of `p`
(its quantity when it satisfies `cond`, `T()` otherwise); `a` is one of
these children and every node with parent `p` gives the same total. When
`T()` is neutral for `+` this is the left-to-right sum of the quantities of
the children of `p` that satisfy `cond`. -/
theorem SumSiblings_sums_children_of_parent {T : Type} [Zero T] [Add T]
    (c c1 : Container T) (hb : Built c) (id : Int) (hs : Select id c = .ok c1) (a p : Nat)
    (hcur : c1.p_current = some a) (hp : parentOf c1.heap a = some p) (cond : Condition T)
    (fuel : Nat) (hf : c.heap.length ≤ fuel) :
    SumSiblings fuel cond c1 =
        .ok (accumulate 0 ((childrenOf c1.heap p).map (dataAt cond c1.heap)), c1) ∧
      a ∈ childrenOf c1.heap p ∧
      (∀ (id2 : Int) (c2 : Container T) (a2 : Nat), Select id2 c = .ok c2 →
        c2.p_current = some a2 → parentOf c2.heap a2 = some p →
        ∃ v, SumSiblings fuel cond c1 = .ok (v, c1) ∧
          SumSiblings fuel cond c2 = .ok (v, c2)) ∧
      ((∀ x : T, x + 0 = x) → (∀ x : T, 0 + x = x) →
        SumSiblings fuel cond c1 =
          .ok (accumulate 0 (((childrenOf c1.heap p).filter (satisfies cond c1.heap)).map
            (quantityAt c1.heap)), c1)) := by
  have hinv := hb.heapInv
  obtain ⟨a1, nd, hc1, hget, _⟩ := hb.select hs
  subst hc1
  cases hcur
  have hp1 : nd.p_parent = some p := by rw [← parentOf_eq hget]; exact hp
  have h1 := SumSiblings_child_acc hinv cond hget hp1 hf
  refine ⟨h1, mem_childrenOf.mpr ⟨nd, hget, hp1⟩, ?_, ?_⟩
  · intro id2 c2 a2 hs2 hcur2 hp2
    obtain ⟨a3, nd2, hc2, hget2, _⟩ := hb.select hs2
    subst hc2
    cases hcur2
    have hp3 : nd2.p_parent = some p := by rw [← parentOf_eq hget2]; exact hp2
    exact ⟨_, h1, SumSiblings_child_acc hinv cond hget2 hp3 hf⟩
  · intro hzero hzero1
    rw [h1, accumulate_dataAt hzero hzero1]

/-- Witness of C4 on the reference forest, cursor on id 4 (address 3),
whose parent is id 2 (address 1). -/
theorem SumSiblings_sums_children_of_parent_witness :
    Built referenceForest ∧ Select 4 referenceForest = .ok (referenceAt 3) ∧
    (referenceAt 3).p_current = some 3 ∧ parentOf (referenceAt 3).heap 3 = some 1 ∧
    referenceForest.heap.length ≤ 9 ∧
    (SumSiblings 9 alwaysTrue (referenceAt 3) =
        .ok (accumulate 0 ((childrenOf (referenceAt 3).heap 1).map
          (dataAt alwaysTrue (referenceAt 3).heap)), referenceAt 3) ∧
      3 ∈ childrenOf (referenceAt 3).heap 1 ∧
      (∀ (id2 : Int) (c2 : Container Int) (a2 : Nat), Select id2 referenceForest = .ok c2 →
        c2.p_current = some a2 → parentOf c2.heap a2 = some 1 →
        ∃ v, SumSiblings 9 alwaysTrue (referenceAt 3) = .ok (v, referenceAt 3) ∧
          SumSiblings 9 alwaysTrue c2 = .ok (v, c2)) ∧
      ((∀ x : Int, x + 0 = x) → (∀ x : Int, 0 + x = x) →
        SumSiblings 9 alwaysTrue (referenceAt 3) =
          .ok (accumulate 0 (((childrenOf (referenceAt 3).heap 1).filter
            (satisfies alwaysTrue (referenceAt 3).heap)).map
            (quantityAt (referenceAt 3).heap)), referenceAt 3))) :=
  ⟨referenceForest_built, rfl, rfl, rfl, by decide,
    SumSiblings_sums_children_of_parent referenceForest (referenceAt 3) referenceForest_built
      4 rfl 3 1 rfl rfl alwaysTrue 9 (by decide)⟩

/-- Claim C6: in a built forest with the cursor on the node at address `a`,
`SumChildren` returns `T()` plus the value obtained by starting from `T()`
and adding with `+=`, in sibling order, the value `Data` of every direct
child of `a` (its quantity when it satisfies `cond`, `T()` otherwise), the
direct children being exactly the cells whose parent pointer is `a`; `a` is
not among them, and the result is `T() + T()` when `a` has no children.
When `T()` is neutral for `+` the result is the left-to-right sum of the
quantities of the direct children that satisfy `cond`, and zero when there
are none. -/
theorem SumChildren_sums_direct_children {T : Type} [Zero T] [Add T]
    (c c1 : Container T) (hb : Built c) (id : Int) (hs : Select id c = .ok c1) (a : Nat)
    (hcur : c1.p_current = some a) (cond : Condition T) (fuel : Nat)
    (hf : c.heap.length ≤ fuel) :
    SumChildren fuel cond c1 =
        .ok (0 + accumulate 0 ((childrenOf c1.heap a).map (dataAt cond c1.heap)), c1) ∧
      (∀ b, b ∈ childrenOf c1.heap a ↔ parentOf c1.heap b = some a) ∧
      a ∉ childrenOf c1.heap a ∧
      (childrenOf c1.heap a = [] → SumChildren fuel cond c1 = .ok (0 + 0, c1)) ∧
      ((∀ x : T, x + 0 = x) → (∀ x : T, 0 + x = x) →
        SumChildren fuel cond c1 =
            .ok (accumulate 0 (((childrenOf c1.heap a).filter (satisfies cond c1.heap)).map
              (quantityAt c1.heap)), c1) ∧
          (childrenOf c1.heap a = [] → SumChildren fuel cond c1 = .ok (0, c1))) := by
  have hinv := hb.heapInv
  obtain ⟨a1, nd, hc1, hget, _⟩ := hb.select hs
  subst hc1
  cases hcur
  have h1 := SumChildren_acc hinv cond hget hf
  refine ⟨h1, fun b => mem_childrenOf_iff_parentOf, ?_, ?_, ?_⟩
  · intro hmem
    have := (childrenOf_bounds hinv hmem).1
    omega
  · intro hnil
    show SumChildren fuel cond _ = _
    rw [h1]
    show Except.ok (0 + accumulate 0 ((childrenOf c.heap a).map (dataAt cond c.heap)), _) = _
    rw [hnil]
    rfl
  · intro hzero hzero1
    have h2 : SumChildren fuel cond ⟨c.heap, c.m_map, some a⟩ =
        .ok (accumulate 0 (((childrenOf c.heap a).filter (satisfies cond c.heap)).map
          (quantityAt c.heap)), ⟨c.heap, c.m_map, some a⟩) := by
      rw [h1, hzero1, accumulate_dataAt hzero hzero1]
    refine ⟨h2, ?_⟩
    intro hnil
    show SumChildren fuel cond _ = _
    rw [h2]
    show Except.ok (accumulate 0 (((childrenOf c.heap a).filter (satisfies cond c.heap)).map
          (quantityAt c.heap)), _) = _
    rw [hnil]
    rfl

/-- Witness of C6 on the reference forest, cursor on id 4 (address 3). -/
theorem SumChildren_sums_direct_children_witness :
    Built referenceForest ∧ Select 4 referenceForest = .ok (referenceAt 3) ∧
    (referenceAt 3).p_current = some 3 ∧ referenceForest.heap.length ≤ 9 ∧
    (SumChildren 9 elefilter (referenceAt 3) =
        .ok (0 + accumulate 0 ((childrenOf (referenceAt 3).heap 3).map
          (dataAt elefilter (referenceAt 3).heap)), referenceAt 3) ∧
      (∀ b, b ∈ childrenOf (referenceAt 3).heap 3 ↔
        parentOf (referenceAt 3).heap b = some 3) ∧
      3 ∉ childrenOf (referenceAt 3).heap 3 ∧
      (childrenOf (referenceAt 3).heap 3 = [] →
        SumChildren 9 elefilter (referenceAt 3) = .ok (0 + 0, referenceAt 3)) ∧
      ((∀ x : Int, x + 0 = x) → (∀ x : Int, 0 + x = x) →
        SumChildren 9 elefilter (referenceAt 3) =
            .ok (accumulate 0 (((childrenOf (referenceAt 3).heap 3).filter
              (satisfies elefilter (referenceAt 3).heap)).map
              (quantityAt (referenceAt 3).heap)), referenceAt 3) ∧
          (childrenOf (referenceAt 3).heap 3 = [] →
            SumChildren 9 elefilter (referenceAt 3) = .ok (0, referenceAt 3)))) :=
  ⟨referenceForest_built, rfl, rfl, by decide,
    SumChildren_sums_direct_children referenceForest (referenceAt 3) referenceForest_built
      4 rfl 3 rfl elefilter 9 (by decide)⟩

/-- Claim C7: in a built forest with the cursor on the node at address `a`,
`SumParent` returns the value obtained by starting from `T()` and adding
with `+=`, nearest first, the value `Data` of every strict ancestor of `a`
(parent, grandparent, ... up to the root; its quantity when it satisfies
`cond`, `T()` otherwise); `a` is not in that list, and the result is zero
when `a` is a root. When `T()` is neutral for `+` the result is the sum,
nearest first, of the quantities of the strict ancestors that satisfy
`cond`. -/
theorem SumParent_sums_strict_ancestors {T : Type} [Zero T] [Add T]
    (c c1 : Container T) (hb : Built c) (id : Int) (hs : Select id c = .ok c1) (a : Nat)
    (hcur : c1.p_current = some a) (cond : Condition T) (fuel : Nat)
    (hf : c.heap.length ≤ fuel) :
    ∃ anc, AncestorChain c1.heap (parentOf c1.heap a) anc ∧ a ∉ anc ∧
      SumParent fuel cond c1 =
        .ok (accumulate 0 (anc.map (dataAt cond c1.heap)), c1) ∧
      (parentOf c1.heap a = none → SumParent fuel cond c1 = .ok (0, c1)) ∧
      ((∀ x : T, x + 0 = x) → (∀ x : T, 0 + x = x) →
        SumParent fuel cond c1 =
          .ok (accumulate 0 ((anc.filter (satisfies cond c1.heap)).map (quantityAt c1.heap)),
               c1)) := by
  have hinv := hb.heapInv
  obtain ⟨a1, nd, hc1, hget, _⟩ := hb.select hs
  subst hc1
  cases hcur
  obtain ⟨anc, hanc, _, hlt⟩ := AncestorChain.exists_of_inv hinv a nd hget
  have h1 := SumParent_acc hinv cond hget hanc hf
  refine ⟨anc, ?_, ?_, h1, ?_, ?_⟩
  · show AncestorChain c.heap (parentOf c.heap a) anc
    rw [parentOf_eq hget]; exact hanc
  · intro hmem
    have := hlt a hmem
    omega
  · intro hroot
    have hroot1 : parentOf c.heap a = none := hroot
    rw [parentOf_eq hget] at hroot1
    rw [hroot1] at hanc
    cases hanc
    exact h1
  · intro hzero hzero1
    rw [h1, accumulate_dataAt hzero hzero1]

/-- Witness of C7 on the reference forest, cursor on id 8 (address 7). -/
theorem SumParent_sums_strict_ancestors_witness :
    Built referenceForest ∧ Select 8 referenceForest = .ok (referenceAt 7) ∧
    (referenceAt 7).p_current = some 7 ∧ referenceForest.heap.length ≤ 9 ∧
    ∃ anc, AncestorChain (referenceAt 7).heap (parentOf (referenceAt 7).heap 7) anc ∧
      7 ∉ anc ∧
      SumParent 9 alwaysTrue (referenceAt 7) =
        .ok (accumulate 0 (anc.map (dataAt alwaysTrue (referenceAt 7).heap)),
             referenceAt 7) ∧
      (parentOf (referenceAt 7).heap 7 = none →
        SumParent 9 alwaysTrue (referenceAt 7) = .ok (0, referenceAt 7)) ∧
      ((∀ x : Int, x + 0 = x) → (∀ x : Int, 0 + x = x) →
        SumParent 9 alwaysTrue (referenceAt 7) =
          .ok (accumulate 0 ((anc.filter (satisfies alwaysTrue (referenceAt 7).heap)).map
            (quantityAt (referenceAt 7).heap)), referenceAt 7)) :=
  ⟨referenceForest_built, rfl, rfl, by decide,
    SumParent_sums_strict_ancestors referenceForest (referenceAt 7) referenceForest_built
      8 rfl 7 rfl alwaysTrue 9 (by decide)⟩

/-- Claim C14: in a built forest, whatever the cursor, `GetSumParents` on a
registered id sets `result` to the value obtained by starting from `T()`
and adding with `+=`, nearest first, the value `Data` of every strict
ancestor of its node (its quantity when it satisfies `cond`, `T()`
otherwise), and returns true exactly when at least one strict ancestor
satisfies `cond`. When `T()` is neutral for `+` the value set is the sum,
nearest first, of the quantities of the strict ancestors that satisfy
`cond`. -/
theorem GetSumParents_sums_and_reports {T : Type} [Zero T] [Add T] (c : Container T)
    (hb : Built c) (cur : Option Nat) (id : Int) (hex : Exists id c = true) (result : T)
    (cond : Condition T) (fuel : Nat) (hf : c.heap.length ≤ fuel) :
    ∃ a anc b c1, mapFind id c.m_map = some a ∧
      AncestorChain c.heap (parentOf c.heap a) anc ∧
      GetSumParents fuel id result cond { c with p_current := cur } =
        .ok (b, accumulate 0 (anc.map (dataAt cond c.heap)), c1) ∧
      (b = true ↔ ∃ x ∈ anc, satisfies cond c.heap x = true) ∧
      ((∀ x : T, x + 0 = x) → (∀ x : T, 0 + x = x) →
        GetSumParents fuel id result cond { c with p_current := cur } =
          .ok (b, accumulate 0 ((anc.filter (satisfies cond c.heap)).map (quantityAt c.heap)),
               c1)) := by
  have hinv := hb.heapInv
  obtain ⟨a, hm⟩ := mapFind_of_exists hex
  obtain ⟨nd, hget, hid⟩ := hinv.map_ok id a hm
  obtain ⟨anc, hanc, _, _⟩ := AncestorChain.exists_of_inv hinv a nd hget
  obtain ⟨heap, m, cur0⟩ := c
  simp only at hinv hm hget hanc hf ⊢
  have hrun : GetSumParents fuel id result cond ⟨heap, m, cur⟩ =
      .ok ((nearestMatch cond heap 0 anc).1, accumulate 0 (anc.map (dataAt cond heap)),
        ⟨heap, m, some a⟩) := by
    simp only [GetSumParents, Exists, hm, Option.isSome_some, if_true, Select,
      SumParent_acc hinv cond hget hanc hf, HasParent_at hinv cond 0 hget hanc hf]
  refine ⟨a, anc, (nearestMatch cond heap 0 anc).1, ⟨heap, m, some a⟩, hm, ?_, hrun,
    nearestMatch_fst_iff cond heap 0 anc, ?_⟩
  · rw [parentOf_eq hget]; exact hanc
  · intro hzero hzero1
    rw [hrun, accumulate_dataAt hzero hzero1]

/-- Evaluation for C23 on the reference forest: after `Select(3)` and
`Clear()` the map is empty while the cursor still holds the address of the
deleted node with id 3, so `CurrentValid` is true; each engine operation
entered in that state reads id 3 from the deleted node and ends in `Select`
on an id that is missing from the map. -/
theorem engine_selects_missing_id_after_Clear :
    Built referenceForest ∧
    Select 3 referenceForest = .ok (referenceAt 2) ∧
    (Clear (referenceAt 2)).1.m_map = [] ∧
    (Clear (referenceAt 2)).1.p_current = some 2 ∧
    2 ∈ (Clear (referenceAt 2)).2 ∧
    CurrentValid (Clear (referenceAt 2)).1 = true ∧
    GetCurrentId (Clear (referenceAt 2)).1 = .ok 3 ∧
    Exists 3 (Clear (referenceAt 2)).1 = false ∧
    Select 3 (Clear (referenceAt 2)).1 = .error .missingId ∧
    SumSiblings 18 alwaysTrue (Clear (referenceAt 2)).1 = .error .missingId ∧
    SumChildren 18 alwaysTrue (Clear (referenceAt 2)).1 = .error .missingId ∧
    SumBranch 18 alwaysTrue (Clear (referenceAt 2)).1 = .error .missingId ∧
    SumParent 18 alwaysTrue (Clear (referenceAt 2)).1 = .error .missingId ∧
    HasParent 18 0 alwaysTrue (Clear (referenceAt 2)).1 = .error .missingId :=
  ⟨referenceForest_built, rfl, rfl, rfl, by decide, rfl, rfl, rfl, rfl, rfl, rfl, rfl, rfl,
    rfl⟩

/-- Witness of C14 on the reference forest: `GetSumParents(6)` with the
predicate `e-`. -/
theorem GetSumParents_sums_and_reports_witness :
    Built referenceForest ∧ Exists 6 referenceForest = true ∧
    referenceForest.heap.length ≤ 9 ∧
    ∃ a anc b c1, mapFind 6 referenceForest.m_map = some a ∧
      AncestorChain referenceForest.heap (parentOf referenceForest.heap a) anc ∧
      GetSumParents 9 6 0 elefilter { referenceForest with p_current := none } =
        .ok (b, accumulate 0 (anc.map (dataAt elefilter referenceForest.heap)), c1) ∧
      (b = true ↔ ∃ x ∈ anc, satisfies elefilter referenceForest.heap x = true) ∧
      ((∀ x : Int, x + 0 = x) → (∀ x : Int, 0 + x = x) →
        GetSumParents 9 6 0 elefilter { referenceForest with p_current := none } =
          .ok (b, accumulate 0 ((anc.filter (satisfies elefilter referenceForest.heap)).map
            (quantityAt referenceForest.heap)), c1)) :=
  ⟨referenceForest_built, rfl, by decide,
    GetSumParents_sums_and_reports referenceForest referenceForest_built none 6 rfl 0
      elefilter 9 (by decide)⟩

end G4ShowerMap
